import Mathlib

/-!
# Verification of the `spandex` snippet-migration core

This development shallowly embeds the core of the `spandex` repository
(package `expander` and its two backends `textexpander` and `autokey`)
and proves/refutes the frozen claims about it.

Modelling conventions:

* Go pointers are modelled by value trees.  Where a claim talks about a
  pointer identity (the `Parent` back-references of `Snippet` and `Group`),
  the pointer is abstracted as an id of type `Option Nat` (`none` = `nil`);
  the merge engine never touches these fields, exactly like the Go code.
* `time.Time` values are modelled as integers (nanoseconds since epoch);
  `t1.Before(t2)` is `t1 < t2`.
* Filesystem paths are modelled as segment lists (`List String`);
  group and snippet names are path segments (the repository's data-model
  invariant).  The filesystem is an association list from paths to
  entries, with explicit directory entries created by `MkdirAll`.
-/

namespace Spandex

/-- Embeds `expander.Snippet` (`expander.go`): `Name`, `Abbr`, `Text`,
`Parent` (abstracted to an id), `ModTime`. -/
structure Snippet where
  name : String
  abbr : String
  text : String
  parent : Option Nat
  modTime : Int
deriving DecidableEq, Repr

/-- Embeds `expander.Group` (`expander.go`): `Name`, `Snippets`, `Groups`,
`Parent` (abstracted to an id).  The extra `ref` field is the group's own
abstract heap id, used only to state claims about parent references. -/
inductive Group where
  | mk (ref : Nat) (name : String) (snippets : List Snippet)
       (groups : List Group) (parent : Option Nat)

namespace Group

def ref : Group → Nat
  | .mk r _ _ _ _ => r

def name : Group → String
  | .mk _ n _ _ _ => n

def snippets : Group → List Snippet
  | .mk _ _ ss _ _ => ss

def groups : Group → List Group
  | .mk _ _ _ gs _ => gs

def parent : Group → Option Nat
  | .mk _ _ _ _ p => p

@[simp] theorem ref_mk (r n ss gs p) : (Group.mk r n ss gs p).ref = r := rfl
@[simp] theorem name_mk (r n ss gs p) : (Group.mk r n ss gs p).name = n := rfl
@[simp] theorem snippets_mk (r n ss gs p) :
    (Group.mk r n ss gs p).snippets = ss := rfl
@[simp] theorem groups_mk (r n ss gs p) :
    (Group.mk r n ss gs p).groups = gs := rfl
@[simp] theorem parent_mk (r n ss gs p) :
    (Group.mk r n ss gs p).parent = p := rfl

/-- Replace the `snippets` field (Go mutates `g.Snippets` in place). -/
def withSnippets : Group → List Snippet → Group
  | .mk r n _ gs p, ss => .mk r n ss gs p

/-- Replace the `groups` field (Go mutates `g.Groups` in place). -/
def withGroups : Group → List Group → Group
  | .mk r n ss _ p, gs => .mk r n ss gs p

@[simp] theorem withSnippets_mk (r n ss gs p ss') :
    (Group.mk r n ss gs p).withSnippets ss' = .mk r n ss' gs p := rfl
@[simp] theorem withGroups_mk (r n ss gs p gs') :
    (Group.mk r n ss gs p).withGroups gs' = .mk r n ss gs' p := rfl

/-- One step of the inner loop of `Group.mergeSnippets` (`expander.go`):
scan `g.Snippets` for the first entry with the incoming snippet's name;
overwrite it in place if found, append the incoming snippet otherwise.
The incoming snippet is stored as-is (its `Parent` field in particular is
not modified). -/
def upsertSnippet : List Snippet → Snippet → List Snippet
  | [], s => [s]
  | x :: xs, s => if s.name = x.name then s :: xs else x :: upsertSnippet xs s

/-- Embeds `Group.mergeSnippets` (`expander.go`): upsert each incoming
snippet in order. -/
def mergeSnippets (g : Group) (snippets : List Snippet) : Group :=
  g.withSnippets (snippets.foldl upsertSnippet g.snippets)

end Group

mutual

/-- Embeds `Group.Merge` (`expander.go`): merge the incoming group's child
groups, then upsert its snippets. -/
def Group.merge (g : Group) (other : Group) : Group :=
  match other with
  | .mk _ _ ss gs _ => Group.mergeSnippets (Group.mergeAll g gs) ss
termination_by (sizeOf other, 0)
decreasing_by all_goals (simp_wf; simp [Prod.lex_iff]; try omega)

/-- Embeds `Group.MergeAll` (`expander.go`): for each incoming child group
in order, merge it into the first target child of the same name, appending
it if no target child matches. -/
def Group.mergeAll (g : Group) (groups : List Group) : Group :=
  match groups with
  | [] => g
  | right :: rest =>
      Group.mergeAll (g.withGroups (Group.mergeInto g.groups right)) rest
termination_by (sizeOf groups, 0)
decreasing_by all_goals (simp_wf; simp [Prod.lex_iff]; try omega)

/-- The inner loop of `Group.MergeAll` (`expander.go`): scan the target's
child list for the first group with the incoming group's name; recursively
merge into it in place if found, append the incoming group otherwise (the
appended group is stored as-is, its `Parent` field is not modified). -/
def Group.mergeInto (l : List Group) (right : Group) : List Group :=
  match l with
  | [] => [right]
  | left :: xs =>
      if left.name = right.name then Group.merge left right :: xs
      else left :: Group.mergeInto xs right
termination_by (sizeOf right, 1 + sizeOf l)
decreasing_by all_goals (simp_wf; simp [Prod.lex_iff]; try omega)

end

namespace Group

@[simp] theorem withGroups_groups (g : Group) : (g.withGroups gs).groups = gs := by
  cases g; rfl

@[simp] theorem withGroups_snippets (g : Group) :
    (g.withGroups gs).snippets = g.snippets := by cases g; rfl

@[simp] theorem withGroups_self (g : Group) : g.withGroups g.groups = g := by
  cases g; rfl

theorem withGroups_withGroups (g : Group) (a b : List Group) :
    (g.withGroups a).withGroups b = g.withGroups b := by cases g; rfl

@[simp] theorem mergeAll_nil (g : Group) : Group.mergeAll g [] = g := by
  simp [Group.mergeAll]

theorem mergeAll_cons (g : Group) (right : Group) (rest : List Group) :
    Group.mergeAll g (right :: rest) =
      Group.mergeAll (g.withGroups (Group.mergeInto g.groups right)) rest := by
  simp [Group.mergeAll]

@[simp] theorem mergeInto_nil (right : Group) :
    Group.mergeInto [] right = [right] := by simp [Group.mergeInto]

theorem mergeInto_cons (left : Group) (xs : List Group) (right : Group) :
    Group.mergeInto (left :: xs) right =
      if left.name = right.name then Group.merge left right :: xs
      else left :: Group.mergeInto xs right := by
  simp [Group.mergeInto]

/-- `MergeAll` only rewrites the `Groups` field: it folds the per-group
upsert over the incoming list. -/
theorem mergeAll_eq (gs : List Group) (g : Group) :
    Group.mergeAll g gs = g.withGroups (gs.foldl Group.mergeInto g.groups) := by
  induction gs generalizing g with
  | nil => simp
  | cons right rest ih =>
      rw [mergeAll_cons, ih, withGroups_withGroups]
      simp

/-- Normal form of `Group.Merge`: the result keeps the target's identity
fields and folds the snippet/group upserts over the incoming children. -/
theorem merge_def (g o : Group) :
    Group.merge g o =
      Group.mk g.ref g.name (o.snippets.foldl Group.upsertSnippet g.snippets)
        (o.groups.foldl Group.mergeInto g.groups) g.parent := by
  cases g with
  | mk r n ss gs p =>
      cases o with
      | mk r' n' ss' gs' p' =>
          simp [Group.merge, mergeAll_eq, Group.mergeSnippets]

@[simp] theorem merge_ref (g o : Group) : (Group.merge g o).ref = g.ref := by
  rw [merge_def]; rfl

@[simp] theorem merge_name (g o : Group) : (Group.merge g o).name = g.name := by
  rw [merge_def]; rfl

@[simp] theorem merge_parent (g o : Group) :
    (Group.merge g o).parent = g.parent := by rw [merge_def]; rfl

theorem merge_snippets (g o : Group) :
    (Group.merge g o).snippets = o.snippets.foldl Group.upsertSnippet g.snippets := by
  rw [merge_def]; rfl

theorem merge_groups (g o : Group) :
    (Group.merge g o).groups = o.groups.foldl Group.mergeInto g.groups := by
  rw [merge_def]; rfl

end Group

/-! ## Path computation (`Group.Path` / `Snippet.Path`, `expander.go`)

`Path` reads only the node's `Name` and the chain of `Parent` pointers, so
that chain is embedded directly: a `PGroup` is a name plus an optional
parent chain (`none` = Go `nil`). -/

/-- The parent-chain view of a `Group` as read by `Group.Path`. -/
inductive PGroup where
  | mk (name : String) (parent : Option PGroup)

namespace PGroup

def name : PGroup → String
  | .mk n _ => n

def parent : PGroup → Option PGroup
  | .mk _ p => p

end PGroup

/-- One segment of Go `path.Clean`'s lexical algorithm: push a path
component onto the output stack, resolving `""`, `"."` and `".."`. -/
def cleanPush (rooted : Bool) (stack : List String) (seg : String) : List String :=
  if seg = "" ∨ seg = "." then stack
  else if seg = ".." then
    match stack with
    | [] => if rooted then [] else [".."]
    | top :: rest => if top = ".." then seg :: top :: rest else rest
  else seg :: stack

/-- Embeds Go `path.Clean` (used by `path.Join`): lexical simplification of
a slash-separated path. -/
def goClean (p : String) : String :=
  if p = "" then "."
  else
    let rooted := p.startsWith "/"
    let comps := (p.splitOn "/").foldl (cleanPush rooted) []
    let body := String.intercalate "/" comps.reverse
    if rooted then "/" ++ body
    else if body = "" then "." else body

/-- Embeds the two-argument form of Go `path.Join` as called by
`Group.Path` and `Snippet.Path`: empty elements are dropped, the rest are
joined with `/` and cleaned; joining two empty strings gives `""`. -/
def goJoin (a b : String) : String :=
  if a = "" ∧ b = "" then ""
  else if a = "" then goClean b
  else if b = "" then goClean a
  else goClean (a ++ "/" ++ b)

/-- Embeds `Group.Path` (`expander.go`): a root group's path is its name,
a child's path joins the parent's path with its own name. -/
def PGroup.path : PGroup → String
  | .mk n none => n
  | .mk n (some p) => goJoin (PGroup.path p) n
termination_by g => sizeOf g
decreasing_by all_goals (simp_wf; omega)

/-- The snippet view used by `Snippet.Path` (`expander.go`): name plus the
parent group's chain.  (A Go snippet with a `nil` parent would panic in
`Path`; such snippets are outside this model.) -/
structure PSnippet where
  name : String
  parent : PGroup

/-- Embeds `Snippet.Path` (`expander.go`). -/
def PSnippet.path (s : PSnippet) : String := goJoin s.parent.path s.name

/-! ## Name projections of sibling lists -/

/-- The names of a sibling snippet list. -/
def snames (l : List Snippet) : List String := l.map Snippet.name

/-- The names of a sibling group list. -/
def gnames (l : List Group) : List String := l.map Group.name

@[simp] theorem snames_nil : snames [] = [] := rfl
@[simp] theorem snames_cons (x : Snippet) (xs : List Snippet) :
    snames (x :: xs) = x.name :: snames xs := rfl
@[simp] theorem snames_append (a b : List Snippet) :
    snames (a ++ b) = snames a ++ snames b := by simp [snames]
@[simp] theorem gnames_nil : gnames [] = [] := rfl
@[simp] theorem gnames_cons (x : Group) (xs : List Group) :
    gnames (x :: xs) = x.name :: gnames xs := rfl
@[simp] theorem gnames_append (a b : List Group) :
    gnames (a ++ b) = gnames a ++ gnames b := by simp [gnames]

/-! ## Frame lemmas: merge never drops unmatched target children -/

theorem mem_upsertSnippet_of_ne {x : Snippet} {l : List Snippet} (s : Snippet)
    (hx : x ∈ l) (hne : s.name ≠ x.name) : x ∈ Group.upsertSnippet l s := by
  induction l with
  | nil => cases hx
  | cons y ys ih =>
      rw [Group.upsertSnippet]
      rcases List.mem_cons.1 hx with rfl | hx'
      · split
        · next h => exact absurd h hne
        · exact List.mem_cons_self _ _
      · split
        · exact List.mem_cons_of_mem _ hx'
        · exact List.mem_cons_of_mem _ (ih hx')

theorem mem_foldl_upsertSnippet_of_ne {x : Snippet} {l : List Snippet}
    (ss : List Snippet) (hx : x ∈ l) (hne : ∀ s ∈ ss, s.name ≠ x.name) :
    x ∈ ss.foldl Group.upsertSnippet l := by
  induction ss generalizing l with
  | nil => exact hx
  | cons s rest ih =>
      exact ih (mem_upsertSnippet_of_ne s hx (hne s (List.mem_cons_self _ _)))
        (fun t ht => hne t (List.mem_cons_of_mem _ ht))

theorem mem_mergeInto_of_ne {x : Group} {l : List Group} (r : Group)
    (hx : x ∈ l) (hne : r.name ≠ x.name) : x ∈ Group.mergeInto l r := by
  induction l with
  | nil => cases hx
  | cons y ys ih =>
      rw [Group.mergeInto_cons]
      rcases List.mem_cons.1 hx with rfl | hx'
      · split
        · next h => exact absurd h.symm hne
        · exact List.mem_cons_self _ _
      · split
        · exact List.mem_cons_of_mem _ hx'
        · exact List.mem_cons_of_mem _ (ih hx')

theorem mem_foldl_mergeInto_of_ne {x : Group} {l : List Group}
    (gs : List Group) (hx : x ∈ l) (hne : ∀ r ∈ gs, r.name ≠ x.name) :
    x ∈ gs.foldl Group.mergeInto l := by
  induction gs generalizing l with
  | nil => exact hx
  | cons r rest ih =>
      exact ih (mem_mergeInto_of_ne r hx (hne r (List.mem_cons_self _ _)))
        (fun t ht => hne t (List.mem_cons_of_mem _ ht))

/-- C2: Merge never removes target content absent from the incoming tree:
every pre-existing child snippet and child group of the target whose name
does not occur among the incoming children at the same level is still
present, with unchanged content, after `Merge(target, incoming)`. -/
theorem C2_merge_frame (g o : Group) :
    (∀ s ∈ g.snippets, (∀ t ∈ o.snippets, t.name ≠ s.name) →
      s ∈ (Group.merge g o).snippets) ∧
    (∀ c ∈ g.groups, (∀ r ∈ o.groups, r.name ≠ c.name) →
      c ∈ (Group.merge g o).groups) := by
  constructor
  · intro s hs hne
    rw [Group.merge_snippets]
    exact mem_foldl_upsertSnippet_of_ne _ hs hne
  · intro c hc hne
    rw [Group.merge_groups]
    exact mem_foldl_mergeInto_of_ne _ hc hne

/-- C2 witness: a concrete target whose snippet `"keep"` and child group
`"sub"` are untouched by merging an incoming tree that does not name them. -/
theorem C2_merge_frame_witness :
    (⟨"keep", "k", "kept", none, 1⟩ : Snippet) ∈
      (Group.merge
        (Group.mk 0 "root" [⟨"keep", "k", "kept", none, 1⟩]
          [Group.mk 1 "sub" [] [] (some 0)] none)
        (Group.mk 2 "root" [⟨"new", "n", "fresh", none, 2⟩]
          [Group.mk 3 "other" [] [] (some 2)] none)).snippets ∧
    (Group.mk 1 "sub" [] [] (some 0)) ∈
      (Group.merge
        (Group.mk 0 "root" [⟨"keep", "k", "kept", none, 1⟩]
          [Group.mk 1 "sub" [] [] (some 0)] none)
        (Group.mk 2 "root" [⟨"new", "n", "fresh", none, 2⟩]
          [Group.mk 3 "other" [] [] (some 2)] none)).groups := by
  refine ⟨(C2_merge_frame _ _).1 _ (List.mem_cons_self _ _) ?_,
    (C2_merge_frame _ _).2 _ (List.mem_cons_self _ _) ?_⟩
  · intro t ht
    rcases List.mem_cons.1 ht with rfl | h
    · decide
    · cases h
  · intro r hr
    rcases List.mem_cons.1 hr with rfl | h
    · decide
    · cases h

/-- C10: a group with a `nil` parent has `Path` equal to its own name; a
group with a parent has `Path` equal to the path-join of the parent's
`Path` with its own name; a snippet's `Path` is the path-join of its
parent group's `Path` with the snippet's name. -/
theorem C10_path_spec :
    (∀ n : String, (PGroup.mk n none).path = n) ∧
    (∀ (n : String) (p : PGroup),
      (PGroup.mk n (some p)).path = goJoin p.path n) ∧
    (∀ s : PSnippet, s.path = goJoin s.parent.path s.name) :=
  ⟨fun n => by rw [PGroup.path], fun n p => by rw [PGroup.path], fun _ => rfl⟩

/-! ## C5: `mergeSnippets` appends without re-parenting -/

/-- C5 counterexample: merging the single snippet `"s"` (whose parent
reference is the id `1`) into a snippet-less target group with id `0` does
append it, but its parent reference is left at `1`; it is not re-pointed
at the target group, contradicting the claim that the merge "adopts it
with its parent reference set to the target group". -/
theorem C5_counterexample :
    ¬ (∀ t ∈ (Group.mergeSnippets (Group.mk 0 "t" [] [] none)
        [⟨"s", "a", "x", some 1, 5⟩]).snippets,
        t.parent = some (Group.mk 0 "t" [] [] none).ref) := by
  decide

theorem upsertSnippet_of_ne (s : Snippet) {l : List Snippet}
    (h : ∀ x ∈ l, x.name ≠ s.name) :
    Group.upsertSnippet l s = l ++ [s] := by
  induction l with
  | nil => rfl
  | cons y ys ih =>
      rw [Group.upsertSnippet]
      rw [if_neg (Ne.symm (h y (List.mem_cons_self _ _)))]
      rw [ih (fun x hx => h x (List.mem_cons_of_mem _ hx))]
      rfl

/-- C5 (amended): when an incoming snippet's name matches no existing
snippet of the target, the snippet merge appends it as a new child
unchanged; in particular its parent reference is left as it was, it is
not re-pointed at the target group. -/
theorem C5_amended (g : Group) (s : Snippet)
    (h : ∀ x ∈ g.snippets, x.name ≠ s.name) :
    (Group.mergeSnippets g [s]).snippets = g.snippets ++ [s] := by
  have : (Group.mergeSnippets g [s]).snippets =
      Group.upsertSnippet g.snippets s := by
    cases g; rfl
  rw [this, upsertSnippet_of_ne s h]

/-- C5 witness: the amended statement at the counterexample's input. -/
theorem C5_amended_witness :
    (Group.mergeSnippets (Group.mk 0 "t" [] [] none)
      [⟨"s", "a", "x", some 1, 5⟩]).snippets = [⟨"s", "a", "x", some 1, 5⟩] :=
  C5_amended (Group.mk 0 "t" [] [] none) ⟨"s", "a", "x", some 1, 5⟩
    (by intro x hx; cases hx)

/-! ## C4: full characterization of one merge level

Under the data model's sibling-uniqueness invariant, one level of merge is:
matched children are combined/overwritten in place (at their original
positions), unmatched incoming children are appended in incoming order. -/

/-- The value a target snippet holds after the merge: the incoming snippet
of the same name if there is one, otherwise itself. -/
def substS (ss : List Snippet) (x : Snippet) : Snippet :=
  (ss.find? (fun s => s.name == x.name)).getD x

/-- The value a target child group holds after the merge: recursively
merged with the incoming group of the same name if there is one, otherwise
itself. -/
def substG (gs : List Group) (x : Group) : Group :=
  match gs.find? (fun r => r.name == x.name) with
  | some r => Group.merge x r
  | none => x

theorem substS_name (ss : List Snippet) (x : Snippet) :
    (substS ss x).name = x.name := by
  unfold substS
  cases h : ss.find? (fun s => s.name == x.name) with
  | none => rfl
  | some s => simpa using List.find?_some h

theorem substG_name (gs : List Group) (x : Group) :
    (substG gs x).name = x.name := by
  unfold substG
  cases h : gs.find? (fun r => r.name == x.name) with
  | none => rfl
  | some r => simp

theorem substS_nil (x : Snippet) : substS [] x = x := rfl

theorem substG_nil (x : Group) : substG [] x = x := rfl

theorem contains_eq_decide_mem (l : List String) (a : String) :
    l.contains a = decide (a ∈ l) := by
  by_cases h : a ∈ l
  · simp [h, List.elem_iff.2 h, List.contains]
  · simp only [h, decide_False]
    rw [List.contains]
    exact Bool.not_eq_true _ ▸ (fun hc => h (List.elem_iff.1 hc))

theorem upsertSnippet_mem_eq {l : List Snippet} {s : Snippet}
    (hnd : (snames l).Nodup) (hm : s.name ∈ snames l) :
    Group.upsertSnippet l s =
      l.map (fun x => if x.name = s.name then s else x) := by
  induction l with
  | nil => cases hm
  | cons y ys ih =>
      rw [Group.upsertSnippet]
      by_cases h : s.name = y.name
      · rw [if_pos h, List.map_cons, if_pos h.symm]
        have hy : y.name ∉ snames ys := (List.nodup_cons.1 hnd).1
        have : ys.map (fun x => if x.name = s.name then s else x) = ys := by
          have := List.map_congr_left (l := ys)
            (f := fun x => if x.name = s.name then s else x) (g := id)
            (fun x hx => by
              have hne : x.name ≠ s.name := by
                intro he
                exact hy (by rw [← h, ← he]; exact List.mem_map_of_mem _ hx)
              simp [hne])
          simpa using this
        rw [this]
      · rw [if_neg h, List.map_cons, if_neg (fun he => h he.symm)]
        have hm' : s.name ∈ snames ys := by
          rcases List.mem_cons.1 hm with he | h'
          · exact absurd he h
          · exact h'
        rw [ih (List.nodup_cons.1 hnd).2 hm']

theorem mergeInto_of_ne (r : Group) {l : List Group}
    (h : ∀ x ∈ l, x.name ≠ r.name) :
    Group.mergeInto l r = l ++ [r] := by
  induction l with
  | nil => simp
  | cons y ys ih =>
      rw [Group.mergeInto_cons]
      rw [if_neg (h y (List.mem_cons_self _ _))]
      rw [ih (fun x hx => h x (List.mem_cons_of_mem _ hx))]
      rfl

theorem mergeInto_mem_eq {l : List Group} {r : Group}
    (hnd : (gnames l).Nodup) (hm : r.name ∈ gnames l) :
    Group.mergeInto l r =
      l.map (fun x => if x.name = r.name then Group.merge x r else x) := by
  induction l with
  | nil => cases hm
  | cons y ys ih =>
      rw [Group.mergeInto_cons]
      by_cases h : y.name = r.name
      · rw [if_pos h, List.map_cons, if_pos h]
        have hy : y.name ∉ gnames ys := (List.nodup_cons.1 hnd).1
        have : ys.map (fun x => if x.name = r.name then Group.merge x r else x) = ys := by
          have := List.map_congr_left (l := ys)
            (f := fun x => if x.name = r.name then Group.merge x r else x) (g := id)
            (fun x hx => by
              have hne : x.name ≠ r.name := by
                intro he
                exact hy (by rw [h, ← he]; exact List.mem_map_of_mem _ hx)
              simp [hne])
          simpa using this
        rw [this]
      · rw [if_neg h, List.map_cons, if_neg h]
        have hm' : r.name ∈ gnames ys := by
          rcases List.mem_cons.1 hm with he | h'
          · exact absurd he.symm h
          · exact h'
        rw [ih (List.nodup_cons.1 hnd).2 hm']

theorem substS_cons_of_eq {s x : Snippet} (h : x.name = s.name)
    (rest : List Snippet) : substS (s :: rest) x = s := by
  unfold substS
  rw [List.find?_cons_of_pos]
  · rfl
  · simp [h]

theorem substS_cons_of_ne {s x : Snippet} (h : x.name ≠ s.name)
    (rest : List Snippet) : substS (s :: rest) x = substS rest x := by
  unfold substS
  rw [List.find?_cons_of_neg]
  simp only [beq_iff_eq]
  exact fun he => h he.symm

theorem substS_of_not_mem {ss : List Snippet} {x : Snippet}
    (h : x.name ∉ snames ss) : substS ss x = x := by
  unfold substS
  rw [List.find?_eq_none.2]
  · rfl
  · intro t ht
    simp only [beq_iff_eq]
    exact fun he => h (he ▸ List.mem_map_of_mem _ ht)

theorem substG_cons_of_eq {r x : Group} (h : x.name = r.name)
    (rest : List Group) : substG (r :: rest) x = Group.merge x r := by
  unfold substG
  rw [List.find?_cons_of_pos]
  simp [h]

theorem substG_cons_of_ne {r x : Group} (h : x.name ≠ r.name)
    (rest : List Group) : substG (r :: rest) x = substG rest x := by
  unfold substG
  rw [List.find?_cons_of_neg]
  simp only [beq_iff_eq]
  exact fun he => h he.symm

theorem substG_of_not_mem {gs : List Group} {x : Group}
    (h : x.name ∉ gnames gs) : substG gs x = x := by
  unfold substG
  rw [List.find?_eq_none.2]
  intro t ht
  simp only [beq_iff_eq]
  exact fun he => h (he ▸ List.mem_map_of_mem _ ht)

theorem snames_map_overwrite (l : List Snippet) (s : Snippet) :
    snames (l.map (fun x => if x.name = s.name then s else x)) = snames l := by
  unfold snames
  rw [List.map_map]
  apply List.map_congr_left
  intro x _
  by_cases hx : x.name = s.name
  · simp [hx]
  · simp [hx]

theorem gnames_map_mergeWith (l : List Group) (r : Group) :
    gnames (l.map (fun x => if x.name = r.name then Group.merge x r else x)) =
      gnames l := by
  unfold gnames
  rw [List.map_map]
  apply List.map_congr_left
  intro x _
  by_cases hx : x.name = r.name
  · simp [hx]
  · simp [hx]

/-- Characterization of the snippet-merge loop under the sibling-name
uniqueness invariant: every target snippet is overwritten in place by the
same-named incoming snippet (if any), and the unmatched incoming snippets
are appended afterwards in incoming order. -/
theorem foldl_upsertSnippet_eq (ss : List Snippet) :
    ∀ (l : List Snippet), (snames l).Nodup → (snames ss).Nodup →
    ss.foldl Group.upsertSnippet l =
      l.map (substS ss) ++
        ss.filter (fun s => !((snames l).contains s.name)) := by
  induction ss with
  | nil =>
      intro l _ _
      simp only [List.foldl_nil, List.filter_nil, List.append_nil]
      rw [List.map_congr_left (fun x _ => substS_nil x)]
      exact (List.map_id l).symm
  | cons s rest ih =>
      intro l hnl hns
      have hnr : (snames rest).Nodup := (List.nodup_cons.1 hns).2
      have hsr : s.name ∉ snames rest := (List.nodup_cons.1 hns).1
      rw [List.foldl_cons]
      by_cases hm : s.name ∈ snames l
      · rw [upsertSnippet_mem_eq hnl hm]
        have hn' : snames (l.map (fun x => if x.name = s.name then s else x)) =
            snames l := snames_map_overwrite l s
        rw [ih _ (hn' ▸ hnl) hnr, hn']
        congr 1
        · rw [List.map_map]
          apply List.map_congr_left
          intro x _
          by_cases hx : x.name = s.name
          · show substS rest (if x.name = s.name then s else x) = _
            rw [if_pos hx, substS_of_not_mem hsr, substS_cons_of_eq hx]
          · show substS rest (if x.name = s.name then s else x) = _
            rw [if_neg hx, substS_cons_of_ne hx]
        · rw [List.filter_cons, if_neg]
          simp [contains_eq_decide_mem, hm]
      · have hne : ∀ x ∈ l, x.name ≠ s.name :=
          fun x hx he => hm (he ▸ List.mem_map_of_mem _ hx)
        rw [upsertSnippet_of_ne s hne]
        have hnl' : (snames (l ++ [s])).Nodup := by
          rw [snames_append]
          rw [List.nodup_append]
          refine ⟨hnl, List.nodup_singleton _, ?_⟩
          intro a ha hb
          rw [snames_cons, snames_nil, List.mem_singleton] at hb
          exact hm (hb ▸ ha)
        rw [ih _ hnl' hnr]
        rw [List.map_append, List.map_singleton, substS_of_not_mem hsr]
        have hmap : l.map (substS rest) = l.map (substS (s :: rest)) := by
          apply List.map_congr_left
          intro x hx
          rw [substS_cons_of_ne (hne x hx)]
        have hfil : rest.filter
              (fun t => !((snames (l ++ [s])).contains t.name)) =
            rest.filter (fun t => !((snames l).contains t.name)) := by
          apply List.filter_congr
          intro t ht
          have : t.name ≠ s.name :=
            fun he => hsr (he ▸ List.mem_map_of_mem _ ht)
          rw [snames_append, snames_cons, snames_nil]
          simp [contains_eq_decide_mem, this]
        rw [hmap, hfil, List.filter_cons, if_pos]
        · rw [List.append_assoc, List.singleton_append]
        · simp [contains_eq_decide_mem, hm]

/-- Characterization of the group-merge loop under the sibling-name
uniqueness invariant: every target child group is combined in place with
the same-named incoming group (if any), and the unmatched incoming groups
are appended afterwards in incoming order. -/
theorem foldl_mergeInto_eq (gs : List Group) :
    ∀ (l : List Group), (gnames l).Nodup → (gnames gs).Nodup →
    gs.foldl Group.mergeInto l =
      l.map (substG gs) ++
        gs.filter (fun r => !((gnames l).contains r.name)) := by
  induction gs with
  | nil =>
      intro l _ _
      simp only [List.foldl_nil, List.filter_nil, List.append_nil]
      rw [List.map_congr_left (fun x _ => substG_nil x)]
      exact (List.map_id l).symm
  | cons r rest ih =>
      intro l hnl hns
      have hnr : (gnames rest).Nodup := (List.nodup_cons.1 hns).2
      have hsr : r.name ∉ gnames rest := (List.nodup_cons.1 hns).1
      rw [List.foldl_cons]
      by_cases hm : r.name ∈ gnames l
      · rw [mergeInto_mem_eq hnl hm]
        have hn' : gnames (l.map (fun x => if x.name = r.name then Group.merge x r else x)) =
            gnames l := gnames_map_mergeWith l r
        rw [ih _ (hn' ▸ hnl) hnr, hn']
        congr 1
        · rw [List.map_map]
          apply List.map_congr_left
          intro x _
          by_cases hx : x.name = r.name
          · show substG rest (if x.name = r.name then Group.merge x r else x) = _
            rw [if_pos hx, substG_of_not_mem, substG_cons_of_eq hx]
            rw [Group.merge_name]
            exact fun he => hsr (hx ▸ he)
          · show substG rest (if x.name = r.name then Group.merge x r else x) = _
            rw [if_neg hx, substG_cons_of_ne hx]
        · rw [List.filter_cons, if_neg]
          simp [contains_eq_decide_mem, hm]
      · have hne : ∀ x ∈ l, x.name ≠ r.name :=
          fun x hx he => hm (he ▸ List.mem_map_of_mem _ hx)
        rw [mergeInto_of_ne r hne]
        have hnl' : (gnames (l ++ [r])).Nodup := by
          rw [gnames_append]
          rw [List.nodup_append]
          refine ⟨hnl, List.nodup_singleton _, ?_⟩
          intro a ha hb
          rw [gnames_cons, gnames_nil, List.mem_singleton] at hb
          exact hm (hb ▸ ha)
        rw [ih _ hnl' hnr]
        rw [List.map_append, List.map_singleton, substG_of_not_mem hsr]
        have hmap : l.map (substG rest) = l.map (substG (r :: rest)) := by
          apply List.map_congr_left
          intro x hx
          rw [substG_cons_of_ne (hne x hx)]
        have hfil : rest.filter
              (fun t => !((gnames (l ++ [r])).contains t.name)) =
            rest.filter (fun t => !((gnames l).contains t.name)) := by
          apply List.filter_congr
          intro t ht
          have : t.name ≠ r.name :=
            fun he => hsr (he ▸ List.mem_map_of_mem _ ht)
          rw [gnames_append, gnames_cons, gnames_nil]
          simp [contains_eq_decide_mem, this]
        rw [hmap, hfil, List.filter_cons, if_pos]
        · rw [List.append_assoc, List.singleton_append]
        · simp [contains_eq_decide_mem, hm]

/-- C4: Merge preserves ordering.  Under the data model's sibling-name
uniqueness invariant: incoming children that match an existing target
child by name are combined (groups) or overwritten (snippets) in place,
keeping the matched child's original position in the target's list, and
incoming children with no match are appended after all pre-existing
target children, keeping their relative order from the incoming
sequence. -/
theorem C4_merge_ordering (g o : Group)
    (h1 : (snames g.snippets).Nodup) (h2 : (snames o.snippets).Nodup)
    (h3 : (gnames g.groups).Nodup) (h4 : (gnames o.groups).Nodup) :
    (Group.merge g o).snippets =
      g.snippets.map (substS o.snippets) ++
        o.snippets.filter
          (fun s => !((snames g.snippets).contains s.name)) ∧
    (Group.merge g o).groups =
      g.groups.map (substG o.groups) ++
        o.groups.filter
          (fun r => !((gnames g.groups).contains r.name)) := by
  rw [Group.merge_snippets, Group.merge_groups]
  exact ⟨foldl_upsertSnippet_eq o.snippets g.snippets h1 h2,
    foldl_mergeInto_eq o.groups g.groups h3 h4⟩

/-- C4 witness: concrete merge where snippet `"a"` is overwritten in
place, group `"x"` is combined in place, and the unmatched snippet `"c"`
and group `"z"` are appended after the pre-existing children. -/
theorem C4_merge_ordering_witness :
    (Group.merge
        (Group.mk 0 "root"
          [⟨"a", "old", "olda", none, 1⟩, ⟨"b", "kb", "tb", none, 1⟩]
          [Group.mk 1 "x" [] [] (some 0), Group.mk 2 "y" [] [] (some 0)] none)
        (Group.mk 9 "root"
          [⟨"a", "new", "newa", none, 7⟩, ⟨"c", "kc", "tc", none, 7⟩]
          [Group.mk 8 "x" [] [] (some 9), Group.mk 7 "z" [] [] (some 9)]
          none)).snippets =
      [⟨"a", "new", "newa", none, 7⟩, ⟨"b", "kb", "tb", none, 1⟩,
        ⟨"c", "kc", "tc", none, 7⟩] := by
  have h := (C4_merge_ordering
    (Group.mk 0 "root"
      [⟨"a", "old", "olda", none, 1⟩, ⟨"b", "kb", "tb", none, 1⟩]
      [Group.mk 1 "x" [] [] (some 0), Group.mk 2 "y" [] [] (some 0)] none)
    (Group.mk 9 "root"
      [⟨"a", "new", "newa", none, 7⟩, ⟨"c", "kc", "tc", none, 7⟩]
      [Group.mk 8 "x" [] [] (some 9), Group.mk 7 "z" [] [] (some 9)] none)
    (by decide) (by decide) (by simp [gnames]) (by simp [gnames])).1
  rw [h]
  decide

/-! ## C3: merging the same incoming tree twice

The data model's invariant (no two sibling groups and no two sibling
snippets share a name, recursively) is captured by `Group.wfb`. -/

/-- The spec's data-model invariant: sibling snippet names and sibling
group names are unique, recursively at every level. -/
def Group.wfb : Group → Bool
  | .mk _ _ ss gs _ =>
      decide ((snames ss).Nodup) && decide ((gnames gs).Nodup) &&
        gs.attach.all (fun c => Group.wfb c.1)
termination_by g => sizeOf g
decreasing_by
  all_goals simp_wf
  all_goals (have hsz := List.sizeOf_lt_of_mem c.2; simp; omega)

theorem Group.wfb_mk_iff {r n ss gs p} :
    (Group.mk r n ss gs p).wfb = true ↔
      (snames ss).Nodup ∧ (gnames gs).Nodup ∧ ∀ c ∈ gs, c.wfb = true := by
  rw [Group.wfb]
  simp only [Bool.and_eq_true, decide_eq_true_eq, List.all_eq_true]
  constructor
  · rintro ⟨⟨h1, h2⟩, h3⟩
    exact ⟨h1, h2, fun c hc => h3 ⟨c, hc⟩ (List.mem_attach _ _)⟩
  · rintro ⟨h1, h2, h3⟩
    exact ⟨⟨h1, h2⟩, fun c _ => h3 c.1 c.2⟩

theorem Group.wfb_snames {g : Group} (h : g.wfb = true) :
    (snames g.snippets).Nodup := by
  cases g; exact (Group.wfb_mk_iff.1 h).1

theorem Group.wfb_gnames {g : Group} (h : g.wfb = true) :
    (gnames g.groups).Nodup := by
  cases g; exact (Group.wfb_mk_iff.1 h).2.1

theorem Group.wfb_child {g : Group} (h : g.wfb = true) :
    ∀ c ∈ g.groups, c.wfb = true := by
  cases g; exact (Group.wfb_mk_iff.1 h).2.2

theorem find?_sname_self {ss : List Snippet} (h : (snames ss).Nodup)
    {x : Snippet} (hx : x ∈ ss) :
    ss.find? (fun t => t.name == x.name) = some x := by
  induction ss with
  | nil => cases hx
  | cons y ys ih =>
      rcases List.mem_cons.1 hx with rfl | hx'
      · rw [List.find?_cons_of_pos]
        simp
      · have hy : y.name ∉ snames ys := (List.nodup_cons.1 h).1
        have hne : y.name ≠ x.name :=
          fun he => hy (he ▸ List.mem_map_of_mem _ hx')
        rw [List.find?_cons_of_neg]
        · exact ih (List.nodup_cons.1 h).2 hx'
        · simp [hne]

theorem find?_gname_self {gs : List Group} (h : (gnames gs).Nodup)
    {x : Group} (hx : x ∈ gs) :
    gs.find? (fun t => t.name == x.name) = some x := by
  induction gs with
  | nil => cases hx
  | cons y ys ih =>
      rcases List.mem_cons.1 hx with rfl | hx'
      · rw [List.find?_cons_of_pos]
        simp
      · have hy : y.name ∉ gnames ys := (List.nodup_cons.1 h).1
        have hne : y.name ≠ x.name :=
          fun he => hy (he ▸ List.mem_map_of_mem _ hx')
        rw [List.find?_cons_of_neg]
        · exact ih (List.nodup_cons.1 h).2 hx'
        · simp [hne]

/-- Applying the per-name substitution twice is the same as applying it
once (snippet overwrite is absorbing). -/
theorem substS_substS (sso : List Snippet) (y : Snippet) :
    substS sso (substS sso y) = substS sso y := by
  cases hf : sso.find? (fun t => t.name == y.name) with
  | none =>
      have h0 : substS sso y = y := by unfold substS; rw [hf]; rfl
      rw [h0, h0]
  | some s =>
      have h0 : substS sso y = s := by unfold substS; rw [hf]; rfl
      have hname : s.name = y.name := by simpa using List.find?_some hf
      rw [h0]
      unfold substS
      have hl : (fun t : Snippet => t.name == s.name) =
          (fun t => t.name == y.name) := funext fun t => by rw [hname]
      rw [hl, hf]
      rfl

/-- Applying the per-name group combination twice is the same as applying
it once, given idempotence of the inner merges. -/
theorem substG_substG (gso : List Group) (y : Group)
    (hmerge : ∀ r ∈ gso,
      Group.merge (Group.merge y r) r = Group.merge y r) :
    substG gso (substG gso y) = substG gso y := by
  cases hf : gso.find? (fun t => t.name == y.name) with
  | none =>
      have h0 : substG gso y = y := by unfold substG; rw [hf]
      rw [h0, h0]
  | some r =>
      have h0 : substG gso y = Group.merge y r := by unfold substG; rw [hf]
      rw [h0]
      unfold substG
      have hl : (fun t : Group => t.name == (Group.merge y r).name) =
          (fun t => t.name == y.name) :=
        funext fun t => by rw [Group.merge_name]
      rw [hl, hf]
      exact hmerge r (List.mem_of_find?_eq_some hf)

theorem snames_map_substS (sso l : List Snippet) :
    snames (l.map (substS sso)) = snames l := by
  unfold snames
  rw [List.map_map]
  exact List.map_congr_left (fun x _ => substS_name sso x)

theorem gnames_map_substG (gso l : List Group) :
    gnames (l.map (substG gso)) = gnames l := by
  unfold gnames
  rw [List.map_map]
  exact List.map_congr_left (fun x _ => substG_name gso x)

theorem snames_filter_not_contains (ns : List String) (ss : List Snippet) :
    snames (ss.filter (fun s => !(ns.contains s.name))) =
      (snames ss).filter (fun nm => !(ns.contains nm)) := by
  unfold snames
  rw [List.filter_map]
  rfl

theorem gnames_filter_not_contains (ns : List String) (gs : List Group) :
    gnames (gs.filter (fun r => !(ns.contains r.name))) =
      (gnames gs).filter (fun nm => !(ns.contains nm)) := by
  unfold gnames
  rw [List.filter_map]
  rfl

/-- The sibling names after one snippet-merge pass: the target names
followed by the new incoming names, hence still duplicate-free. -/
theorem nodup_snames_foldl_upsert {l ss : List Snippet}
    (h1 : (snames l).Nodup) (h2 : (snames ss).Nodup) :
    (snames (ss.foldl Group.upsertSnippet l)).Nodup := by
  rw [foldl_upsertSnippet_eq ss l h1 h2, snames_append, snames_map_substS,
    snames_filter_not_contains]
  rw [List.nodup_append]
  refine ⟨h1, h2.filter _, ?_⟩
  intro a ha hb
  have := (List.mem_filter.1 hb).2
  rw [contains_eq_decide_mem] at this
  simp [ha] at this

theorem nodup_gnames_foldl_mergeInto {l gs : List Group}
    (h1 : (gnames l).Nodup) (h2 : (gnames gs).Nodup) :
    (gnames (gs.foldl Group.mergeInto l)).Nodup := by
  rw [foldl_mergeInto_eq gs l h1 h2, gnames_append, gnames_map_substG,
    gnames_filter_not_contains]
  rw [List.nodup_append]
  refine ⟨h1, h2.filter _, ?_⟩
  intro a ha hb
  have := (List.mem_filter.1 hb).2
  rw [contains_eq_decide_mem] at this
  simp [ha] at this

theorem Group.sizeOf_groups_lt (g : Group) : sizeOf g.groups < sizeOf g := by
  cases g with
  | mk r n ss gs p =>
      simp [Group.groups]
      omega

theorem Group.eta (g : Group) :
    Group.mk g.ref g.name g.snippets g.groups g.parent = g := by
  cases g; rfl

/-- Merging a well-formed group into itself changes nothing. -/
theorem Group.merge_self (o : Group) (h : o.wfb = true) :
    Group.merge o o = o := by
  have h1 := Group.wfb_snames h
  have h2 := Group.wfb_gnames h
  have h3 := Group.wfb_child h
  have hs : o.snippets.foldl Group.upsertSnippet o.snippets = o.snippets := by
    rw [foldl_upsertSnippet_eq o.snippets o.snippets h1 h1]
    have hmap : o.snippets.map (substS o.snippets) = o.snippets := by
      have h' := List.map_congr_left (l := o.snippets)
        (f := substS o.snippets) (g := id)
        (fun x hx => by
          unfold substS
          rw [find?_sname_self h1 hx]
          rfl)
      simpa using h'
    have hfil : o.snippets.filter
        (fun s => !((snames o.snippets).contains s.name)) = [] := by
      rw [List.filter_eq_nil_iff]
      intro a ha
      have hmem : a.name ∈ snames o.snippets := List.mem_map_of_mem _ ha
      rw [contains_eq_decide_mem]
      simp [hmem]
    rw [hmap, hfil, List.append_nil]
  have hgp : o.groups.foldl Group.mergeInto o.groups = o.groups := by
    rw [foldl_mergeInto_eq o.groups o.groups h2 h2]
    have hmap : o.groups.map (substG o.groups) = o.groups := by
      have h' := List.map_congr_left (l := o.groups)
        (f := substG o.groups) (g := id)
        (fun x hx => by
          have h0 : substG o.groups x = Group.merge x x := by
            unfold substG
            rw [find?_gname_self h2 hx]
          rw [h0]
          exact Group.merge_self x (h3 x hx))
      simpa using h'
    have hfil : o.groups.filter
        (fun t => !((gnames o.groups).contains t.name)) = [] := by
      rw [List.filter_eq_nil_iff]
      intro a ha
      have hmem : a.name ∈ gnames o.groups := List.mem_map_of_mem _ ha
      rw [contains_eq_decide_mem]
      simp [hmem]
    rw [hmap, hfil, List.append_nil]
  rw [Group.merge_def, hs, hgp]
  exact Group.eta o
termination_by sizeOf o
decreasing_by
  all_goals simp_wf
  all_goals (have hlt1 := List.sizeOf_lt_of_mem hx; have hlt2 := Group.sizeOf_groups_lt o; omega)

/-- C3: merging the same incoming tree twice is equivalent to merging it
once, for trees satisfying the data model's sibling-name uniqueness
invariant. -/
theorem C3_merge_idem (g o : Group) (hg : g.wfb = true) (ho : o.wfb = true) :
    Group.merge (Group.merge g o) o = Group.merge g o := by
  have hg1 := Group.wfb_snames hg
  have hg2 := Group.wfb_gnames hg
  have hg3 := Group.wfb_child hg
  have ho1 := Group.wfb_snames ho
  have ho2 := Group.wfb_gnames ho
  have ho3 := Group.wfb_child ho
  have hndS1 : (snames (o.snippets.foldl Group.upsertSnippet g.snippets)).Nodup :=
    nodup_snames_foldl_upsert hg1 ho1
  have hndG1 : (gnames (o.groups.foldl Group.mergeInto g.groups)).Nodup :=
    nodup_gnames_foldl_mergeInto hg2 ho2
  have hs : o.snippets.foldl Group.upsertSnippet
      (o.snippets.foldl Group.upsertSnippet g.snippets) =
      o.snippets.foldl Group.upsertSnippet g.snippets := by
    rw [foldl_upsertSnippet_eq o.snippets _ hndS1 ho1]
    have hsub : ∀ x ∈ o.snippets.foldl Group.upsertSnippet g.snippets,
        substS o.snippets x = x := by
      intro x hx
      rw [foldl_upsertSnippet_eq o.snippets g.snippets hg1 ho1] at hx
      rcases List.mem_append.1 hx with hxa | hxb
      · obtain ⟨y, _, rfl⟩ := List.mem_map.1 hxa
        exact substS_substS o.snippets y
      · have hxs : x ∈ o.snippets := (List.mem_filter.1 hxb).1
        unfold substS
        rw [find?_sname_self ho1 hxs]
        rfl
    have hmap := List.map_congr_left (g := id) hsub
    have hfil : o.snippets.filter
        (fun s => !((snames (o.snippets.foldl Group.upsertSnippet
          g.snippets)).contains s.name)) = [] := by
      rw [List.filter_eq_nil_iff]
      intro a ha
      have hmem : a.name ∈
          snames (o.snippets.foldl Group.upsertSnippet g.snippets) := by
        rw [foldl_upsertSnippet_eq o.snippets g.snippets hg1 ho1,
          snames_append, snames_map_substS]
        by_cases hc : a.name ∈ snames g.snippets
        · exact List.mem_append.2 (Or.inl hc)
        · refine List.mem_append.2 (Or.inr ?_)
          rw [snames_filter_not_contains]
          refine List.mem_filter.2 ⟨List.mem_map_of_mem _ ha, ?_⟩
          rw [contains_eq_decide_mem]
          simp [hc]
      rw [contains_eq_decide_mem]
      simp [hmem]
    rw [hfil, List.append_nil]
    simpa using hmap
  have hgp : o.groups.foldl Group.mergeInto
      (o.groups.foldl Group.mergeInto g.groups) =
      o.groups.foldl Group.mergeInto g.groups := by
    rw [foldl_mergeInto_eq o.groups _ hndG1 ho2]
    have hsub : ∀ x ∈ o.groups.foldl Group.mergeInto g.groups,
        substG o.groups x = x := by
      intro x hx
      rw [foldl_mergeInto_eq o.groups g.groups hg2 ho2] at hx
      rcases List.mem_append.1 hx with hxa | hxb
      · obtain ⟨y, hy, rfl⟩ := List.mem_map.1 hxa
        refine substG_substG o.groups y (fun r hr => ?_)
        exact C3_merge_idem y r (hg3 y hy) (ho3 r hr)
      · have hxs : x ∈ o.groups := (List.mem_filter.1 hxb).1
        have h0 : substG o.groups x = Group.merge x x := by
          unfold substG
          rw [find?_gname_self ho2 hxs]
        rw [h0]
        exact Group.merge_self x (ho3 x hxs)
    have hmap := List.map_congr_left (g := id) hsub
    have hfil : o.groups.filter
        (fun t => !((gnames (o.groups.foldl Group.mergeInto
          g.groups)).contains t.name)) = [] := by
      rw [List.filter_eq_nil_iff]
      intro a ha
      have hmem : a.name ∈
          gnames (o.groups.foldl Group.mergeInto g.groups) := by
        rw [foldl_mergeInto_eq o.groups g.groups hg2 ho2,
          gnames_append, gnames_map_substG]
        by_cases hc : a.name ∈ gnames g.groups
        · exact List.mem_append.2 (Or.inl hc)
        · refine List.mem_append.2 (Or.inr ?_)
          rw [gnames_filter_not_contains]
          refine List.mem_filter.2 ⟨List.mem_map_of_mem _ ha, ?_⟩
          rw [contains_eq_decide_mem]
          simp [hc]
      rw [contains_eq_decide_mem]
      simp [hmem]
    rw [hfil, List.append_nil]
    simpa using hmap
  rw [Group.merge_def (Group.merge g o) o]
  rw [Group.merge_snippets, Group.merge_groups, Group.merge_ref,
    Group.merge_name, Group.merge_parent]
  rw [hs, hgp]
  exact (Group.merge_def g o).symm
termination_by sizeOf o
decreasing_by
  all_goals simp_wf
  all_goals (have hlt1 := List.sizeOf_lt_of_mem hr; have hlt2 := Group.sizeOf_groups_lt o; omega)

/-- C3 witness: a concrete pair of well-formed trees where the second
merge changes nothing. -/
theorem C3_merge_idem_witness :
    Group.merge
        (Group.merge
          (Group.mk 0 "root" [⟨"a", "old", "olda", none, 1⟩]
            [Group.mk 1 "x" [⟨"i", "ki", "ti", none, 1⟩] [] (some 0)] none)
          (Group.mk 9 "root" [⟨"a", "new", "newa", none, 7⟩]
            [Group.mk 8 "x" [⟨"j", "kj", "tj", none, 7⟩] [] (some 9)] none))
        (Group.mk 9 "root" [⟨"a", "new", "newa", none, 7⟩]
          [Group.mk 8 "x" [⟨"j", "kj", "tj", none, 7⟩] [] (some 9)] none) =
      Group.merge
        (Group.mk 0 "root" [⟨"a", "old", "olda", none, 1⟩]
          [Group.mk 1 "x" [⟨"i", "ki", "ti", none, 1⟩] [] (some 0)] none)
        (Group.mk 9 "root" [⟨"a", "new", "newa", none, 7⟩]
          [Group.mk 8 "x" [⟨"j", "kj", "tj", none, 7⟩] [] (some 9)] none) :=
  C3_merge_idem _ _
    (by simp [Group.wfb, snames, gnames])
    (by simp [Group.wfb, snames, gnames])

/-! ## TextExpander backend (`textexpander.go`)

The plist file decoding is done by a library; the backend is modelled
from the already-decoded document (`rawData`).  Loaded groups are numbered
by their position in the document, which serves as their abstract heap id;
the Go code re-points the shared snippet's `Parent` at each referencing
group (last one wins), the model gives each reference its own copy — none
of the verified claims distinguish the two. -/

/-- Embeds `rawSnippet` (`textexpander.go`). -/
structure RawSnippet where
  abbr : String
  label : String
  text : String
  uuid : String
  modDate : Int
deriving DecidableEq, Repr

/-- Embeds `rawGroup` (`textexpander.go`). -/
structure RawGroup where
  name : String
  uuids : List String
deriving DecidableEq, Repr

/-- Embeds `rawData` (`textexpander.go`). -/
structure RawData where
  groups : List RawGroup
  snippets : List RawSnippet
deriving DecidableEq, Repr

/-- Go map assignment `m[k] = v`: replace the entry in place if the key is
present, add it otherwise. -/
def upsertAssoc {α : Type} (m : List (String × α)) (k : String) (v : α) :
    List (String × α) :=
  match m with
  | [] => [(k, v)]
  | (k', v') :: rest =>
      if k' = k then (k, v) :: rest else (k', v') :: upsertAssoc rest k v

/-- Go map lookup `m[k]`. -/
def lookupAssoc {α : Type} (m : List (String × α)) (k : String) : Option α :=
  match m with
  | [] => none
  | (k', v') :: rest => if k' = k then some v' else lookupAssoc rest k

/-- The `snippets` lookup built by `TextExpander.parse`: uuid → snippet,
with `Name` set to the uuid itself (the format has no display name for
this purpose); a duplicated uuid keeps the later record, like a Go map. -/
def teSnippetTable (rs : List RawSnippet) : List (String × Snippet) :=
  rs.foldl
    (fun m s => upsertAssoc m s.uuid ⟨s.uuid, s.abbr, s.text, none, s.modDate⟩)
    []

/-- Resolution of one group record by `TextExpander.parse`: each
referenced uuid is looked up in order, the first unknown one failing with
the `invalid snippet UUID` error; `i` is the group's abstract id, at which
the resolved snippets' parent references are pointed. -/
def teResolveSnippets (tbl : List (String × Snippet)) (i : Nat) :
    List String → Except String (List Snippet)
  | [] => .ok []
  | u :: us =>
      match lookupAssoc tbl u with
      | none => .error ("invalid snippet UUID: " ++ u)
      | some s =>
          (teResolveSnippets tbl i us).map
            (fun rest => { s with parent := some i } :: rest)

/-- One group record of `TextExpander.parse`. -/
def teResolveGroup (tbl : List (String × Snippet)) (i : Nat) (g : RawGroup) :
    Except String Group :=
  (teResolveSnippets tbl i g.uuids).map
    (fun ss => Group.mk i g.name ss [] none)

/-- The group loop of `TextExpander.parse`: each fully resolved group is
appended to `te.groups` before the next record is examined, so the groups
resolved before a failure remain appended. -/
def teParseGroups (tbl : List (String × Snippet)) :
    Nat → List RawGroup → List Group × Option String
  | _, [] => ([], none)
  | i, g :: rest =>
      match teResolveGroup tbl i g with
      | .error e => ([], some e)
      | .ok grp =>
          let (gs, err) := teParseGroups tbl (i + 1) rest
          (grp :: gs, err)

/-- The `TextExpander` in-memory state: the `groups` slice. -/
structure TEState where
  groups : List Group

/-- Embeds `TextExpander.Load`/`TextExpander.parse` (`textexpander.go`)
from the decoded document: build the uuid table, resolve the group records
in order, and append the resolved groups to the existing `te.groups` slice
(the slice is not cleared first). -/
def teLoad (doc : RawData) (st : TEState) : TEState × Option String :=
  match teParseGroups (teSnippetTable doc.snippets) 0 doc.groups with
  | (gs, err) => ({ groups := st.groups ++ gs }, err)

/-- Embeds `TextExpander.Groups` (`textexpander.go`). -/
def teGroups (st : TEState) : List Group := st.groups

theorem lookupAssoc_upsertAssoc {α : Type} (m : List (String × α)) (k k' : String)
    (v : α) : lookupAssoc (upsertAssoc m k v) k' =
      if k = k' then some v else lookupAssoc m k' := by
  induction m with
  | nil =>
      by_cases h : k = k'
      · subst h
        simp [upsertAssoc, lookupAssoc]
      · simp [upsertAssoc, lookupAssoc, h]
  | cons kv rest ih =>
      obtain ⟨k0, v0⟩ := kv
      rw [upsertAssoc]
      by_cases h0 : k0 = k
      · rw [if_pos h0, lookupAssoc, lookupAssoc]
        by_cases h1 : k = k'
        · rw [if_pos h1, if_pos h1]
        · rw [if_neg h1, if_neg h1, if_neg (h0 ▸ h1)]
      · rw [if_neg h0, lookupAssoc, lookupAssoc]
        by_cases h1 : k0 = k'
        · rw [if_pos h1, if_pos h1, if_neg (fun he => h0 (h1.trans he.symm))]
        · rw [if_neg h1, if_neg h1, ih]

/-- Every table entry's snippet carries the uuid it is keyed by as its
name. -/
theorem teSnippetTable_name (rs : List RawSnippet) :
    ∀ (u : String) (s : Snippet),
      lookupAssoc (teSnippetTable rs) u = some s → s.name = u := by
  unfold teSnippetTable
  suffices h : ∀ (m : List (String × Snippet)),
      (∀ (u : String) (s : Snippet), lookupAssoc m u = some s → s.name = u) →
      ∀ (u : String) (s : Snippet),
        lookupAssoc (rs.foldl (fun m s =>
          upsertAssoc m s.uuid ⟨s.uuid, s.abbr, s.text, none, s.modDate⟩) m)
            u = some s → s.name = u by
    exact h [] (fun u s hu => by rw [lookupAssoc] at hu; cases hu)
  induction rs with
  | nil => exact fun m hm => hm
  | cons r rest ih =>
      intro m hm
      rw [List.foldl_cons]
      refine ih _ (fun u s hu => ?_)
      rw [lookupAssoc_upsertAssoc] at hu
      by_cases he : r.uuid = u
      · rw [if_pos he] at hu
        cases hu
        exact he
      · rw [if_neg he] at hu
        exact hm u s hu

/-- A uuid absent from the document's snippet list is absent from the
table. -/
theorem teSnippetTable_not_mem (rs : List RawSnippet) (u : String)
    (h : u ∉ rs.map RawSnippet.uuid) :
    lookupAssoc (teSnippetTable rs) u = none := by
  unfold teSnippetTable
  suffices hgen : ∀ (m : List (String × Snippet)), lookupAssoc m u = none →
      lookupAssoc (rs.foldl (fun m s =>
        upsertAssoc m s.uuid ⟨s.uuid, s.abbr, s.text, none, s.modDate⟩) m)
          u = none by
    exact hgen [] rfl
  induction rs with
  | nil => exact fun m hm => hm
  | cons r rest ih =>
      intro m hm
      have hne : r.uuid ≠ u := by
        intro he
        exact h (he ▸ List.mem_map_of_mem RawSnippet.uuid
          (List.mem_cons_self r rest))
      rw [List.foldl_cons]
      refine ih (fun hu => h (List.mem_cons_of_mem _ hu)) _ ?_
      rw [lookupAssoc_upsertAssoc, if_neg hne]
      exact hm

theorem teResolveSnippets_ok {tbl : List (String × Snippet)} {i : Nat}
    (hn : ∀ (u : String) (s : Snippet),
      lookupAssoc tbl u = some s → s.name = u) :
    ∀ {us : List String} {ss : List Snippet},
      teResolveSnippets tbl i us = .ok ss →
      snames ss = us ∧ ∀ u ∈ us, (lookupAssoc tbl u).isSome = true := by
  intro us
  induction us with
  | nil =>
      intro ss h
      rw [teResolveSnippets] at h
      cases h
      exact ⟨rfl, fun u hu => absurd hu (List.not_mem_nil u)⟩
  | cons u us' ih =>
      intro ss h
      rw [teResolveSnippets] at h
      cases hl : lookupAssoc tbl u with
      | none => rw [hl] at h; cases h
      | some s =>
          rw [hl] at h
          cases hrec : teResolveSnippets tbl i us' with
          | error e => rw [hrec] at h; cases h
          | ok rest =>
              rw [hrec] at h
              cases h
              obtain ⟨h1, h2⟩ := ih hrec
              refine ⟨?_, ?_⟩
              · rw [snames_cons, h1]
                have : ({ s with parent := some i } : Snippet).name = s.name := rfl
                rw [this, hn u s hl]
              · intro v hv
                rcases List.mem_cons.1 hv with rfl | hv'
                · rw [hl]; rfl
                · exact h2 v hv'

theorem teResolveSnippets_error {tbl : List (String × Snippet)} {i : Nat} :
    ∀ {us : List String} {e : String},
      teResolveSnippets tbl i us = .error e →
      ∃ u ∈ us, lookupAssoc tbl u = none ∧
        e = "invalid snippet UUID: " ++ u := by
  intro us
  induction us with
  | nil =>
      intro e h
      rw [teResolveSnippets] at h
      cases h
  | cons u us' ih =>
      intro e h
      rw [teResolveSnippets] at h
      cases hl : lookupAssoc tbl u with
      | none =>
          rw [hl] at h
          cases h
          exact ⟨u, List.mem_cons_self _ _, hl, rfl⟩
      | some s =>
          rw [hl] at h
          cases hrec : teResolveSnippets tbl i us' with
          | error e' =>
              rw [hrec] at h
              cases h
              obtain ⟨v, hv, hvn, rfl⟩ := ih hrec
              exact ⟨v, List.mem_cons_of_mem _ hv, hvn, rfl⟩
          | ok rest => rw [hrec] at h; cases h

theorem teResolveSnippets_error_of_bad {tbl : List (String × Snippet)}
    {i : Nat} :
    ∀ {us : List String} {u : String}, u ∈ us → lookupAssoc tbl u = none →
      ∃ e, teResolveSnippets tbl i us = .error e := by
  intro us
  induction us with
  | nil => intro u hu; cases hu
  | cons u0 us' ih =>
      intro u hu hnone
      rw [teResolveSnippets]
      cases hl : lookupAssoc tbl u0 with
      | none => exact ⟨_, rfl⟩
      | some s =>
          have hu' : u ∈ us' := by
            rcases List.mem_cons.1 hu with rfl | h'
            · rw [hl] at hnone; cases hnone
            · exact h'
          obtain ⟨e, he⟩ := ih hu' hnone
          rw [he]
          exact ⟨e, rfl⟩

theorem teParseGroups_sound {tbl : List (String × Snippet)}
    (hn : ∀ (u : String) (s : Snippet),
      lookupAssoc tbl u = some s → s.name = u) :
    ∀ (gs : List RawGroup) (i : Nat),
      ∀ G ∈ (teParseGroups tbl i gs).1,
        ∃ rg ∈ gs, G.name = rg.name ∧ snames G.snippets = rg.uuids ∧
          ∀ u ∈ rg.uuids, (lookupAssoc tbl u).isSome = true := by
  intro gs
  induction gs with
  | nil =>
      intro i G hG
      rw [teParseGroups] at hG
      cases hG
  | cons g rest ih =>
      intro i G hG
      rw [teParseGroups] at hG
      cases hres : teResolveGroup tbl i g with
      | error e => rw [hres] at hG; cases hG
      | ok grp =>
          rw [hres] at hG
          simp only at hG
          rcases List.mem_cons.1 hG with rfl | hG'
          · unfold teResolveGroup at hres
            cases hss : teResolveSnippets tbl i g.uuids with
            | error e => rw [hss] at hres; cases hres
            | ok ss =>
                rw [hss] at hres
                cases hres
                obtain ⟨h1, h2⟩ := teResolveSnippets_ok hn hss
                exact ⟨g, List.mem_cons_self _ _, rfl, by simpa using h1, h2⟩
          · obtain ⟨rg, hrg, hrest⟩ := ih (i + 1) G hG'
            exact ⟨rg, List.mem_cons_of_mem _ hrg, hrest⟩

theorem teParseGroups_error_of_bad {tbl : List (String × Snippet)} :
    ∀ (gs : List RawGroup) (i : Nat),
      (∃ g ∈ gs, ∃ u ∈ g.uuids, lookupAssoc tbl u = none) →
      ∃ u, (teParseGroups tbl i gs).2 = some ("invalid snippet UUID: " ++ u) ∧
        lookupAssoc tbl u = none := by
  intro gs
  induction gs with
  | nil =>
      intro i h
      obtain ⟨g, hg, _⟩ := h
      cases hg
  | cons g rest ih =>
      intro i h
      rw [teParseGroups]
      cases hres : teResolveGroup tbl i g with
      | error e =>
          unfold teResolveGroup at hres
          cases hss : teResolveSnippets tbl i g.uuids with
          | error e' =>
              rw [hss] at hres
              cases hres
              obtain ⟨u, _, hun, rfl⟩ := teResolveSnippets_error hss
              exact ⟨u, rfl, hun⟩
          | ok ss => rw [hss] at hres; cases hres
      | ok grp =>
          have hbad' : ∃ g' ∈ rest, ∃ u ∈ g'.uuids, lookupAssoc tbl u = none := by
            obtain ⟨g', hg', u, hu, hun⟩ := h
            rcases List.mem_cons.1 hg' with rfl | hmem
            · exfalso
              obtain ⟨e, he⟩ :=
                teResolveSnippets_error_of_bad (i := i) hu hun
              unfold teResolveGroup at hres
              rw [he] at hres
              cases hres
            · exact ⟨g', hmem, u, hu, hun⟩
          obtain ⟨u, hu1, hu2⟩ := ih (i + 1) hbad'
          exact ⟨u, by simpa using hu1, hu2⟩

/-- C7: when a group record of the structured document references a
snippet identifier absent from the document's snippet list, `Load` fails
with the `invalid snippet UUID` (unknown snippet reference) error, and no
partially constructed group is observable: every group visible through the
read accessors afterwards is the complete resolution of one of the
document's group records (all of its references resolved). -/
theorem C7_te_load_unknown_ref (doc : RawData)
    (hbad : ∃ g ∈ doc.groups, ∃ u ∈ g.uuids,
      u ∉ doc.snippets.map RawSnippet.uuid) :
    (∃ u, (teLoad doc ⟨[]⟩).2 = some ("invalid snippet UUID: " ++ u) ∧
      lookupAssoc (teSnippetTable doc.snippets) u = none) ∧
    ∀ G ∈ teGroups (teLoad doc ⟨[]⟩).1,
      ∃ rg ∈ doc.groups, G.name = rg.name ∧ snames G.snippets = rg.uuids ∧
        ∀ u ∈ rg.uuids,
          (lookupAssoc (teSnippetTable doc.snippets) u).isSome = true := by
  have hbad' : ∃ g ∈ doc.groups, ∃ u ∈ g.uuids,
      lookupAssoc (teSnippetTable doc.snippets) u = none := by
    obtain ⟨g, hg, u, hu, habs⟩ := hbad
    exact ⟨g, hg, u, hu, teSnippetTable_not_mem doc.snippets u habs⟩
  constructor
  · obtain ⟨u, h1, h2⟩ :=
      teParseGroups_error_of_bad doc.groups 0 hbad'
    exact ⟨u, h1, h2⟩
  · intro G hG
    have hG' : G ∈ (teParseGroups (teSnippetTable doc.snippets) 0
        doc.groups).1 := by
      simpa [teLoad, teGroups] using hG
    exact teParseGroups_sound (teSnippetTable_name doc.snippets)
      doc.groups 0 G hG'

/-- C7 witness: a one-group document referencing the undefined uuid
`"u1"`. -/
theorem C7_te_load_unknown_ref_witness :
    (∃ u, (teLoad ⟨[⟨"G", ["u1"]⟩], []⟩ ⟨[]⟩).2 =
        some ("invalid snippet UUID: " ++ u) ∧
      lookupAssoc (teSnippetTable ([] : List RawSnippet)) u = none) ∧
    ∀ G ∈ teGroups (teLoad ⟨[⟨"G", ["u1"]⟩], []⟩ ⟨[]⟩).1,
      ∃ rg ∈ ([⟨"G", ["u1"]⟩] : List RawGroup),
        G.name = rg.name ∧ snames G.snippets = rg.uuids ∧
        ∀ u ∈ rg.uuids,
          (lookupAssoc (teSnippetTable ([] : List RawSnippet)) u).isSome
            = true :=
  C7_te_load_unknown_ref ⟨[⟨"G", ["u1"]⟩], []⟩
    ⟨⟨"G", ["u1"]⟩, List.mem_cons_self _ _, "u1",
      List.mem_cons_self _ _, by decide⟩

/-! ## AutoKey backend (`autokey.go`)

Paths are segment lists; the filesystem is an association list from paths
to entries (directories created by `MkdirAll` are explicit entries).
File contents are tagged (snippet body text or a metadata document); the
JSON serialization of metadata is abstracted: `writeMetadata` stores the
document value and `parseMetadata` reads it back, while reading a sidecar
file as a snippet body yields an opaque rendering of the document. -/

/-- A filesystem path, as its list of segments. -/
abbrev Path := List String

/-- `snippetExt` (`autokey.go`). -/
def snippetExt : String := "txt"

/-- `metadataExt` (`autokey.go`). -/
def metadataExt : String := "json"

/-- Embeds `mdAbbreviation` (`autokey.go`). -/
structure MdAbbreviation where
  wordChars : String
  abbreviations : List String
  immediate : Bool
  ignoreCase : Bool
  backspace : Bool
  triggerInside : Bool
deriving DecidableEq, Repr

/-- Embeds `mdHotkey` (`autokey.go`). -/
structure MdHotkey where
  hotKey : Option String
  modifiers : List String
deriving DecidableEq, Repr

/-- Embeds `mdFilter` (`autokey.go`). -/
structure MdFilter where
  regex : Option String
  isRecursive : Bool
deriving DecidableEq, Repr

/-- Embeds `metadata` (`autokey.go`); `mdType` is the Go field `Type`.
`modTime` is tagged `json:"-"` in Go: it is never serialized, it carries
the sidecar file's stat time after `parseMetadata`. -/
structure Metadata where
  usageCount : Int
  omitTrigger : Bool
  prompt : Bool
  description : String
  abbreviation : MdAbbreviation
  hotkey : MdHotkey
  modes : List Int
  showInTrayMenu : Bool
  matchCase : Bool
  filter : MdFilter
  mdType : String
  sendMode : String
  modTime : Int
deriving DecidableEq, Repr

/-- Embeds `newMetadata` (`autokey.go`): default settings, description set
to the snippet's abbreviation, and the abbreviation appended to the
trigger list when non-empty. -/
def newMetadata (s : Snippet) : Metadata :=
  let md : Metadata := {
    usageCount := 0
    omitTrigger := false
    prompt := false
    description := s.abbr
    abbreviation := {
      wordChars := "[\\w]"
      abbreviations := []
      immediate := true
      ignoreCase := false
      backspace := true
      triggerInside := false }
    hotkey := { hotKey := none, modifiers := [] }
    modes := [1]
    showInTrayMenu := false
    matchCase := false
    filter := { regex := none, isRecursive := false }
    mdType := "phrase"
    sendMode := "kb"
    modTime := s.modTime }
  if s.abbr ≠ "" then
    { md with abbreviation :=
      { md.abbreviation with
        abbreviations := md.abbreviation.abbreviations ++ [s.abbr] } }
  else md

/-- An abstract rendering of the JSON document `writeMetadata` encodes;
the exact byte format never matters to the claims (a loader reading a
sidecar file as a snippet body sees these bytes). -/
def encodeMetadata (md : Metadata) : String :=
  "\x7b\"description\": \"" ++ md.description ++ "\", \"abbreviations\": [" ++
    String.intercalate ", " md.abbreviation.abbreviations ++ "]\x7d"

/-- A regular file's content. -/
inductive FContent where
  | body (text : String)
  | metadata (md : Metadata)
deriving DecidableEq, Repr

/-- A filesystem entry: a directory, or a regular file with its content
and modification time. -/
inductive FsEntry where
  | dirE
  | fileE (content : FContent) (modTime : Int)
deriving DecidableEq, Repr

/-- The filesystem: an association list from paths to entries (one entry
per existing path). -/
abbrev FS := List (Path × FsEntry)

/-- Filesystem lookup (`os.Stat` and friends). -/
def lookupFS (fs : FS) (p : Path) : Option FsEntry :=
  match fs with
  | [] => none
  | (p', e) :: rest => if p' = p then some e else lookupFS rest p

/-- Store an entry: replace in place if present, append otherwise. -/
def setFS (fs : FS) (p : Path) (e : FsEntry) : FS :=
  match fs with
  | [] => [(p, e)]
  | (p', e') :: rest =>
      if p' = p then (p, e) :: rest else (p', e') :: setFS rest p e

/-- One directory level of `os.MkdirAll`: fine if the directory exists, an
error if a regular file is in the way. -/
def mkdirOne (fs : FS) (dir : Path) : Except String FS :=
  match lookupFS fs dir with
  | some .dirE => .ok fs
  | some (.fileE _ _) => .error "mkdir: not a directory"
  | none => .ok (setFS fs dir .dirE)

/-- Embeds `os.MkdirAll`: create every missing directory along the path
("creating missing parent directories is not an error"). -/
def mkdirAll (fs : FS) (p : Path) : Except String FS :=
  (List.range p.length).foldlM (fun acc i => mkdirOne acc (p.take (i + 1))) fs

/-- Embeds `ioutil.WriteFile`/`os.Create`: create or truncate a regular
file; its modification time becomes the current wall clock `now`. -/
def writeFS (fs : FS) (p : Path) (c : FContent) (now : Int) : Except String FS :=
  match lookupFS fs p with
  | some .dirE => .error "open: is a directory"
  | _ => .ok (setFS fs p (.fileE c now))

/-- Embeds `os.Chtimes` (applied to regular files only in this program). -/
def chtimesFS (fs : FS) (p : Path) (t : Int) : Except String FS :=
  match lookupFS fs p with
  | some (.fileE c _) => .ok (setFS fs p (.fileE c t))
  | some .dirE => .ok fs
  | none => .error "chtimes: no such file"

/-- Scan a reversed character list up to and through the first `.`,
returning what follows it (the characters before the last dot of the
original string). -/
def dropThroughDot : List Char → Option (List Char)
  | [] => none
  | c :: cs => if c = '.' then some cs else dropThroughDot cs

/-- The base of a file name before its last `.` , if it has one: the
`(.+)\.(.+?)$` part of the `filePattern` regex (`autokey.go`), applied to
the final path segment (the directory part never carries the dot in this
program's paths, all of whose file segments end in `.txt`/`.json`). -/
def stripLastExt (s : String) : Option String :=
  (dropThroughDot s.data.reverse).map (fun l => ⟨l.reverse⟩)

/-- Embeds `metadataPath` (`autokey.go`) on the final segment: swap the
extension after the last dot for `json`, failing on a dotless name. -/
def metadataSegment (seg : String) : Except String String :=
  match stripLastExt seg with
  | none => .error ("invalid file name: " ++ seg)
  | some base => .ok (base ++ "." ++ metadataExt)

/-- Embeds `metadataPath` (`autokey.go`) on a segment path. -/
def metadataPath (p : Path) : Except String Path :=
  match p.getLast? with
  | none => .error "invalid file name: "
  | some seg => (metadataSegment seg).map (fun m => p.dropLast ++ [m])

/-- Embeds `parseMetadata` (`autokey.go`): stat the sidecar for its
modification time, then decode it; `ModTime` is not part of the document
(`json:"-"`), so it keeps the stat value. -/
def parseMetadata (fs : FS) (p : Path) : Except String Metadata :=
  match lookupFS fs p with
  | none => .error "open: no such file"
  | some .dirE => .error "read: is a directory"
  | some (.fileE (.body _) _) => .error "parse metadata: invalid document"
  | some (.fileE (.metadata md) t) => .ok { md with modTime := t }

/-- Embeds `ioutil.ReadFile`. -/
def readFile (fs : FS) (p : Path) : Except String String :=
  match lookupFS fs p with
  | none => .error "open: no such file"
  | some .dirE => .error "read: is a directory"
  | some (.fileE (.body t) _) => .ok t
  | some (.fileE (.metadata md) _) => .ok (encodeMetadata md)

/-- Embeds `writeMetadata` (`autokey.go`): `os.Create` + encode. -/
def writeMetadata (fs : FS) (p : Path) (md : Metadata) (now : Int) :
    Except String FS :=
  writeFS fs p (.metadata md) now

/-- Embeds `newSnippet` (`autokey.go`): pair the body file with its
sidecar; name = metadata description, abbreviation = first trigger entry
(empty if none), body = raw file content, modification time = the
sidecar's on-disk time. -/
def newSnippet (fs : FS) (file : Path) : Except String Snippet := do
  let mdPath ← metadataPath file
  let md ← parseMetadata fs mdPath
  let buf ← readFile fs file
  let s : Snippet :=
    { name := md.description, abbr := "", text := buf,
      parent := none, modTime := md.modTime }
  match md.abbreviation.abbreviations with
  | [] => pure s
  | a :: _ => pure { s with abbr := a }

/-- Embeds `AutoKey.writeSnippet` (`autokey.go`).  `dir` is the snippet's
group directory (`path.Join(ak.dir, snippet.Path())` without the final
segment; the model assumes consistent parent chains).  If a sidecar exists
whose on-disk time is not older than the snippet's in-memory time, nothing
is written; otherwise the sidecar and the body file are written and both
of their on-disk times are forced to exactly the snippet's time.  `now` is
the wall clock a fresh write briefly stamps before `Chtimes`. -/
def writeSnippetFS (dir : Path) (s : Snippet) (now : Int) (fs : FS) :
    Except String FS := do
  let sPath := dir ++ [s.name ++ "." ++ snippetExt]
  let mdPath ← metadataPath sPath
  let fresh : Bool :=
    match lookupFS fs mdPath with
    | some (.fileE _ t) => !(decide (t < s.modTime))
    | _ => false
  if fresh then
    pure fs
  else do
    let fs1 ← writeMetadata fs mdPath (newMetadata s) now
    let fs2 ← chtimesFS fs1 mdPath s.modTime
    let fs3 ← writeFS fs2 sPath (.body s.text) now
    chtimesFS fs3 sPath s.modTime

/-- The snippet loop of `AutoKey.writeGroup` (`autokey.go`). -/
def writeSnippetsFS (dir : Path) (now : Int) :
    List Snippet → FS → Except String FS
  | [], fs => .ok fs
  | s :: rest, fs => do
      let fs1 ← writeSnippetFS dir s now fs
      writeSnippetsFS dir now rest fs1

mutual

/-- Embeds `AutoKey.writeGroup` (`autokey.go`): ensure the group's
directory exists, recurse into child groups, then write the snippets.
`base` is the parent directory, so this group's directory is
`base ++ [name]` (consistent parent chains assumed, as in the data
model). -/
def writeGroupFS (base : Path) (now : Int) (g : Group) (fs : FS) :
    Except String FS :=
  match g with
  | .mk _ nm ss gs _ => do
      let dir := base ++ [nm]
      let fs1 ← mkdirAll fs dir
      let fs2 ← writeGroupsFS dir now gs fs1
      writeSnippetsFS dir now ss fs2
termination_by sizeOf g
decreasing_by all_goals (simp_wf; try omega)

/-- The child-group loop of `AutoKey.writeGroup`. -/
def writeGroupsFS (dir : Path) (now : Int) (gs : List Group) (fs : FS) :
    Except String FS :=
  match gs with
  | [] => .ok fs
  | g :: rest => do
      let fs1 ← writeGroupFS dir now g fs
      writeGroupsFS dir now rest fs1
termination_by sizeOf gs
decreasing_by all_goals (simp_wf; try omega)

end

/-- A `rawGroup` table entry of the `AutoKey` backend (`autokey.go`): the
group plus its managed mark. -/
structure AKRawGroup where
  group : Group
  managed : Bool

/-- The `AutoKey` backend state: the settings directory and the group
table (a Go map, modelled as an association list in insertion order; no
verified claim depends on iteration order). -/
structure AKState where
  dir : Path
  groups : List (String × AKRawGroup)

/-- A fresh backend instance (`newAK`, with the flag-derived directory
abstracted to a parameter). -/
def akNew (dir : Path) : AKState := { dir := dir, groups := [] }

/-- Embeds `AutoKey.SetGroup` (`autokey.go`): upsert the group into the
table, marked managed. -/
def akSetGroup (st : AKState) (g : Group) : AKState :=
  { st with groups := upsertAssoc st.groups g.name ⟨g, true⟩ }

/-- Embeds `AutoKey.Groups` (`autokey.go`). -/
def akGroups (st : AKState) : List Group := st.groups.map (fun kv => kv.2.group)

/-- The write loop of `AutoKey.Write` (`autokey.go`): unmanaged entries
are skipped. -/
def akWriteList (dir : Path) (now : Int) :
    List (String × AKRawGroup) → FS → Except String FS
  | [], fs => .ok fs
  | (_, rg) :: rest, fs =>
      if rg.managed then do
        let fs1 ← writeGroupFS dir now rg.group fs
        akWriteList dir now rest fs1
      else akWriteList dir now rest fs

/-- Embeds `AutoKey.Write` (`autokey.go`). -/
def akWrite (st : AKState) (now : Int) (fs : FS) : Except String FS :=
  akWriteList st.dir now st.groups fs

/-! ### Directory walking (`AutoKey.load`) -/

/-- Insertion step of the by-name sort `ioutil.ReadDir` applies to a
directory listing. -/
def insertByName (x : String × FsEntry) :
    List (String × FsEntry) → List (String × FsEntry)
  | [] => [x]
  | y :: ys => if x.1 ≤ y.1 then x :: y :: ys else y :: insertByName x ys

/-- Sort a directory listing by name (`ioutil.ReadDir` sorts). -/
def sortByName (l : List (String × FsEntry)) : List (String × FsEntry) :=
  l.foldr insertByName []

theorem insertByName_perm (x : String × FsEntry)
    (l : List (String × FsEntry)) : List.Perm (insertByName x l) (x :: l) := by
  induction l with
  | nil => exact List.Perm.refl _
  | cons y ys ih =>
      rw [insertByName]
      split
      · exact List.Perm.refl _
      · exact (List.Perm.cons y ih).trans (List.Perm.swap x y ys)

theorem sortByName_perm (l : List (String × FsEntry)) :
    List.Perm (sortByName l) l := by
  induction l with
  | nil => exact List.Perm.refl _
  | cons x xs ih =>
      exact (insertByName_perm x (sortByName xs)).trans (List.Perm.cons x ih)

/-- The entries directly inside `dir`: every filesystem path of the form
`dir ++ [n]`, paired as `(n, entry)`. -/
def childEntries (fs : FS) (dir : Path) : List (String × FsEntry) :=
  fs.filterMap (fun pe =>
    if pe.1.length = dir.length + 1 ∧ dir <+: pe.1 then
      pe.1.getLast?.map (fun n => (n, pe.2))
    else none)

theorem mem_childEntries {fs : FS} {dir : Path} (x : String × FsEntry) :
    x ∈ childEntries fs dir ↔ (dir ++ [x.1], x.2) ∈ fs := by
  obtain ⟨n, e⟩ := x
  unfold childEntries
  rw [List.mem_filterMap]
  constructor
  · rintro ⟨⟨p, e'⟩, hp, hfe⟩
    dsimp only at hfe
    by_cases hcond : p.length = dir.length + 1 ∧ dir <+: p
    case neg =>
        rw [if_neg hcond] at hfe
        cases hfe
    rw [if_pos hcond] at hfe
    obtain ⟨t, ht⟩ := hcond.2
    have htlen : t.length = 1 := by
      have := hcond.1
      rw [← ht, List.length_append] at this
      omega
    obtain ⟨a, rfl⟩ : ∃ a, t = [a] := by
      cases t with
      | nil => cases htlen
      | cons a t' =>
          cases t' with
          | nil => exact ⟨a, rfl⟩
          | cons b t'' => simp at htlen
    rw [← ht] at hfe
    rw [List.getLast?_concat] at hfe
    rw [Option.map_some'] at hfe
    cases hfe
    rw [← ht] at hp
    exact hp
  · intro hmem
    refine ⟨(dir ++ [n], e), hmem, ?_⟩
    dsimp only
    rw [if_pos ⟨by simp, List.prefix_append dir [n]⟩]
    rw [List.getLast?_concat, Option.map_some']

/-- Embeds the `ioutil.ReadDir` call of `AutoKey.load`: fails when the
directory does not exist, returns the by-name-sorted listing
otherwise. -/
def readDirFS (fs : FS) (dir : Path) : Except String (List (String × FsEntry)) :=
  match lookupFS fs dir with
  | some .dirE => .ok (sortByName (childEntries fs dir))
  | some (.fileE _ _) => .error "readdir: not a directory"
  | none => .error "open: no such file or directory"

theorem readDirFS_mem {fs : FS} {dir : Path}
    {entries : List (String × FsEntry)}
    (h : readDirFS fs dir = .ok entries) :
    ∀ x ∈ entries, (dir ++ [x.1], x.2) ∈ fs := by
  intro x hx
  unfold readDirFS at h
  cases hl : lookupFS fs dir with
  | none => rw [hl] at h; cases h
  | some e =>
      cases e with
      | fileE c t => rw [hl] at h; cases h
      | dirE =>
          rw [hl] at h
          cases h
          exact (mem_childEntries x).1 ((sortByName_perm _).mem_iff.1 hx)

theorem length_filterMap_le' {α β : Type} (f : α → Option β) (l : List α) :
    (l.filterMap f).length ≤ l.length := by
  induction l with
  | nil => exact Nat.le_refl _
  | cons x xs ih =>
      rw [List.filterMap_cons]
      cases f x with
      | none => exact Nat.le_succ_of_le ih
      | some b => simpa using ih

theorem readDirFS_length_le {fs : FS} {dir : Path}
    {entries : List (String × FsEntry)}
    (h : readDirFS fs dir = .ok entries) : entries.length ≤ fs.length := by
  unfold readDirFS at h
  cases hl : lookupFS fs dir with
  | none => rw [hl] at h; cases h
  | some e =>
      cases e with
      | fileE c t => rw [hl] at h; cases h
      | dirE =>
          rw [hl] at h
          cases h
          rw [(sortByName_perm _).length_eq]
          exact length_filterMap_le' _ fs

theorem length_filter_mono {α : Type} {p q : α → Bool} (l : List α)
    (himp : ∀ x ∈ l, p x = true → q x = true) :
    (l.filter p).length ≤ (l.filter q).length := by
  induction l with
  | nil => exact Nat.le_refl _
  | cons y ys ih =>
      have ih' := ih (fun x hx => himp x (List.mem_cons_of_mem _ hx))
      rw [List.filter_cons, List.filter_cons]
      by_cases hp : p y = true
      · rw [if_pos hp, if_pos (himp y (List.mem_cons_self _ _) hp)]
        simpa using ih'
      · rw [if_neg hp]
        by_cases hq : q y = true
        · rw [if_pos hq]
          exact Nat.le_succ_of_le ih'
        · rw [if_neg hq]
          exact ih'

theorem length_filter_lt {α : Type} {p q : α → Bool} {l : List α}
    (himp : ∀ x ∈ l, p x = true → q x = true) {x : α} (hx : x ∈ l)
    (hqx : q x = true) (hpx : p x = false) :
    (l.filter p).length < (l.filter q).length := by
  induction l with
  | nil => cases hx
  | cons y ys ih =>
      have himp' : ∀ z ∈ ys, p z = true → q z = true :=
        fun z hz => himp z (List.mem_cons_of_mem _ hz)
      rw [List.filter_cons, List.filter_cons]
      rcases List.mem_cons.1 hx with rfl | hx'
      · rw [if_neg (by rw [hpx]; exact Bool.false_ne_true), if_pos hqx]
        exact Nat.lt_succ_of_le (length_filter_mono ys himp')
      · have ihlt := ih himp' hx'
        by_cases hp : p y = true
        · rw [if_pos hp, if_pos (himp y (List.mem_cons_self _ _) hp)]
          simpa using ihlt
        · rw [if_neg hp]
          by_cases hq : q y = true
          · rw [if_pos hq]
            exact Nat.lt_succ_of_lt ihlt
          · rw [if_neg hq]
            exact ihlt

/-- The number of filesystem entries strictly below `dir`: the measure of
the recursive directory walk. -/
def underCount (fs : FS) (dir : Path) : Nat :=
  (fs.filter (fun pe => decide (dir <+: pe.1 ∧ pe.1 ≠ dir))).length

theorem underCount_lt {fs : FS} {dir : Path} {n : String} {e : FsEntry}
    (hmem : (dir ++ [n], e) ∈ fs) :
    underCount fs (dir ++ [n]) < underCount fs dir := by
  unfold underCount
  refine length_filter_lt (x := (dir ++ [n], e)) ?_ hmem ?_ ?_
  · intro z _ hz
    rw [decide_eq_true_eq] at hz
    rw [decide_eq_true_eq]
    obtain ⟨h1, h2⟩ := hz
    refine ⟨(List.prefix_append dir [n]).trans h1, ?_⟩
    intro he
    have hle := h1.length_le
    rw [he] at hle
    simp at hle
  · rw [decide_eq_true_eq]
    dsimp only
    refine ⟨List.prefix_append dir [n], ?_⟩
    intro he
    have hlen : (dir ++ [n]).length = dir.length := by rw [he]
    simp at hlen
  · rw [decide_eq_false_iff_not]
    dsimp only
    intro hz
    exact hz.2 rfl

/-- `filepath.Base` on a segment path (the name `AutoKey.load` gives the
group for a directory). -/
def dirBase (p : Path) : String :=
  match p.getLast? with
  | some n => n
  | none => "."

/-- The walk's hidden-file check `strings.HasPrefix(fi.Name(), ".")`
(`autokey.go`): with a one-character pattern this is exactly "the first
character is a dot". -/
def isHidden (s : String) : Bool :=
  match s.data with
  | [] => false
  | c :: _ => c = '.'

mutual

/-- Embeds `AutoKey.load` (`autokey.go`): read the directory, recurse into
each subdirectory (in listing order) as a child group, and turn each
non-hidden regular file into a snippet via `newSnippet`.  Loaded nodes get
abstract id 0 and `nil` parent references: the Go parent pointers only
serve path computation, which the walk supplies here. -/
def loadFS (fs : FS) (dir : Path) : Except String Group :=
  match h : readDirFS fs dir with
  | .error e => .error e
  | .ok entries =>
      match loadEntriesFS fs dir entries (readDirFS_mem h) with
      | .error e => .error e
      | .ok (ss, gs) => .ok (Group.mk 0 (dirBase dir) ss gs none)
termination_by (underCount fs dir, fs.length + 1)
decreasing_by
  all_goals simp_wf
  all_goals simp [Prod.lex_iff]
  all_goals first
  | exact Or.inr ⟨rfl, Nat.lt_succ_of_le (readDirFS_length_le h)⟩
  | exact Nat.lt_succ_of_le (readDirFS_length_le h)

/-- The entry loop of `AutoKey.load`: subdirectories become child groups,
non-hidden regular files become snippets, in listing order.  The `hmem`
argument records that every listed entry is a filesystem entry of `dir`
(which bounds the recursion). -/
def loadEntriesFS (fs : FS) (dir : Path) (l : List (String × FsEntry))
    (hmem : ∀ x ∈ l, (dir ++ [x.1], x.2) ∈ fs) :
    Except String (List Snippet × List Group) :=
  match l with
  | [] => .ok ([], [])
  | (n, e) :: rest =>
      match e with
      | .dirE =>
          match loadFS fs (dir ++ [n]) with
          | .error err => .error err
          | .ok child =>
              match loadEntriesFS fs dir rest
                  (fun x hx => hmem x (List.mem_cons_of_mem _ hx)) with
              | .error err => .error err
              | .ok (ss, gs) => .ok (ss, child :: gs)
      | .fileE c t =>
          if isHidden n then
            loadEntriesFS fs dir rest
              (fun x hx => hmem x (List.mem_cons_of_mem _ hx))
          else
            match newSnippet fs (dir ++ [n]) with
            | .error err => .error err
            | .ok s =>
                match loadEntriesFS fs dir rest
                    (fun x hx => hmem x (List.mem_cons_of_mem _ hx)) with
                | .error err => .error err
                | .ok (ss, gs) => .ok (s :: ss, gs)
termination_by (underCount fs dir, l.length)
decreasing_by
  all_goals simp_wf
  all_goals simp [Prod.lex_iff]
  all_goals first
  | exact Or.inl (underCount_lt (hmem _ (List.mem_cons_self _ _)))
  | exact underCount_lt (hmem _ (List.mem_cons_self _ _))
  | exact Or.inr ⟨rfl, Nat.lt_succ_self _⟩
  | exact Nat.lt_succ_self _
  | omega

end

/-- Embeds `AutoKey.Load` (`autokey.go`): walk the settings directory,
then upsert each top-level child group into the group table, unmanaged;
pre-existing table entries are kept (the table is not cleared). -/
def akLoad (st : AKState) (fs : FS) : Except String AKState :=
  match loadFS fs st.dir with
  | .error e => .error e
  | .ok root =>
      let tbl := root.groups.foldl
        (fun m g => upsertAssoc m g.name ⟨g, false⟩) st.groups
      .ok { st with groups := tbl }

/-- Unfolding of `loadFS` when the directory listing succeeds. -/
theorem loadFS_eq_ok {fs : FS} {dir : Path}
    {entries : List (String × FsEntry)}
    (h : readDirFS fs dir = .ok entries) :
    loadFS fs dir =
      match loadEntriesFS fs dir entries (readDirFS_mem h) with
      | .error e => .error e
      | .ok (ss, gs) => .ok (Group.mk 0 (dirBase dir) ss gs none) := by
  rw [loadFS]
  split
  · next e heq => rw [heq] at h; cases h
  · next entries' heq =>
      rw [heq] at h
      cases h
      rfl

theorem loadEntriesFS_nil (fs : FS) (dir : Path)
    (hmem : ∀ x ∈ ([] : List (String × FsEntry)), (dir ++ [x.1], x.2) ∈ fs) :
    loadEntriesFS fs dir [] hmem = .ok ([], []) := by
  rw [loadEntriesFS]

theorem loadEntriesFS_cons_dirE (fs : FS) (dir : Path) (n : String)
    (rest : List (String × FsEntry))
    (hmem : ∀ x ∈ (n, FsEntry.dirE) :: rest, (dir ++ [x.1], x.2) ∈ fs) :
    loadEntriesFS fs dir ((n, FsEntry.dirE) :: rest) hmem =
      match loadFS fs (dir ++ [n]) with
      | .error err => .error err
      | .ok child =>
          match loadEntriesFS fs dir rest
              (fun x hx => hmem x (List.mem_cons_of_mem _ hx)) with
          | .error err => .error err
          | .ok (ss, gs) => .ok (ss, child :: gs) := by
  rw [loadEntriesFS]

theorem loadEntriesFS_cons_fileE (fs : FS) (dir : Path) (n : String)
    (c : FContent) (t : Int) (rest : List (String × FsEntry))
    (hmem : ∀ x ∈ (n, FsEntry.fileE c t) :: rest, (dir ++ [x.1], x.2) ∈ fs) :
    loadEntriesFS fs dir ((n, FsEntry.fileE c t) :: rest) hmem =
      if isHidden n then
        loadEntriesFS fs dir rest
          (fun x hx => hmem x (List.mem_cons_of_mem _ hx))
      else
        match newSnippet fs (dir ++ [n]) with
        | .error err => .error err
        | .ok s =>
            match loadEntriesFS fs dir rest
                (fun x hx => hmem x (List.mem_cons_of_mem _ hx)) with
            | .error err => .error err
            | .ok (ss, gs) => .ok (s :: ss, gs) := by
  rw [loadEntriesFS]

/-! ## C9: Write persists exactly the managed groups -/

theorem akWriteList_filter_managed (dir : Path) (now : Int) :
    ∀ (l : List (String × AKRawGroup)) (fs : FS),
      akWriteList dir now l fs =
        akWriteList dir now (l.filter (fun kv => kv.2.managed)) fs := by
  intro l
  induction l with
  | nil => intro fs; rfl
  | cons kv rest ih =>
      intro fs
      obtain ⟨k, rg⟩ := kv
      rw [akWriteList, List.filter_cons]
      by_cases hm : rg.managed = true
      · rw [if_pos hm, if_pos (by simpa using hm)]
        rw [akWriteList]
        rw [if_pos hm]
        cases hw : writeGroupFS dir now rg.group fs with
        | error e => rfl
        | ok fs1 => exact ih fs1
      · rw [if_neg hm, if_neg (by simpa using hm)]
        exact ih fs

theorem mem_upsertAssoc {α : Type} {m : List (String × α)} {k : String}
    {v : α} {kv : String × α} (h : kv ∈ upsertAssoc m k v) :
    kv ∈ m ∨ kv = (k, v) := by
  induction m with
  | nil =>
      rw [upsertAssoc] at h
      rcases List.mem_singleton.1 h with rfl
      exact Or.inr rfl
  | cons kv0 rest ih =>
      obtain ⟨k0, v0⟩ := kv0
      rw [upsertAssoc] at h
      split at h
      · rcases List.mem_cons.1 h with rfl | h'
        · exact Or.inr rfl
        · exact Or.inl (List.mem_cons_of_mem _ h')
      · rcases List.mem_cons.1 h with rfl | h'
        · exact Or.inl (List.mem_cons_self _ _)
        · rcases ih h' with h'' | h''
          · exact Or.inl (List.mem_cons_of_mem _ h'')
          · exact Or.inr h''

theorem mem_load_foldl {gs : List Group}
    {m0 : List (String × AKRawGroup)} {kv : String × AKRawGroup}
    (h : kv ∈ gs.foldl
      (fun m g => upsertAssoc m g.name ⟨g, false⟩) m0) :
    kv ∈ m0 ∨ kv.2.managed = false := by
  induction gs generalizing m0 with
  | nil => exact Or.inl h
  | cons g rest ih =>
      rw [List.foldl_cons] at h
      rcases ih h with h' | h'
      · rcases mem_upsertAssoc h' with h'' | h''
        · exact Or.inl h''
        · rw [h'']
          exact Or.inr rfl
      · exact Or.inr h'

/-- C9: `Write` persists exactly the groups supplied via `SetGroup`:
(1) the write loop is the write loop over the managed entries only,
(2) every table entry contributed by `Load` is unmanaged (a managed entry
after `Load` was already in the table before), (3) `SetGroup` stores the
group marked managed, and (4) after loading into a fresh backend, `Write`
writes nothing at all. -/
theorem C9_write_managed_only :
    (∀ (st : AKState) (now : Int) (fs : FS),
      akWrite st now fs =
        akWriteList st.dir now
          (st.groups.filter (fun kv => kv.2.managed)) fs) ∧
    (∀ (st : AKState) (fs : FS) (st' : AKState),
      akLoad st fs = .ok st' →
      ∀ kv ∈ st'.groups, kv.2.managed = true → kv ∈ st.groups) ∧
    (∀ (st : AKState) (g : Group),
      lookupAssoc (akSetGroup st g).groups g.name = some ⟨g, true⟩) ∧
    (∀ (dir : Path) (fs : FS) (st' : AKState) (now : Int) (fs' : FS),
      akLoad (akNew dir) fs = .ok st' →
      akWrite st' now fs' = .ok fs') := by
  refine ⟨?_, ?_, ?_, ?_⟩
  · intro st now fs
    exact akWriteList_filter_managed st.dir now st.groups fs
  · intro st fs st' hload kv hkv hm
    unfold akLoad at hload
    cases hroot : loadFS fs st.dir with
    | error e => rw [hroot] at hload; cases hload
    | ok root =>
        rw [hroot] at hload
        cases hload
        rcases mem_load_foldl hkv with h' | h'
        · exact h'
        · rw [h'] at hm
          cases hm
  · intro st g
    unfold akSetGroup
    rw [lookupAssoc_upsertAssoc, if_pos rfl]
  · intro dir fs st' now fs' hload
    have hall : ∀ kv ∈ st'.groups, kv.2.managed = false := by
      intro kv hkv
      unfold akLoad at hload
      cases hroot : loadFS fs (akNew dir).dir with
      | error e => rw [hroot] at hload; cases hload
      | ok root =>
          rw [hroot] at hload
          cases hload
          rcases mem_load_foldl hkv with h' | h'
          · cases h'
          · exact h'
    rw [akWrite, akWriteList_filter_managed]
    rw [List.filter_eq_nil_iff.2]
    · rfl
    · intro kv hkv
      rw [hall kv hkv]
      exact Bool.false_ne_true

/-- C9 witness: loading a settings tree containing group `"G"` into a
fresh backend and then writing changes nothing on disk, and `SetGroup`
stores its group managed. -/
theorem C9_write_managed_only_witness :
    akWrite ⟨["d"], [("G", ⟨Group.mk 0 "G" [] [] none, false⟩)]⟩ 0
        [(["d"], FsEntry.dirE), (["d", "G"], FsEntry.dirE)] =
      .ok [(["d"], FsEntry.dirE), (["d", "G"], FsEntry.dirE)] ∧
    lookupAssoc (akSetGroup (akNew ["d"])
        (Group.mk 0 "G" [] [] none)).groups "G" =
      some ⟨Group.mk 0 "G" [] [] none, true⟩ := by
  have hrd2 : readDirFS [(["d"], FsEntry.dirE), (["d", "G"], FsEntry.dirE)]
      ["d", "G"] = .ok [] := by rfl
  have hl2 : loadFS [(["d"], FsEntry.dirE), (["d", "G"], FsEntry.dirE)]
      ["d", "G"] = .ok (Group.mk 0 "G" [] [] none) := by
    rw [loadFS_eq_ok hrd2, loadEntriesFS_nil]
    rfl
  have hrd1 : readDirFS [(["d"], FsEntry.dirE), (["d", "G"], FsEntry.dirE)]
      ["d"] = .ok [("G", FsEntry.dirE)] := by rfl
  have happ : (["d"] : Path) ++ ["G"] = ["d", "G"] := rfl
  have hl1 : loadFS [(["d"], FsEntry.dirE), (["d", "G"], FsEntry.dirE)]
      ["d"] = .ok (Group.mk 0 "d" [] [Group.mk 0 "G" [] [] none] none) := by
    rw [loadFS_eq_ok hrd1, loadEntriesFS_cons_dirE, happ, hl2,
      loadEntriesFS_nil]
    rfl
  constructor
  · refine C9_write_managed_only.2.2.2 ["d"]
      [(["d"], FsEntry.dirE), (["d", "G"], FsEntry.dirE)] _ 0 _ ?_
    rw [akLoad]
    simp only [akNew]
    rw [hl1]
    rfl
  · exact C9_write_managed_only.2.2.1 (akNew ["d"]) (Group.mk 0 "G" [] [] none)

/-! ## C6: a second `Load` does not replace the in-memory state -/

/-- C6 counterexample: loading the same one-group document twice into a
`TextExpander` instance leaves two copies of group `"g"` in the group
table — the second `Load` appended to the retained slice instead of
replacing it, so the table does not reflect only the second load's data
and a group is duplicated. -/
theorem C6_counterexample :
    gnames (teLoad ⟨[⟨"g", []⟩], []⟩
        (teLoad ⟨[⟨"g", []⟩], []⟩ ⟨[]⟩).1).1.groups = ["g", "g"] := by
  rfl

theorem lookup_load_foldl_not_mem {gs : List Group}
    {m0 : List (String × AKRawGroup)} {k : String} (h : k ∉ gnames gs) :
    lookupAssoc (gs.foldl
        (fun m g => upsertAssoc m g.name ⟨g, false⟩) m0) k =
      lookupAssoc m0 k := by
  induction gs generalizing m0 with
  | nil => rfl
  | cons g rest ih =>
      rw [List.foldl_cons]
      rw [ih (fun hm => h (List.mem_cons_of_mem _ hm))]
      rw [lookupAssoc_upsertAssoc]
      rw [if_neg]
      intro he
      apply h
      rw [← he]
      exact List.mem_cons_self _ _

/-- C6 (amended): a second `Load` does not replace the in-memory state.
`TextExpander.Load` appends the newly parsed groups to the retained
`groups` slice (so reloading duplicates groups), and `AutoKey.Load`
upserts the loaded groups into the retained table by name (so an entry
whose name is not among the newly loaded top-level groups survives
unchanged). -/
theorem C6_amended :
    (∀ (doc : RawData) (st : TEState),
      (teLoad doc st).1.groups =
        st.groups ++
          (teParseGroups (teSnippetTable doc.snippets) 0 doc.groups).1) ∧
    (∀ (st : AKState) (fs : FS) (st' : AKState) (root : Group) (k : String),
      akLoad st fs = .ok st' →
      loadFS fs st.dir = .ok root →
      k ∉ gnames root.groups →
      lookupAssoc st'.groups k = lookupAssoc st.groups k) := by
  constructor
  · intro doc st
    unfold teLoad
    cases h : teParseGroups (teSnippetTable doc.snippets) 0 doc.groups with
    | mk gs err =>
        rfl
  · intro st fs st' root k hload hroot hk
    unfold akLoad at hload
    rw [hroot] at hload
    cases hload
    exact lookup_load_foldl_not_mem hk

/-- C6 witness for the amended statement: the appended parse result in the
counterexample's double load, and retention of the table entry `"old"`
across an `AutoKey` load that does not mention it. -/
theorem C6_amended_witness :
    (teLoad ⟨[⟨"g", []⟩], []⟩ (teLoad ⟨[⟨"g", []⟩], []⟩ ⟨[]⟩).1).1.groups =
      (teLoad ⟨[⟨"g", []⟩], []⟩ ⟨[]⟩).1.groups ++
        (teParseGroups (teSnippetTable ([] : List RawSnippet)) 0
          [⟨"g", []⟩]).1 ∧
    lookupAssoc (⟨["d"],
        [("old", ⟨Group.mk 5 "old" [] [] none, true⟩)]⟩ : AKState).groups
        "old" =
      some ⟨Group.mk 5 "old" [] [] none, true⟩ := by
  constructor
  · exact C6_amended.1 ⟨[⟨"g", []⟩], []⟩ (teLoad ⟨[⟨"g", []⟩], []⟩ ⟨[]⟩).1
  · have hrd : readDirFS [(["d"], FsEntry.dirE)] ["d"] = .ok [] := by rfl
    have hl : loadFS [(["d"], FsEntry.dirE)] ["d"] =
        .ok (Group.mk 0 "d" [] [] none) := by
      rw [loadFS_eq_ok hrd, loadEntriesFS_nil]
      rfl
    have hload : akLoad
        (⟨["d"], [("old", ⟨Group.mk 5 "old" [] [] none, true⟩)]⟩ : AKState)
        [(["d"], FsEntry.dirE)] =
        .ok ⟨["d"], [("old", ⟨Group.mk 5 "old" [] [] none, true⟩)]⟩ := by
      rw [akLoad]
      rw [hl]
      rfl
    have := C6_amended.2
      ⟨["d"], [("old", ⟨Group.mk 5 "old" [] [] none, true⟩)]⟩
      [(["d"], FsEntry.dirE)]
      ⟨["d"], [("old", ⟨Group.mk 5 "old" [] [] none, true⟩)]⟩
      (Group.mk 0 "d" [] [] none) "old" hload hl (by simp [gnames])
    rw [this]
    rfl

/-! ## C1: freshness-based write skipping and Write idempotence -/

theorem lookupFS_setFS (fs : FS) (p : Path) (e : FsEntry) (q : Path) :
    lookupFS (setFS fs p e) q = if p = q then some e else lookupFS fs q := by
  induction fs with
  | nil =>
      by_cases h : p = q
      · subst h
        simp [setFS, lookupFS]
      · simp [setFS, lookupFS, h]
  | cons pe rest ih =>
      obtain ⟨p0, e0⟩ := pe
      rw [setFS]
      by_cases h0 : p0 = p
      · rw [if_pos h0, lookupFS, lookupFS]
        by_cases h1 : p = q
        · rw [if_pos h1, if_pos h1]
        · rw [if_neg h1, if_neg h1, if_neg (h0 ▸ h1)]
      · rw [if_neg h0, lookupFS, lookupFS]
        by_cases h1 : p0 = q
        · rw [if_pos h1, if_pos h1, if_neg (fun he => h0 (h1.trans he.symm))]
        · rw [if_neg h1, if_neg h1, ih]

theorem setFS_setFS_same (fs : FS) (p : Path) (a b : FsEntry) :
    setFS (setFS fs p a) p b = setFS fs p b := by
  induction fs with
  | nil => simp [setFS]
  | cons pe rest ih =>
      obtain ⟨p0, e0⟩ := pe
      rw [setFS]
      by_cases h0 : p0 = p
      · rw [if_pos h0, setFS, if_pos rfl, setFS, if_pos h0]
      · rw [if_neg h0, setFS, if_neg h0, setFS, if_neg h0, ih]

theorem dropThroughDot_append (A B : List Char)
    (h : ∀ c ∈ A, c ≠ '.') : dropThroughDot (A ++ '.' :: B) = some B := by
  induction A with
  | nil =>
      rw [List.nil_append, dropThroughDot, if_pos rfl]
  | cons c cs ih =>
      rw [List.cons_append, dropThroughDot,
        if_neg (h c (List.mem_cons_self _ _))]
      exact ih (fun x hx => h x (List.mem_cons_of_mem _ hx))

theorem stripLastExt_concat (nm ext : String)
    (h : ∀ c ∈ ext.data, c ≠ '.') :
    stripLastExt (nm ++ "." ++ ext) = some nm := by
  unfold stripLastExt
  have hdata : (nm ++ "." ++ ext).data = nm.data ++ '.' :: ext.data := by
    rw [String.data_append, String.data_append]
    simp [List.append_assoc]
  rw [hdata]
  have hrev : (nm.data ++ '.' :: ext.data).reverse =
      ext.data.reverse ++ '.' :: nm.data.reverse := by
    rw [List.reverse_append, List.reverse_cons, List.append_assoc,
      List.singleton_append]
  rw [hrev]
  rw [dropThroughDot_append _ _ (fun c hc => h c (List.mem_reverse.1 hc))]
  rw [Option.map_some', List.reverse_reverse]

theorem stripLastExt_sfile (nm : String) :
    stripLastExt (nm ++ "." ++ snippetExt) = some nm :=
  stripLastExt_concat nm snippetExt (by decide)

theorem stripLastExt_mfile (nm : String) :
    stripLastExt (nm ++ "." ++ metadataExt) = some nm :=
  stripLastExt_concat nm metadataExt (by decide)

/-- A snippet body file name is never a sidecar file name. -/
theorem sfile_ne_mfile (a b : String) :
    a ++ "." ++ snippetExt ≠ b ++ "." ++ metadataExt := by
  intro heq
  have hd : a.data ++ (".".data ++ snippetExt.data) =
      b.data ++ (".".data ++ metadataExt.data) := by
    have h0 := congrArg String.data heq
    rw [String.data_append, String.data_append, String.data_append,
      String.data_append, List.append_assoc, List.append_assoc] at h0
    exact h0
  have e1 : (a.data ++ (".".data ++ snippetExt.data)).getLast? = some 't' := by
    rw [List.getLast?_append]
    rfl
  have e2 : (b.data ++ (".".data ++ metadataExt.data)).getLast? = some 'n' := by
    rw [List.getLast?_append]
    rfl
  have hne : (some 't' : Option Char) = some 'n' := by
    rw [← e1, ← e2, hd]
  simp at hne

theorem metadataPath_sfile (d : Path) (nm : String) :
    metadataPath (d ++ [nm ++ "." ++ snippetExt]) =
      .ok (d ++ [nm ++ "." ++ metadataExt]) := by
  simp only [metadataPath, List.getLast?_concat, metadataSegment,
    stripLastExt_sfile, Except.map, List.dropLast_concat]

theorem metadataPath_mfile (d : Path) (nm : String) :
    metadataPath (d ++ [nm ++ "." ++ metadataExt]) =
      .ok (d ++ [nm ++ "." ++ metadataExt]) := by
  simp only [metadataPath, List.getLast?_concat, metadataSegment,
    stripLastExt_mfile, Except.map, List.dropLast_concat]

/-- A path holds a regular file at least as new as the bound `m`. -/
def Fresh (fs : FS) (q : Path) (m : Int) : Prop :=
  ∃ c t, lookupFS fs q = some (.fileE c t) ∧ ¬ t < m

theorem bind_ok {α β : Type} (a : α) (f : α → Except String β) :
    (Except.ok a >>= f) = f a := rfl

/-- C1, skip half (per snippet): if the sidecar exists on disk with a
modification time not older than the snippet's, nothing is written at
all. -/
theorem writeSnippetFS_skip {dir : Path} {s : Snippet} {fs : FS}
    (h : Fresh fs (dir ++ [s.name ++ "." ++ metadataExt]) s.modTime)
    (now : Int) : writeSnippetFS dir s now fs = .ok fs := by
  obtain ⟨c, t, hl, ht⟩ := h
  simp only [writeSnippetFS, metadataPath_sfile, bind_ok, hl]
  rw [if_pos]
  · rfl
  · simp [ht]

/-- C1, write half (per snippet): when the sidecar is missing or older
than the snippet, the sidecar and body files are written and both on-disk
times are forced to exactly the snippet's modification time. -/
theorem writeSnippetFS_write {dir : Path} {s : Snippet} {fs : FS}
    (hstale : ∀ c t,
      lookupFS fs (dir ++ [s.name ++ "." ++ metadataExt]) =
        some (.fileE c t) → t < s.modTime)
    (hmd : lookupFS fs (dir ++ [s.name ++ "." ++ metadataExt]) ≠
      some .dirE)
    (hsp : lookupFS fs (dir ++ [s.name ++ "." ++ snippetExt]) ≠
      some .dirE)
    (now : Int) :
    writeSnippetFS dir s now fs = .ok
      (setFS (setFS fs (dir ++ [s.name ++ "." ++ metadataExt])
          (.fileE (.metadata (newMetadata s)) s.modTime))
        (dir ++ [s.name ++ "." ++ snippetExt])
        (.fileE (.body s.text) s.modTime)) := by
  have hne : (dir ++ [s.name ++ "." ++ snippetExt]) ≠
      (dir ++ [s.name ++ "." ++ metadataExt]) := by
    intro he
    have h' := List.append_cancel_left he
    injection h' with hh ht
    exact sfile_ne_mfile s.name s.name hh
  simp only [writeSnippetFS, metadataPath_sfile, bind_ok]
  rw [if_neg]
  case hnc =>
      cases hl : lookupFS fs (dir ++ [s.name ++ "." ++ metadataExt]) with
      | none => simp
      | some e =>
          cases e with
          | dirE => simp
          | fileE c t => simp [hstale c t hl]
  have h1 : writeMetadata fs (dir ++ [s.name ++ "." ++ metadataExt])
      (newMetadata s) now = .ok
      (setFS fs (dir ++ [s.name ++ "." ++ metadataExt])
        (.fileE (.metadata (newMetadata s)) now)) := by
    unfold writeMetadata writeFS
    cases hl : lookupFS fs (dir ++ [s.name ++ "." ++ metadataExt]) with
    | none => rfl
    | some e =>
        cases e with
        | dirE => exact absurd hl hmd
        | fileE c t => rfl
  rw [h1, bind_ok]
  have h2 : chtimesFS
      (setFS fs (dir ++ [s.name ++ "." ++ metadataExt])
        (.fileE (.metadata (newMetadata s)) now))
      (dir ++ [s.name ++ "." ++ metadataExt]) s.modTime = .ok
      (setFS fs (dir ++ [s.name ++ "." ++ metadataExt])
        (.fileE (.metadata (newMetadata s)) s.modTime)) := by
    unfold chtimesFS
    rw [lookupFS_setFS, if_pos rfl]
    exact congrArg Except.ok (setFS_setFS_same fs _ _ _)
  rw [h2, bind_ok]
  have h3 : writeFS
      (setFS fs (dir ++ [s.name ++ "." ++ metadataExt])
        (.fileE (.metadata (newMetadata s)) s.modTime))
      (dir ++ [s.name ++ "." ++ snippetExt]) (.body s.text) now = .ok
      (setFS (setFS fs (dir ++ [s.name ++ "." ++ metadataExt])
          (.fileE (.metadata (newMetadata s)) s.modTime))
        (dir ++ [s.name ++ "." ++ snippetExt])
        (.fileE (.body s.text) now)) := by
    unfold writeFS
    rw [lookupFS_setFS, if_neg (fun he => hne he.symm)]
    cases hl : lookupFS fs (dir ++ [s.name ++ "." ++ snippetExt]) with
    | none => rfl
    | some e =>
        cases e with
        | dirE => exact absurd hl hsp
        | fileE c t => rfl
  rw [h3, bind_ok]
  unfold chtimesFS
  rw [lookupFS_setFS, if_pos rfl]
  exact congrArg Except.ok (setFS_setFS_same _ _ _ _)

theorem bind_err {α β : Type} (e : String) (f : α → Except String β) :
    (Except.error e >>= f) = .error e := rfl

/-- Directory-entry preservation: a state change that never deletes or
overwrites a directory. -/
def PreservesDirs (fs fs' : FS) : Prop :=
  ∀ q, lookupFS fs q = some .dirE → lookupFS fs' q = some .dirE

/-- Sidecar-freshness preservation: a state change that never makes a
sidecar file older (relative to any bound) or removes it. -/
def PreservesMd (fs fs' : FS) : Prop :=
  ∀ (d : Path) (nm : String) (m : Int),
    Fresh fs (d ++ [nm ++ "." ++ metadataExt]) m →
    Fresh fs' (d ++ [nm ++ "." ++ metadataExt]) m

theorem preservesDirs_refl (fs : FS) : PreservesDirs fs fs := fun _ h => h

theorem preservesMd_refl (fs : FS) : PreservesMd fs fs := fun _ _ _ h => h

theorem preservesDirs_trans {a b c : FS} (h1 : PreservesDirs a b)
    (h2 : PreservesDirs b c) : PreservesDirs a c :=
  fun q h => h2 q (h1 q h)

theorem preservesMd_trans {a b c : FS} (h1 : PreservesMd a b)
    (h2 : PreservesMd b c) : PreservesMd a c :=
  fun d nm m h => h2 d nm m (h1 d nm m h)

/-- A sidecar path is never a body-file path. -/
theorem mpath_ne_spath (d : Path) (nm : String) (dir : Path) (snm : String) :
    d ++ [nm ++ "." ++ metadataExt] ≠ dir ++ [snm ++ "." ++ snippetExt] := by
  intro he
  have h' := congrArg List.getLast? he
  rw [List.getLast?_concat, List.getLast?_concat] at h'
  injection h' with h''
  exact sfile_ne_mfile snm nm h''.symm

/-- The stale/missing-sidecar case of `writeSnippetFS_mono`. -/
theorem writeSnippetFS_write_case {dir : Path} {s : Snippet} {now : Int}
    {fs fs' : FS} (h : writeSnippetFS dir s now fs = .ok fs')
    (hstale : ∀ c t, lookupFS fs (dir ++ [s.name ++ "." ++ metadataExt]) =
      some (.fileE c t) → t < s.modTime)
    (hmd : lookupFS fs (dir ++ [s.name ++ "." ++ metadataExt]) ≠
      some .dirE) :
    PreservesDirs fs fs' ∧ PreservesMd fs fs' ∧
      Fresh fs' (dir ++ [s.name ++ "." ++ metadataExt]) s.modTime := by
  by_cases hsp : lookupFS fs (dir ++ [s.name ++ "." ++ snippetExt]) =
      some .dirE
  · exfalso
    have herr : writeSnippetFS dir s now fs = .error "open: is a directory" := by
      simp only [writeSnippetFS, metadataPath_sfile, bind_ok]
      rw [if_neg]
      case hnc =>
          cases hl : lookupFS fs (dir ++ [s.name ++ "." ++ metadataExt]) with
          | none => simp
          | some e =>
              cases e with
              | dirE => simp
              | fileE c t => simp [hstale c t hl]
      have h1 : writeMetadata fs (dir ++ [s.name ++ "." ++ metadataExt])
          (newMetadata s) now = .ok
          (setFS fs (dir ++ [s.name ++ "." ++ metadataExt])
            (.fileE (.metadata (newMetadata s)) now)) := by
        unfold writeMetadata writeFS
        cases hl : lookupFS fs (dir ++ [s.name ++ "." ++ metadataExt]) with
        | none => rfl
        | some e =>
            cases e with
            | dirE => exact absurd hl hmd
            | fileE c t => rfl
      rw [h1, bind_ok]
      have h2 : chtimesFS
          (setFS fs (dir ++ [s.name ++ "." ++ metadataExt])
            (.fileE (.metadata (newMetadata s)) now))
          (dir ++ [s.name ++ "." ++ metadataExt]) s.modTime = .ok
          (setFS fs (dir ++ [s.name ++ "." ++ metadataExt])
            (.fileE (.metadata (newMetadata s)) s.modTime)) := by
        unfold chtimesFS
        rw [lookupFS_setFS, if_pos rfl]
        exact congrArg Except.ok (setFS_setFS_same fs _ _ _)
      rw [h2, bind_ok]
      have hne : (dir ++ [s.name ++ "." ++ metadataExt]) ≠
          (dir ++ [s.name ++ "." ++ snippetExt]) :=
        mpath_ne_spath dir s.name dir s.name
      have h3 : writeFS
          (setFS fs (dir ++ [s.name ++ "." ++ metadataExt])
            (.fileE (.metadata (newMetadata s)) s.modTime))
          (dir ++ [s.name ++ "." ++ snippetExt]) (.body s.text) now =
          .error "open: is a directory" := by
        unfold writeFS
        rw [lookupFS_setFS, if_neg hne, hsp]
      rw [h3, bind_err]
    rw [herr] at h
    cases h
  · rw [writeSnippetFS_write hstale hmd hsp now] at h
    cases h
    have hne : (dir ++ [s.name ++ "." ++ snippetExt]) ≠
        (dir ++ [s.name ++ "." ++ metadataExt]) :=
      fun he => mpath_ne_spath dir s.name dir s.name he.symm
    refine ⟨?_, ?_, ?_⟩
    · intro q hq
      have h1 : (dir ++ [s.name ++ "." ++ snippetExt]) ≠ q := by
        intro he
        rw [← he] at hq
        exact hsp hq
      have h2 : (dir ++ [s.name ++ "." ++ metadataExt]) ≠ q := by
        intro he
        rw [← he] at hq
        exact hmd hq
      rw [lookupFS_setFS, if_neg h1, lookupFS_setFS, if_neg h2]
      exact hq
    · intro d nm m hfr
      obtain ⟨c, t, hlq, htm⟩ := hfr
      have hsne : (dir ++ [s.name ++ "." ++ snippetExt]) ≠
          (d ++ [nm ++ "." ++ metadataExt]) :=
        fun he => mpath_ne_spath d nm dir s.name he.symm
      by_cases hqm : (dir ++ [s.name ++ "." ++ metadataExt]) =
          (d ++ [nm ++ "." ++ metadataExt])
      · refine ⟨.metadata (newMetadata s), s.modTime, ?_, ?_⟩
        · rw [lookupFS_setFS, if_neg hsne, lookupFS_setFS, if_pos hqm]
        · rw [← hqm] at hlq
          have := hstale c t hlq
          omega
      · refine ⟨c, t, ?_, htm⟩
        rw [lookupFS_setFS, if_neg hsne, lookupFS_setFS, if_neg hqm]
        exact hlq
    · refine ⟨.metadata (newMetadata s), s.modTime, ?_, ?_⟩
      · rw [lookupFS_setFS, if_neg hne]
        rw [lookupFS_setFS, if_pos rfl]
      · omega

/-- The per-snippet write preserves directories and sidecar freshness, and
establishes the written snippet's own sidecar freshness. -/
theorem writeSnippetFS_mono {dir : Path} {s : Snippet} {now : Int}
    {fs fs' : FS} (h : writeSnippetFS dir s now fs = .ok fs') :
    PreservesDirs fs fs' ∧ PreservesMd fs fs' ∧
      Fresh fs' (dir ++ [s.name ++ "." ++ metadataExt]) s.modTime := by
  cases hl : lookupFS fs (dir ++ [s.name ++ "." ++ metadataExt]) with
  | some e =>
      cases e with
      | dirE =>
          exfalso
          have herr : writeSnippetFS dir s now fs = .error "open: is a directory" := by
            simp only [writeSnippetFS, metadataPath_sfile, bind_ok, hl]
            rw [if_neg (by simp)]
            have h1 : writeMetadata fs (dir ++ [s.name ++ "." ++ metadataExt])
                (newMetadata s) now = .error "open: is a directory" := by
              unfold writeMetadata writeFS
              rw [hl]
            rw [h1, bind_err]
          rw [herr] at h
          cases h
      | fileE c t =>
          by_cases hfr : t < s.modTime
          · refine writeSnippetFS_write_case h ?_ ?_
            · intro c' t' hl'
              rw [hl] at hl'
              injection hl' with hl''
              injection hl'' with h1 h2
              rw [← h2]
              exact hfr
            · rw [hl]
              intro hc
              cases hc
          · have hskip := writeSnippetFS_skip ⟨c, t, hl, hfr⟩ now
            rw [hskip] at h
            cases h
            exact ⟨preservesDirs_refl fs, preservesMd_refl fs, c, t, hl, hfr⟩
  | none =>
      refine writeSnippetFS_write_case h ?_ ?_
      · intro c' t' hl'
        rw [hl] at hl'
        cases hl'
      · rw [hl]
        intro hc
        cases hc

/-- The snippet loop preserves directories and sidecar freshness and
leaves every written snippet's sidecar fresh. -/
theorem writeSnippetsFS_mono {dir : Path} {now : Int} :
    ∀ {ss : List Snippet} {fs fs' : FS},
      writeSnippetsFS dir now ss fs = .ok fs' →
      PreservesDirs fs fs' ∧ PreservesMd fs fs' ∧
        ∀ s ∈ ss, Fresh fs' (dir ++ [s.name ++ "." ++ metadataExt])
          s.modTime := by
  intro ss
  induction ss with
  | nil =>
      intro fs fs' h
      rw [writeSnippetsFS] at h
      cases h
      exact ⟨preservesDirs_refl _, preservesMd_refl _,
        fun s hs => absurd hs (List.not_mem_nil s)⟩
  | cons s rest ih =>
      intro fs fs' h
      rw [writeSnippetsFS] at h
      cases h1 : writeSnippetFS dir s now fs with
      | error e => rw [h1, bind_err] at h; cases h
      | ok fs1 =>
          rw [h1, bind_ok] at h
          obtain ⟨hd1, hm1, hf1⟩ := writeSnippetFS_mono h1
          obtain ⟨hd2, hm2, hf2⟩ := ih h
          refine ⟨preservesDirs_trans hd1 hd2, preservesMd_trans hm1 hm2, ?_⟩
          intro x hx
          rcases List.mem_cons.1 hx with rfl | hx'
          · exact hm2 dir x.name x.modTime hf1
          · exact hf2 x hx'

/-- The snippet loop is a no-op when every sidecar is already fresh. -/
theorem writeSnippetsFS_idem {dir : Path} {now : Int} :
    ∀ {ss : List Snippet} {fs : FS},
      (∀ s ∈ ss, Fresh fs (dir ++ [s.name ++ "." ++ metadataExt])
        s.modTime) →
      writeSnippetsFS dir now ss fs = .ok fs := by
  intro ss
  induction ss with
  | nil => intro fs _; rfl
  | cons s rest ih =>
      intro fs hall
      rw [writeSnippetsFS]
      rw [writeSnippetFS_skip (hall s (List.mem_cons_self _ _)) now, bind_ok]
      exact ih (fun x hx => hall x (List.mem_cons_of_mem _ hx))

theorem mkdirOne_pres {fs fs' : FS} {d : Path}
    (h : mkdirOne fs d = .ok fs') :
    (∀ q e, lookupFS fs q = some e → lookupFS fs' q = some e) ∧
      lookupFS fs' d = some .dirE := by
  unfold mkdirOne at h
  cases hl : lookupFS fs d with
  | none =>
      rw [hl] at h
      cases h
      constructor
      · intro q e hq
        rw [lookupFS_setFS]
        rw [if_neg]
        · exact hq
        · intro he
          rw [← he] at hq
          rw [hl] at hq
          cases hq
      · rw [lookupFS_setFS, if_pos rfl]
  | some e0 =>
      cases e0 with
      | dirE =>
          rw [hl] at h
          cases h
          exact ⟨fun q e hq => hq, hl⟩
      | fileE c t => rw [hl] at h; cases h

theorem mkdirOne_idem {fs : FS} {d : Path}
    (h : lookupFS fs d = some .dirE) : mkdirOne fs d = .ok fs := by
  unfold mkdirOne
  rw [h]

/-- The prefix list `MkdirAll` creates along a path. -/
def prefixesOf (p : Path) : List Path :=
  (List.range p.length).map (fun i => p.take (i + 1))

theorem mkdirSeq_pres {p : Path} :
    ∀ {is : List Nat} {fs fs' : FS},
      is.foldlM (fun acc i => mkdirOne acc (p.take (i + 1))) fs = .ok fs' →
      (∀ q e, lookupFS fs q = some e → lookupFS fs' q = some e) ∧
        ∀ i ∈ is, lookupFS fs' (p.take (i + 1)) = some .dirE := by
  intro is
  induction is with
  | nil =>
      intro fs fs' h
      rw [List.foldlM_nil] at h
      cases h
      exact ⟨fun q e hq => hq, fun i hi => absurd hi (List.not_mem_nil i)⟩
  | cons i rest ih =>
      intro fs fs' h
      rw [List.foldlM_cons] at h
      cases h1 : mkdirOne fs (p.take (i + 1)) with
      | error e => rw [h1, bind_err] at h; cases h
      | ok fs1 =>
          rw [h1, bind_ok] at h
          obtain ⟨hp1, hd1⟩ := mkdirOne_pres h1
          obtain ⟨hp2, hd2⟩ := ih h
          refine ⟨fun q e hq => hp2 q e (hp1 q e hq), ?_⟩
          intro j hj
          rcases List.mem_cons.1 hj with rfl | hj'
          · exact hp2 _ _ hd1
          · exact hd2 j hj'

theorem mkdirSeq_idem {p : Path} :
    ∀ {is : List Nat} {fs : FS},
      (∀ i ∈ is, lookupFS fs (p.take (i + 1)) = some .dirE) →
      is.foldlM (fun acc i => mkdirOne acc (p.take (i + 1))) fs = .ok fs := by
  intro is
  induction is with
  | nil => intro fs _; rfl
  | cons i rest ih =>
      intro fs hall
      rw [List.foldlM_cons]
      rw [mkdirOne_idem (hall i (List.mem_cons_self _ _)), bind_ok]
      exact ih (fun j hj => hall j (List.mem_cons_of_mem _ hj))

theorem mkdirAll_pres {fs fs' : FS} {p : Path}
    (h : mkdirAll fs p = .ok fs') :
    (∀ q e, lookupFS fs q = some e → lookupFS fs' q = some e) ∧
      ∀ d ∈ prefixesOf p, lookupFS fs' d = some .dirE := by
  unfold mkdirAll at h
  obtain ⟨h1, h2⟩ := mkdirSeq_pres h
  refine ⟨h1, ?_⟩
  intro d hd
  obtain ⟨i, hi, rfl⟩ := List.mem_map.1 hd
  exact h2 i hi

theorem mkdirAll_idem {fs : FS} {p : Path}
    (h : ∀ d ∈ prefixesOf p, lookupFS fs d = some .dirE) :
    mkdirAll fs p = .ok fs := by
  unfold mkdirAll
  refine mkdirSeq_idem ?_
  intro i hi
  exact h (p.take (i + 1)) (List.mem_map.2 ⟨i, hi, rfl⟩)

theorem pres_to_dirs {fs fs' : FS}
    (h : ∀ q e, lookupFS fs q = some e → lookupFS fs' q = some e) :
    PreservesDirs fs fs' := fun q hq => h q _ hq

theorem pres_to_md {fs fs' : FS}
    (h : ∀ q e, lookupFS fs q = some e → lookupFS fs' q = some e) :
    PreservesMd fs fs' := by
  intro d nm m hfr
  obtain ⟨c, t, hl, ht⟩ := hfr
  exact ⟨c, t, h _ _ hl, ht⟩

mutual

/-- All directories `writeGroup` ensures for a group placed under
`base`: every prefix of the group's own directory, then those of the
subtree. -/
def groupDirs (base : Path) (g : Group) : List Path :=
  match g with
  | .mk _ nm _ gs _ =>
      prefixesOf (base ++ [nm]) ++ groupsDirs (base ++ [nm]) gs
termination_by sizeOf g
decreasing_by all_goals (simp_wf; try omega)

/-- Directories ensured for a list of child groups under `dir`. -/
def groupsDirs (dir : Path) (gs : List Group) : List Path :=
  match gs with
  | [] => []
  | g :: rest => groupDirs dir g ++ groupsDirs dir rest
termination_by sizeOf gs
decreasing_by all_goals (simp_wf; try omega)

end

mutual

/-- All sidecar jobs `writeGroup` performs for a group placed under
`base`: for every snippet of the tree, the directory, snippet name and
target modification time of its metadata file. -/
def groupMdJobs (base : Path) (g : Group) : List (Path × String × Int) :=
  match g with
  | .mk _ nm ss gs _ =>
      groupsMdJobs (base ++ [nm]) gs ++
        ss.map (fun s => (base ++ [nm], s.name, s.modTime))
termination_by sizeOf g
decreasing_by all_goals (simp_wf; try omega)

/-- Sidecar jobs for a list of child groups under `dir`. -/
def groupsMdJobs (dir : Path) (gs : List Group) : List (Path × String × Int) :=
  match gs with
  | [] => []
  | g :: rest => groupMdJobs dir g ++ groupsMdJobs dir rest
termination_by sizeOf gs
decreasing_by all_goals (simp_wf; try omega)

end

/-- The state `writeGroup` leaves behind for a group under `base`: every
directory of the tree exists and every snippet's sidecar is fresh. -/
def GroupDone (fs : FS) (base : Path) (g : Group) : Prop :=
  (∀ d ∈ groupDirs base g, lookupFS fs d = some .dirE) ∧
    ∀ j ∈ groupMdJobs base g,
      Fresh fs (j.1 ++ [j.2.1 ++ "." ++ metadataExt]) j.2.2

theorem groupDirs_mk (base : Path) (r : Nat) (nm : String)
    (ss : List Snippet) (gs : List Group) (p : Option Nat) :
    groupDirs base (.mk r nm ss gs p) =
      prefixesOf (base ++ [nm]) ++ groupsDirs (base ++ [nm]) gs := by
  rw [groupDirs]

theorem groupsDirs_nil (dir : Path) : groupsDirs dir [] = [] := by
  rw [groupsDirs.eq_def]

theorem groupsDirs_cons (dir : Path) (g : Group) (rest : List Group) :
    groupsDirs dir (g :: rest) = groupDirs dir g ++ groupsDirs dir rest := by
  rw [groupsDirs.eq_def]

theorem groupMdJobs_mk (base : Path) (r : Nat) (nm : String)
    (ss : List Snippet) (gs : List Group) (p : Option Nat) :
    groupMdJobs base (.mk r nm ss gs p) =
      groupsMdJobs (base ++ [nm]) gs ++
        ss.map (fun s => (base ++ [nm], s.name, s.modTime)) := by
  rw [groupMdJobs]

theorem groupsMdJobs_nil (dir : Path) : groupsMdJobs dir [] = [] := by
  rw [groupsMdJobs.eq_def]

theorem groupsMdJobs_cons (dir : Path) (g : Group) (rest : List Group) :
    groupsMdJobs dir (g :: rest) =
      groupMdJobs dir g ++ groupsMdJobs dir rest := by
  rw [groupsMdJobs.eq_def]

theorem mem_groupsDirs {dir : Path} {gs : List Group} {d : Path} :
    d ∈ groupsDirs dir gs ↔ ∃ g ∈ gs, d ∈ groupDirs dir g := by
  induction gs with
  | nil => rw [groupsDirs_nil]; simp
  | cons g rest ih =>
      rw [groupsDirs_cons]
      simp only [List.mem_append, ih, List.mem_cons]
      constructor
      · rintro (h | ⟨x, hx, hd⟩)
        · exact ⟨g, Or.inl rfl, h⟩
        · exact ⟨x, Or.inr hx, hd⟩
      · rintro ⟨x, rfl | hx, hd⟩
        · exact Or.inl hd
        · exact Or.inr ⟨x, hx, hd⟩

theorem mem_groupsMdJobs {dir : Path} {gs : List Group}
    {j : Path × String × Int} :
    j ∈ groupsMdJobs dir gs ↔ ∃ g ∈ gs, j ∈ groupMdJobs dir g := by
  induction gs with
  | nil => rw [groupsMdJobs_nil]; simp
  | cons g rest ih =>
      rw [groupsMdJobs_cons]
      simp only [List.mem_append, ih, List.mem_cons]
      constructor
      · rintro (h | ⟨x, hx, hd⟩)
        · exact ⟨g, Or.inl rfl, h⟩
        · exact ⟨x, Or.inr hx, hd⟩
      · rintro ⟨x, rfl | hx, hd⟩
        · exact Or.inl hd
        · exact Or.inr ⟨x, hx, hd⟩

/-- `GroupDone` only mentions directory entries and sidecar freshness,
both preserved by further writes. -/
theorem groupDone_mono {fs fs' : FS} {base : Path} {g : Group}
    (hd : PreservesDirs fs fs') (hm : PreservesMd fs fs')
    (h : GroupDone fs base g) : GroupDone fs' base g := by
  obtain ⟨h1, h2⟩ := h
  refine ⟨fun d hd' => hd d (h1 d hd'), ?_⟩
  intro j hj
  exact hm j.1 j.2.1 j.2.2 (h2 j hj)

theorem writeGroupFS_mk (base : Path) (now : Int) (r : Nat) (nm : String)
    (ss : List Snippet) (gs : List Group) (p : Option Nat) (fs : FS) :
    writeGroupFS base now (.mk r nm ss gs p) fs =
      (mkdirAll fs (base ++ [nm]) >>= fun fs1 =>
        writeGroupsFS (base ++ [nm]) now gs fs1 >>= fun fs2 =>
        writeSnippetsFS (base ++ [nm]) now ss fs2) := by
  rw [writeGroupFS]

theorem writeGroupsFS_nil (dir : Path) (now : Int) (fs : FS) :
    writeGroupsFS dir now [] fs = .ok fs := by
  rw [writeGroupsFS.eq_def]

theorem writeGroupsFS_cons (dir : Path) (now : Int) (g : Group)
    (rest : List Group) (fs : FS) :
    writeGroupsFS dir now (g :: rest) fs =
      (writeGroupFS dir now g fs >>= fun fs1 =>
        writeGroupsFS dir now rest fs1) := by
  rw [writeGroupsFS.eq_def]

theorem writeGroupFS_def (base : Path) (now : Int) (g : Group) (fs : FS) :
    writeGroupFS base now g fs =
      (mkdirAll fs (base ++ [g.name]) >>= fun fs1 =>
        writeGroupsFS (base ++ [g.name]) now g.groups fs1 >>= fun fs2 =>
        writeSnippetsFS (base ++ [g.name]) now g.snippets fs2) := by
  cases g with
  | mk r nm ss gs p => rw [writeGroupFS_mk]; rfl

theorem groupDirs_def (base : Path) (g : Group) :
    groupDirs base g =
      prefixesOf (base ++ [g.name]) ++
        groupsDirs (base ++ [g.name]) g.groups := by
  cases g with
  | mk r nm ss gs p => rw [groupDirs_mk]; rfl

theorem groupMdJobs_def (base : Path) (g : Group) :
    groupMdJobs base g =
      groupsMdJobs (base ++ [g.name]) g.groups ++
        g.snippets.map (fun s => (base ++ [g.name], s.name, s.modTime)) := by
  cases g with
  | mk r nm ss gs p => rw [groupMdJobs_mk]; rfl

/-- `writeGroup` only creates directories and refreshes files, and on
success its whole subtree is done. -/
theorem writeGroupFS_mono (g : Group) (base : Path) (now : Int)
    (fs fs' : FS) (h : writeGroupFS base now g fs = .ok fs') :
    PreservesDirs fs fs' ∧ PreservesMd fs fs' ∧ GroupDone fs' base g := by
  rw [writeGroupFS_def] at h
  cases h1 : mkdirAll fs (base ++ [g.name]) with
  | error e => rw [h1, bind_err] at h; cases h
  | ok fs1 =>
      rw [h1, bind_ok] at h
      cases h2 : writeGroupsFS (base ++ [g.name]) now g.groups fs1 with
      | error e => rw [h2, bind_err] at h; cases h
      | ok fs2 =>
          rw [h2, bind_ok] at h
          obtain ⟨hp1, hdirs1⟩ := mkdirAll_pres h1
          have key : ∀ l : List Group, (∀ x ∈ l, sizeOf x < sizeOf g) →
              ∀ fsa fsb : FS,
                writeGroupsFS (base ++ [g.name]) now l fsa = .ok fsb →
                PreservesDirs fsa fsb ∧ PreservesMd fsa fsb ∧
                  ∀ x ∈ l, GroupDone fsb (base ++ [g.name]) x := by
            intro l
            induction l with
            | nil =>
                intro _ fsa fsb hw
                rw [writeGroupsFS_nil] at hw
                cases hw
                exact ⟨preservesDirs_refl _, preservesMd_refl _,
                  fun x hx => absurd hx (List.not_mem_nil x)⟩
            | cons x rest ih =>
                intro hlt fsa fsb hw
                rw [writeGroupsFS_cons] at hw
                cases hx1 : writeGroupFS (base ++ [g.name]) now x fsa with
                | error e => rw [hx1, bind_err] at hw; cases hw
                | ok fsm =>
                    rw [hx1, bind_ok] at hw
                    obtain ⟨hda, hma, hdonea⟩ :=
                      writeGroupFS_mono x (base ++ [g.name]) now fsa fsm hx1
                    obtain ⟨hdb, hmb, hdoneb⟩ :=
                      ih (fun y hy => hlt y (List.mem_cons_of_mem _ hy))
                        fsm fsb hw
                    refine ⟨preservesDirs_trans hda hdb,
                      preservesMd_trans hma hmb, ?_⟩
                    intro y hy
                    rcases List.mem_cons.1 hy with rfl | hy'
                    · exact groupDone_mono hdb hmb hdonea
                    · exact hdoneb y hy'
          obtain ⟨hd2, hm2, hdone2⟩ := key g.groups
            (fun x hx =>
              Nat.lt_trans (List.sizeOf_lt_of_mem hx)
                (Group.sizeOf_groups_lt g)) fs1 fs2 h2
          obtain ⟨hd3, hm3, hfresh3⟩ := writeSnippetsFS_mono h
          refine ⟨preservesDirs_trans (pres_to_dirs hp1)
              (preservesDirs_trans hd2 hd3),
            preservesMd_trans (pres_to_md hp1)
              (preservesMd_trans hm2 hm3), ?_, ?_⟩
          · intro d hd
            rw [groupDirs_def] at hd
            rcases List.mem_append.1 hd with hpre | hsub
            · exact hd3 d (hd2 d (hdirs1 d hpre))
            · obtain ⟨x, hx, hdx⟩ := mem_groupsDirs.1 hsub
              exact hd3 d ((hdone2 x hx).1 d hdx)
          · intro j hj
            rw [groupMdJobs_def] at hj
            rcases List.mem_append.1 hj with hsub | hss
            · obtain ⟨x, hx, hjx⟩ := mem_groupsMdJobs.1 hsub
              exact hm3 j.1 j.2.1 j.2.2 ((hdone2 x hx).2 j hjx)
            · obtain ⟨s, hs, rfl⟩ := List.mem_map.1 hss
              exact hfresh3 s hs
termination_by sizeOf g
decreasing_by
  simp_wf
  exact hlt x (List.mem_cons_self _ _)

/-- `writeGroup` is a no-op on a state where its subtree is already
done. -/
theorem writeGroupFS_idem (g : Group) (base : Path) (now : Int) (fs : FS)
    (h : GroupDone fs base g) : writeGroupFS base now g fs = .ok fs := by
  obtain ⟨h1, h2⟩ := h
  rw [writeGroupFS_def]
  rw [mkdirAll_idem (fun d hd =>
    h1 d (by rw [groupDirs_def]; exact List.mem_append_left _ hd)), bind_ok]
  have key : ∀ l : List Group, (∀ x ∈ l, sizeOf x < sizeOf g) →
      (∀ x ∈ l, GroupDone fs (base ++ [g.name]) x) →
      writeGroupsFS (base ++ [g.name]) now l fs = .ok fs := by
    intro l
    induction l with
    | nil => intro _ _; rw [writeGroupsFS_nil]
    | cons x rest ih =>
        intro hlt hall
        rw [writeGroupsFS_cons]
        rw [writeGroupFS_idem x (base ++ [g.name]) now fs
          (hall x (List.mem_cons_self _ _)), bind_ok]
        exact ih (fun y hy => hlt y (List.mem_cons_of_mem _ hy))
          (fun y hy => hall y (List.mem_cons_of_mem _ hy))
  rw [key g.groups
    (fun x hx =>
      Nat.lt_trans (List.sizeOf_lt_of_mem hx) (Group.sizeOf_groups_lt g))
    (fun x hx =>
      ⟨fun d hd => h1 d
          (by rw [groupDirs_def]
              exact List.mem_append_right _ (mem_groupsDirs.2 ⟨x, hx, hd⟩)),
        fun j hj => h2 j
          (by rw [groupMdJobs_def]
              exact List.mem_append_left _
                (mem_groupsMdJobs.2 ⟨x, hx, hj⟩))⟩), bind_ok]
  refine writeSnippetsFS_idem ?_
  intro s hs
  exact h2 (base ++ [g.name], s.name, s.modTime)
    (by rw [groupMdJobs_def]
        exact List.mem_append_right _ (List.mem_map.2 ⟨s, hs, rfl⟩))
termination_by sizeOf g
decreasing_by
  simp_wf
  exact hlt x (List.mem_cons_self _ _)

/-- The `Write` loop only creates directories and refreshes files, and
on success every managed entry's subtree is done. -/
theorem akWriteList_mono {dir : Path} {now : Int} :
    ∀ {l : List (String × AKRawGroup)} {fs fs' : FS},
      akWriteList dir now l fs = .ok fs' →
      PreservesDirs fs fs' ∧ PreservesMd fs fs' ∧
        ∀ e ∈ l, e.2.managed = true → GroupDone fs' dir e.2.group := by
  intro l
  induction l with
  | nil =>
      intro fs fs' h
      rw [akWriteList] at h
      cases h
      exact ⟨preservesDirs_refl _, preservesMd_refl _,
        fun e he => absurd he (List.not_mem_nil e)⟩
  | cons e rest ih =>
      intro fs fs' h
      rw [akWriteList] at h
      by_cases hman : e.2.managed = true
      · rw [if_pos hman] at h
        cases h1 : writeGroupFS dir now e.2.group fs with
        | error err => rw [h1, bind_err] at h; cases h
        | ok fs1 =>
            rw [h1, bind_ok] at h
            obtain ⟨hd1, hm1, hdone1⟩ :=
              writeGroupFS_mono e.2.group dir now fs fs1 h1
            obtain ⟨hd2, hm2, hdone2⟩ := ih h
            refine ⟨preservesDirs_trans hd1 hd2,
              preservesMd_trans hm1 hm2, ?_⟩
            intro x hx hxm
            rcases List.mem_cons.1 hx with rfl | hx'
            · exact groupDone_mono hd2 hm2 hdone1
            · exact hdone2 x hx' hxm
      · rw [if_neg hman] at h
        obtain ⟨hd2, hm2, hdone2⟩ := ih h
        refine ⟨hd2, hm2, ?_⟩
        intro x hx hxm
        rcases List.mem_cons.1 hx with rfl | hx'
        · exact absurd hxm hman
        · exact hdone2 x hx' hxm

/-- The `Write` loop is a no-op when every managed entry's subtree is
already done. -/
theorem akWriteList_idem {dir : Path} {now : Int} :
    ∀ {l : List (String × AKRawGroup)} {fs : FS},
      (∀ e ∈ l, e.2.managed = true → GroupDone fs dir e.2.group) →
      akWriteList dir now l fs = .ok fs := by
  intro l
  induction l with
  | nil => intro fs _; rfl
  | cons e rest ih =>
      intro fs h
      rw [akWriteList]
      by_cases hman : e.2.managed = true
      · rw [if_pos hman]
        rw [writeGroupFS_idem e.2.group dir now fs
          (h e (List.mem_cons_self _ _) hman), bind_ok]
        exact ih (fun x hx => h x (List.mem_cons_of_mem _ hx))
      · rw [if_neg hman]
        exact ih (fun x hx => h x (List.mem_cons_of_mem _ hx))

/-- C1: freshness idempotence of the file-tree backend's `Write`.
Per snippet, (a) if a sidecar metadata file whose on-disk modification
time is not older than the snippet's in-memory modification time exists
at the target path, the snippet's write is skipped entirely (the state is
returned unchanged); (b) otherwise the metadata and body files are
written and both files' on-disk timestamps are forced to exactly the
snippet's modification time; and (c) after one successful `Write`, a
second `Write` with unchanged in-memory modification times returns the
filesystem unchanged — it writes no file contents and leaves every
on-disk timestamp as it was. -/
theorem C1_freshness_idempotence (dir : Path) (s : Snippet) (now : Int)
    (fs : FS) (st : AKState) (now' : Int) (fs₁ : FS) :
    (Fresh fs (dir ++ [s.name ++ "." ++ metadataExt]) s.modTime →
      writeSnippetFS dir s now fs = .ok fs) ∧
    ((∀ c t, lookupFS fs (dir ++ [s.name ++ "." ++ metadataExt]) =
        some (.fileE c t) → t < s.modTime) →
      lookupFS fs (dir ++ [s.name ++ "." ++ metadataExt]) ≠ some .dirE →
      lookupFS fs (dir ++ [s.name ++ "." ++ snippetExt]) ≠ some .dirE →
      writeSnippetFS dir s now fs = .ok
          (setFS (setFS fs (dir ++ [s.name ++ "." ++ metadataExt])
              (.fileE (.metadata (newMetadata s)) s.modTime))
            (dir ++ [s.name ++ "." ++ snippetExt])
            (.fileE (.body s.text) s.modTime)) ∧
        lookupFS
            (setFS (setFS fs (dir ++ [s.name ++ "." ++ metadataExt])
                (.fileE (.metadata (newMetadata s)) s.modTime))
              (dir ++ [s.name ++ "." ++ snippetExt])
              (.fileE (.body s.text) s.modTime))
            (dir ++ [s.name ++ "." ++ metadataExt]) =
          some (.fileE (.metadata (newMetadata s)) s.modTime) ∧
        lookupFS
            (setFS (setFS fs (dir ++ [s.name ++ "." ++ metadataExt])
                (.fileE (.metadata (newMetadata s)) s.modTime))
              (dir ++ [s.name ++ "." ++ snippetExt])
              (.fileE (.body s.text) s.modTime))
            (dir ++ [s.name ++ "." ++ snippetExt]) =
          some (.fileE (.body s.text) s.modTime)) ∧
    (akWrite st now fs = .ok fs₁ → akWrite st now' fs₁ = .ok fs₁) := by
  refine ⟨fun hf => writeSnippetFS_skip hf now, ?_, ?_⟩
  · intro hstale hmd hsp
    refine ⟨writeSnippetFS_write hstale hmd hsp now, ?_, ?_⟩
    · rw [lookupFS_setFS,
        if_neg (fun he => mpath_ne_spath dir s.name dir s.name he.symm),
        lookupFS_setFS, if_pos rfl]
    · rw [lookupFS_setFS, if_pos rfl]
  · intro h
    obtain ⟨_, _, hdone⟩ := akWriteList_mono h
    exact akWriteList_idem hdone

/-- A concrete snippet for the `C1` witness. -/
def c1snip : Snippet := ⟨"a", "ab", "T", none, 5⟩

/-- A concrete managed group for the `C1` witness. -/
def c1grp : Group := .mk 0 "g" [c1snip] [] none

/-- A backend state holding `c1grp` via `SetGroup`. -/
def c1st : AKState := akSetGroup (akNew ["root"]) c1grp

/-- A state whose sidecar for `c1snip` is already fresh. -/
def c1skipFs : FS :=
  [(["d", "a.json"], .fileE (.metadata (newMetadata c1snip)) 9)]

/-- The state a first `Write` of `c1st` on an empty filesystem leaves. -/
def c1fsAfter : FS :=
  [(["root"], .dirE), (["root", "g"], .dirE),
   (["root", "g", "a.json"], .fileE (.metadata (newMetadata c1snip)) 5),
   (["root", "g", "a.txt"], .fileE (.body "T") 5)]

/-- Witness for `C1_freshness_idempotence` at concrete inputs: the three
parts instantiated on a fresh sidecar (skip), an empty filesystem (write
and force both timestamps), and a first run of `Write` (a second run
returns the filesystem unchanged). -/
theorem C1_freshness_idempotence_witness :
    writeSnippetFS ["d"] c1snip 7 c1skipFs = .ok c1skipFs ∧
    writeSnippetFS ["d"] c1snip 7 [] = .ok
      (setFS (setFS [] (["d"] ++ [c1snip.name ++ "." ++ metadataExt])
          (.fileE (.metadata (newMetadata c1snip)) c1snip.modTime))
        (["d"] ++ [c1snip.name ++ "." ++ snippetExt])
        (.fileE (.body c1snip.text) c1snip.modTime)) ∧
    akWrite c1st 9 c1fsAfter = .ok c1fsAfter := by
  refine ⟨?_, ?_, ?_⟩
  · exact (C1_freshness_idempotence ["d"] c1snip 7 c1skipFs c1st 9
      c1fsAfter).1 ⟨.metadata (newMetadata c1snip), 9, rfl, by decide⟩
  · exact ((C1_freshness_idempotence ["d"] c1snip 7 [] c1st 9
      c1fsAfter).2.1
      (fun c t hct => Option.noConfusion hct)
      (fun hct => Option.noConfusion hct)
      (fun hct => Option.noConfusion hct)).1
  · have hg : writeGroupFS ["root"] 7 c1grp [] = .ok c1fsAfter := by
      show writeGroupFS ["root"] 7 (Group.mk 0 "g" [c1snip] [] none) [] =
        .ok c1fsAfter
      rw [writeGroupFS_mk]
      rw [show mkdirAll ([] : FS) (["root"] ++ ["g"]) =
        .ok [((["root"] : Path), FsEntry.dirE),
          (["root", "g"], FsEntry.dirE)] from rfl, bind_ok]
      rw [writeGroupsFS_nil, bind_ok]
      rfl
    have h1 : akWrite c1st 7 [] = .ok c1fsAfter := by
      show akWriteList ["root"] 7 [("g", AKRawGroup.mk c1grp true)] [] =
        .ok c1fsAfter
      rw [akWriteList, if_pos rfl, hg, bind_ok]
      rfl
    exact (C1_freshness_idempotence ["d"] c1snip 7 [] c1st 9
      c1fsAfter).2.2 h1

mutual

/-- Tree validity for the round-trip claim, the file-tree analogue of the
data model's name-uniqueness invariant: at every node, sibling snippet
names and sibling group names are unique, no child group's name collides
with a snippet's body or sidecar file name, and no snippet's body file is
hidden (a leading dot would make `load` skip it). -/
def treeOk (g : Group) : Bool :=
  match g with
  | .mk _ _ ss gs _ =>
      (snames ss).Nodup &&
      (gnames gs).Nodup &&
      gs.all (fun x => ss.all (fun s =>
        decide (x.name ≠ s.name ++ "." ++ snippetExt) &&
        decide (x.name ≠ s.name ++ "." ++ metadataExt))) &&
      ss.all (fun s => !(isHidden (s.name ++ "." ++ snippetExt))) &&
      treeOkList gs
termination_by sizeOf g
decreasing_by all_goals (simp_wf; try omega)

/-- `treeOk` for every group of a list. -/
def treeOkList (gs : List Group) : Bool :=
  match gs with
  | [] => true
  | x :: rest => treeOk x && treeOkList rest
termination_by sizeOf gs
decreasing_by all_goals (simp_wf; try omega)

end

mutual

/-- Does a group's subtree contain a snippet with the given abbreviation
and body text? -/
def treeHasSnip (a t : String) (g : Group) : Bool :=
  match g with
  | .mk _ _ ss gs _ =>
      ss.any (fun s => s.abbr = a && s.text = t) || treeHasSnipList a t gs
termination_by sizeOf g
decreasing_by all_goals (simp_wf; try omega)

/-- `treeHasSnip` somewhere in a list of groups. -/
def treeHasSnipList (a t : String) (gs : List Group) : Bool :=
  match gs with
  | [] => false
  | x :: rest => treeHasSnip a t x || treeHasSnipList a t rest
termination_by sizeOf gs
decreasing_by all_goals (simp_wf; try omega)

end

/-- The file entry a snippet list contributes at name `n` of its
directory: the body of the snippet whose body-file name is `n`, or the
sidecar of the snippet whose sidecar name is `n`. -/
def sEntry (ss : List Snippet) (n : String) : Option FsEntry :=
  match ss.find? (fun s => n = s.name ++ "." ++ snippetExt) with
  | some s => some (.fileE (.body s.text) s.modTime)
  | none =>
      match ss.find? (fun s => n = s.name ++ "." ++ metadataExt) with
      | some s => some (.fileE (.metadata (newMetadata s)) s.modTime)
      | none => none

mutual

/-- The exact filesystem contents `writeGroup` produces for a group
under parent directory `d`, as a function of the queried path `q`: the
group's own directory, recursively its children, and its snippet files;
`none` off the subtree. -/
def treeEntry (d : Path) (g : Group) (q : Path) : Option FsEntry :=
  match g with
  | .mk _ nm ss gs _ =>
      if q = d ++ [nm] then some .dirE
      else if (d ++ [nm]) <+: q then
        match treeEntryGroups (d ++ [nm]) gs q with
        | some e => some e
        | none =>
            match q.drop (d ++ [nm]).length with
            | [n] => sEntry ss n
            | _ => none
      else none
termination_by sizeOf g
decreasing_by all_goals (simp_wf; try omega)

/-- First child of the list claiming the queried path. -/
def treeEntryGroups (d : Path) (gs : List Group) (q : Path) :
    Option FsEntry :=
  match gs with
  | [] => none
  | x :: rest =>
      match treeEntry d x q with
      | some e => some e
      | none => treeEntryGroups d rest q
termination_by sizeOf gs
decreasing_by all_goals (simp_wf; try omega)

end

theorem treeOk_mk {r nm ss gs p} :
    treeOk (.mk r nm ss gs p) =
      ((snames ss).Nodup &&
      (gnames gs).Nodup &&
      gs.all (fun x => ss.all (fun s =>
        decide (x.name ≠ s.name ++ "." ++ snippetExt) &&
        decide (x.name ≠ s.name ++ "." ++ metadataExt))) &&
      ss.all (fun s => !(isHidden (s.name ++ "." ++ snippetExt))) &&
      treeOkList gs) := by
  rw [treeOk]

theorem treeOkList_nil : treeOkList [] = true := by
  rw [treeOkList.eq_def]

theorem treeOkList_cons (x : Group) (rest : List Group) :
    treeOkList (x :: rest) = (treeOk x && treeOkList rest) := by
  rw [treeOkList.eq_def]

theorem treeOkList_mem {gs : List Group} {x : Group} (hx : x ∈ gs)
    (h : treeOkList gs = true) : treeOk x = true := by
  induction gs with
  | nil => cases hx
  | cons y rest ih =>
      rw [treeOkList_cons, Bool.and_eq_true] at h
      rcases List.mem_cons.1 hx with rfl | hx'
      · exact h.1
      · exact ih hx' h.2

theorem treeHasSnip_mk {a t r nm ss gs p} :
    treeHasSnip a t (.mk r nm ss gs p) =
      (ss.any (fun s => s.abbr = a && s.text = t) ||
        treeHasSnipList a t gs) := by
  rw [treeHasSnip]

theorem treeHasSnipList_nil (a t : String) :
    treeHasSnipList a t [] = false := by
  rw [treeHasSnipList.eq_def]

theorem treeHasSnipList_cons (a t : String) (x : Group)
    (rest : List Group) :
    treeHasSnipList a t (x :: rest) =
      (treeHasSnip a t x || treeHasSnipList a t rest) := by
  rw [treeHasSnipList.eq_def]

theorem treeEntry_mk (d : Path) (r : Nat) (nm : String)
    (ss : List Snippet) (gs : List Group) (p : Option Nat) (q : Path) :
    treeEntry d (.mk r nm ss gs p) q =
      if q = d ++ [nm] then some .dirE
      else if (d ++ [nm]) <+: q then
        match treeEntryGroups (d ++ [nm]) gs q with
        | some e => some e
        | none =>
            match q.drop (d ++ [nm]).length with
            | [n] => sEntry ss n
            | _ => none
      else none := by
  rw [treeEntry]

theorem treeEntryGroups_nil (d : Path) (q : Path) :
    treeEntryGroups d [] q = none := by
  rw [treeEntryGroups.eq_def]

theorem treeEntryGroups_cons (d : Path) (x : Group) (rest : List Group)
    (q : Path) :
    treeEntryGroups d (x :: rest) q =
      match treeEntry d x q with
      | some e => some e
      | none => treeEntryGroups d rest q := by
  rw [treeEntryGroups.eq_def]

theorem string_append_right_inj {a b : String} (c : String)
    (h : a ++ c = b ++ c) : a = b := by
  have hd : a.data ++ c.data = b.data ++ c.data := by
    rw [← String.data_append, ← String.data_append, h]
  exact congrArg String.mk (List.append_cancel_right hd)

theorem sfile_inj {a b : String}
    (h : a ++ "." ++ snippetExt = b ++ "." ++ snippetExt) : a = b :=
  string_append_right_inj "." (string_append_right_inj snippetExt h)

theorem mfile_inj {a b : String}
    (h : a ++ "." ++ metadataExt = b ++ "." ++ metadataExt) : a = b :=
  string_append_right_inj "." (string_append_right_inj metadataExt h)

theorem snoc_inj {d : Path} {a b : String}
    (h : d ++ [a] = d ++ [b]) : a = b := by
  have h' := List.append_cancel_left h
  injection h'

theorem prefixesOf_snoc (p : Path) (a : String) :
    prefixesOf (p ++ [a]) = prefixesOf p ++ [p ++ [a]] := by
  unfold prefixesOf
  rw [List.length_append, List.length_singleton, List.range_succ,
    List.map_append]
  congr 1
  · refine List.map_congr_left ?_
    intro i hi
    rw [List.mem_range] at hi
    exact List.take_append_of_le_length (by omega)
  · simp

theorem mem_prefixesOf_pre {p q : Path} (h : q ∈ prefixesOf p) :
    q <+: p := by
  unfold prefixesOf at h
  obtain ⟨i, _, rfl⟩ := List.mem_map.1 h
  exact List.take_prefix _ _

theorem mem_prefixesOf_ne_nil {p q : Path} (h : q ∈ prefixesOf p) :
    q ≠ [] := by
  unfold prefixesOf at h
  obtain ⟨i, hi, rfl⟩ := List.mem_map.1 h
  rw [List.mem_range] at hi
  intro he
  have hlen := congrArg List.length he
  rw [List.length_take] at hlen
  simp only [List.length_nil] at hlen
  omega

theorem self_mem_prefixesOf {p : Path} (h : p ≠ []) : p ∈ prefixesOf p := by
  unfold prefixesOf
  refine List.mem_map.2 ⟨p.length - 1, ?_, ?_⟩
  · rw [List.mem_range]
    cases p with
    | nil => exact absurd rfl h
    | cons x xs => simp
  · have hlen : p.length - 1 + 1 = p.length := by
      cases p with
      | nil => exact absurd rfl h
      | cons x xs => simp
    rw [hlen, List.take_length]

/-- Key uniqueness of the association-list filesystem (one entry per
path), an invariant of every state reachable from the empty state. -/
def KeysNodup (fs : FS) : Prop := (fs.map Prod.fst).Nodup

theorem keysNodup_nil : KeysNodup ([] : FS) := List.nodup_nil

theorem mem_keys_setFS {fs : FS} {p q : Path} {e : FsEntry}
    (h : q ∈ (setFS fs p e).map Prod.fst) :
    q ∈ fs.map Prod.fst ∨ q = p := by
  induction fs with
  | nil =>
      rw [setFS] at h
      rw [List.map_cons, List.map_nil, List.mem_singleton] at h
      exact Or.inr h
  | cons pe rest ih =>
      obtain ⟨p0, e0⟩ := pe
      rw [setFS] at h
      by_cases h0 : p0 = p
      · rw [if_pos h0] at h
        rw [List.map_cons, List.mem_cons] at h
        rcases h with rfl | h
        · exact Or.inr rfl
        · exact Or.inl (by rw [List.map_cons]; exact List.mem_cons_of_mem _ h)
      · rw [if_neg h0] at h
        rw [List.map_cons, List.mem_cons] at h
        rcases h with rfl | h
        · exact Or.inl (by rw [List.map_cons]; exact List.mem_cons_self _ _)
        · rcases ih h with h' | h'
          · exact Or.inl
              (by rw [List.map_cons]; exact List.mem_cons_of_mem _ h')
          · exact Or.inr h'

theorem keysNodup_setFS {fs : FS} (p : Path) (e : FsEntry)
    (h : KeysNodup fs) : KeysNodup (setFS fs p e) := by
  induction fs with
  | nil =>
      rw [KeysNodup, setFS]
      simp
  | cons pe rest ih =>
      obtain ⟨p0, e0⟩ := pe
      rw [KeysNodup, List.map_cons, List.nodup_cons] at h
      rw [KeysNodup, setFS]
      by_cases h0 : p0 = p
      · rw [if_pos h0, List.map_cons, List.nodup_cons]
        subst h0
        exact h
      · rw [if_neg h0, List.map_cons, List.nodup_cons]
        refine ⟨?_, ih h.2⟩
        intro hmem
        rcases mem_keys_setFS hmem with h' | h'
        · exact h.1 h'
        · exact h0 h'

theorem lookupFS_mem {fs : FS} {p : Path} {e : FsEntry}
    (h : lookupFS fs p = some e) : (p, e) ∈ fs := by
  induction fs with
  | nil => cases h
  | cons pe rest ih =>
      obtain ⟨p0, e0⟩ := pe
      rw [lookupFS] at h
      by_cases h0 : p0 = p
      · rw [if_pos h0] at h
        injection h with h
        rw [← h, h0]
        exact List.mem_cons_self _ _
      · rw [if_neg h0] at h
        exact List.mem_cons_of_mem _ (ih h)

theorem mem_lookupFS {fs : FS} {p : Path} {e : FsEntry}
    (hnd : KeysNodup fs) (h : (p, e) ∈ fs) : lookupFS fs p = some e := by
  induction fs with
  | nil => cases h
  | cons pe rest ih =>
      obtain ⟨p0, e0⟩ := pe
      rw [KeysNodup, List.map_cons, List.nodup_cons] at hnd
      rw [lookupFS]
      rcases List.mem_cons.1 h with he | h'
      · injection he with he1 he2
        rw [if_pos (by rw [he1])]
        rw [he2]
      · by_cases h0 : p0 = p
        · exfalso
          refine hnd.1 ?_
          rw [h0]
          exact List.mem_map.2 ⟨(p, e), h', rfl⟩
        · rw [if_neg h0]
          exact ih hnd.2 h'

theorem mkdirOne_frame {fs fs' : FS} {d : Path}
    (h : mkdirOne fs d = .ok fs') :
    ∀ q, q ≠ d → lookupFS fs' q = lookupFS fs q := by
  intro q hq
  unfold mkdirOne at h
  cases hl : lookupFS fs d with
  | none =>
      rw [hl] at h
      cases h
      rw [lookupFS_setFS, if_neg (fun he => hq he.symm)]
  | some e0 =>
      cases e0 with
      | dirE => rw [hl] at h; cases h; rfl
      | fileE c t => rw [hl] at h; cases h

theorem mkdirOne_keys {fs fs' : FS} {d : Path}
    (h : mkdirOne fs d = .ok fs') (hnd : KeysNodup fs) : KeysNodup fs' := by
  unfold mkdirOne at h
  cases hl : lookupFS fs d with
  | none => rw [hl] at h; cases h; exact keysNodup_setFS _ _ hnd
  | some e0 =>
      cases e0 with
      | dirE => rw [hl] at h; cases h; exact hnd
      | fileE c t => rw [hl] at h; cases h

theorem mkdirSeq_frame {p : Path} :
    ∀ {is : List Nat} {fs fs' : FS},
      is.foldlM (fun acc i => mkdirOne acc (p.take (i + 1))) fs = .ok fs' →
      ∀ q, (∀ i ∈ is, q ≠ p.take (i + 1)) →
        lookupFS fs' q = lookupFS fs q := by
  intro is
  induction is with
  | nil =>
      intro fs fs' h q _
      rw [List.foldlM_nil] at h
      cases h
      rfl
  | cons i rest ih =>
      intro fs fs' h q hq
      rw [List.foldlM_cons] at h
      cases h1 : mkdirOne fs (p.take (i + 1)) with
      | error e => rw [h1, bind_err] at h; cases h
      | ok fs1 =>
          rw [h1, bind_ok] at h
          rw [ih h q (fun j hj => hq j (List.mem_cons_of_mem _ hj))]
          exact mkdirOne_frame h1 q (hq i (List.mem_cons_self _ _))

theorem mkdirSeq_keys {p : Path} :
    ∀ {is : List Nat} {fs fs' : FS},
      is.foldlM (fun acc i => mkdirOne acc (p.take (i + 1))) fs = .ok fs' →
      KeysNodup fs → KeysNodup fs' := by
  intro is
  induction is with
  | nil =>
      intro fs fs' h hnd
      rw [List.foldlM_nil] at h
      cases h
      exact hnd
  | cons i rest ih =>
      intro fs fs' h hnd
      rw [List.foldlM_cons] at h
      cases h1 : mkdirOne fs (p.take (i + 1)) with
      | error e => rw [h1, bind_err] at h; cases h
      | ok fs1 =>
          rw [h1, bind_ok] at h
          exact ih h (mkdirOne_keys h1 hnd)

theorem mkdirAll_frame {fs fs' : FS} {p : Path}
    (h : mkdirAll fs p = .ok fs') :
    ∀ q, q ∉ prefixesOf p → lookupFS fs' q = lookupFS fs q := by
  intro q hq
  unfold mkdirAll at h
  refine mkdirSeq_frame h q ?_
  intro i hi he
  exact hq (by rw [he]; exact List.mem_map.2 ⟨i, hi, rfl⟩)

theorem mkdirAll_keys {fs fs' : FS} {p : Path}
    (h : mkdirAll fs p = .ok fs') (hnd : KeysNodup fs) : KeysNodup fs' :=
  mkdirSeq_keys h hnd

theorem writeFS_keys {fs fs' : FS} {p : Path} {c : FContent} {now : Int}
    (h : writeFS fs p c now = .ok fs') (hnd : KeysNodup fs) :
    KeysNodup fs' := by
  unfold writeFS at h
  cases hl : lookupFS fs p with
  | none => rw [hl] at h; cases h; exact keysNodup_setFS _ _ hnd
  | some e0 =>
      cases e0 with
      | dirE => rw [hl] at h; cases h
      | fileE c0 t0 => rw [hl] at h; cases h; exact keysNodup_setFS _ _ hnd

theorem chtimesFS_keys {fs fs' : FS} {p : Path} {t : Int}
    (h : chtimesFS fs p t = .ok fs') (hnd : KeysNodup fs) :
    KeysNodup fs' := by
  unfold chtimesFS at h
  cases hl : lookupFS fs p with
  | none => rw [hl] at h; cases h
  | some e0 =>
      cases e0 with
      | dirE => rw [hl] at h; cases h; exact hnd
      | fileE c0 t0 => rw [hl] at h; cases h; exact keysNodup_setFS _ _ hnd

theorem writeMetadata_keys {fs fs' : FS} {p : Path} {md : Metadata}
    {now : Int} (h : writeMetadata fs p md now = .ok fs')
    (hnd : KeysNodup fs) : KeysNodup fs' := by
  unfold writeMetadata at h
  exact writeFS_keys h hnd

theorem writeFS_frame {fs fs' : FS} {p : Path} {c : FContent} {now : Int}
    (h : writeFS fs p c now = .ok fs') :
    ∀ q, q ≠ p → lookupFS fs' q = lookupFS fs q := by
  intro q hq
  unfold writeFS at h
  cases hl : lookupFS fs p with
  | none =>
      rw [hl] at h
      cases h
      rw [lookupFS_setFS, if_neg (fun he => hq he.symm)]
  | some e0 =>
      cases e0 with
      | dirE => rw [hl] at h; cases h
      | fileE c0 t0 =>
          rw [hl] at h
          cases h
          rw [lookupFS_setFS, if_neg (fun he => hq he.symm)]

theorem chtimesFS_frame {fs fs' : FS} {p : Path} {t : Int}
    (h : chtimesFS fs p t = .ok fs') :
    ∀ q, q ≠ p → lookupFS fs' q = lookupFS fs q := by
  intro q hq
  unfold chtimesFS at h
  cases hl : lookupFS fs p with
  | none => rw [hl] at h; cases h
  | some e0 =>
      cases e0 with
      | dirE => rw [hl] at h; cases h; rfl
      | fileE c0 t0 =>
          rw [hl] at h
          cases h
          rw [lookupFS_setFS, if_neg (fun he => hq he.symm)]

theorem writeMetadata_frame {fs fs' : FS} {p : Path} {md : Metadata}
    {now : Int} (h : writeMetadata fs p md now = .ok fs') :
    ∀ q, q ≠ p → lookupFS fs' q = lookupFS fs q := by
  unfold writeMetadata at h
  exact writeFS_frame h

theorem writeSnippetFS_keys {dir : Path} {s : Snippet} {now : Int}
    {fs fs' : FS} (h : writeSnippetFS dir s now fs = .ok fs')
    (hnd : KeysNodup fs) : KeysNodup fs' := by
  simp only [writeSnippetFS, metadataPath_sfile, bind_ok] at h
  split at h
  · cases h; exact hnd
  · cases h1 : writeMetadata fs (dir ++ [s.name ++ "." ++ metadataExt])
        (newMetadata s) now with
    | error e => rw [h1, bind_err] at h; cases h
    | ok fsa =>
        rw [h1, bind_ok] at h
        cases h2 : chtimesFS fsa (dir ++ [s.name ++ "." ++ metadataExt])
            s.modTime with
        | error e => rw [h2, bind_err] at h; cases h
        | ok fsb =>
            rw [h2, bind_ok] at h
            cases h3 : writeFS fsb (dir ++ [s.name ++ "." ++ snippetExt])
                (.body s.text) now with
            | error e => rw [h3, bind_err] at h; cases h
            | ok fsc =>
                rw [h3, bind_ok] at h
                exact chtimesFS_keys h (writeFS_keys h3
                  (chtimesFS_keys h2 (writeMetadata_keys h1 hnd)))

theorem writeSnippetFS_frame {dir : Path} {s : Snippet} {now : Int}
    {fs fs' : FS} (h : writeSnippetFS dir s now fs = .ok fs') :
    ∀ q, q ≠ dir ++ [s.name ++ "." ++ metadataExt] →
      q ≠ dir ++ [s.name ++ "." ++ snippetExt] →
      lookupFS fs' q = lookupFS fs q := by
  intro q hqm hqs
  simp only [writeSnippetFS, metadataPath_sfile, bind_ok] at h
  split at h
  · cases h; rfl
  · cases h1 : writeMetadata fs (dir ++ [s.name ++ "." ++ metadataExt])
        (newMetadata s) now with
    | error e => rw [h1, bind_err] at h; cases h
    | ok fsa =>
        rw [h1, bind_ok] at h
        cases h2 : chtimesFS fsa (dir ++ [s.name ++ "." ++ metadataExt])
            s.modTime with
        | error e => rw [h2, bind_err] at h; cases h
        | ok fsb =>
            rw [h2, bind_ok] at h
            cases h3 : writeFS fsb (dir ++ [s.name ++ "." ++ snippetExt])
                (.body s.text) now with
            | error e => rw [h3, bind_err] at h; cases h
            | ok fsc =>
                rw [h3, bind_ok] at h
                rw [chtimesFS_frame h q hqs, writeFS_frame h3 q hqs,
                  chtimesFS_frame h2 q hqm, writeMetadata_frame h1 q hqm]

theorem writeSnippetsFS_keys {dir : Path} {now : Int} :
    ∀ {l : List Snippet} {fs fs' : FS},
      writeSnippetsFS dir now l fs = .ok fs' → KeysNodup fs →
      KeysNodup fs' := by
  intro l
  induction l with
  | nil =>
      intro fs fs' h hnd
      rw [writeSnippetsFS] at h
      cases h
      exact hnd
  | cons s rest ih =>
      intro fs fs' h hnd
      rw [writeSnippetsFS] at h
      cases h1 : writeSnippetFS dir s now fs with
      | error e => rw [h1, bind_err] at h; cases h
      | ok fs1 =>
          rw [h1, bind_ok] at h
          exact ih h (writeSnippetFS_keys h1 hnd)

theorem writeGroupFS_keys (g : Group) (base : Path) (now : Int)
    (fs fs' : FS) (h : writeGroupFS base now g fs = .ok fs')
    (hnd : KeysNodup fs) : KeysNodup fs' := by
  rw [writeGroupFS_def] at h
  cases h1 : mkdirAll fs (base ++ [g.name]) with
  | error e => rw [h1, bind_err] at h; cases h
  | ok fs1 =>
      rw [h1, bind_ok] at h
      cases h2 : writeGroupsFS (base ++ [g.name]) now g.groups fs1 with
      | error e => rw [h2, bind_err] at h; cases h
      | ok fs2 =>
          rw [h2, bind_ok] at h
          have key : ∀ l : List Group, (∀ x ∈ l, sizeOf x < sizeOf g) →
              ∀ fsa fsb : FS,
                writeGroupsFS (base ++ [g.name]) now l fsa = .ok fsb →
                KeysNodup fsa → KeysNodup fsb := by
            intro l
            induction l with
            | nil =>
                intro _ fsa fsb hw hnda
                rw [writeGroupsFS_nil] at hw
                cases hw
                exact hnda
            | cons x rest ih =>
                intro hlt fsa fsb hw hnda
                rw [writeGroupsFS_cons] at hw
                cases hx1 : writeGroupFS (base ++ [g.name]) now x fsa with
                | error e => rw [hx1, bind_err] at hw; cases hw
                | ok fsm =>
                    rw [hx1, bind_ok] at hw
                    exact ih
                      (fun y hy => hlt y (List.mem_cons_of_mem _ hy)) fsm
                      fsb hw
                      (writeGroupFS_keys x (base ++ [g.name]) now fsa fsm
                        hx1 hnda)
          exact writeSnippetsFS_keys h
            (key g.groups
              (fun x hx => Nat.lt_trans (List.sizeOf_lt_of_mem hx)
                (Group.sizeOf_groups_lt g)) fs1 fs2 h2
              (mkdirAll_keys h1 hnd))
termination_by sizeOf g
decreasing_by
  simp_wf
  exact hlt x (List.mem_cons_self _ _)

theorem spath_inj {d : Path} {a b : String}
    (h : d ++ [a ++ "." ++ snippetExt] = d ++ [b ++ "." ++ snippetExt]) :
    a = b := sfile_inj (snoc_inj h)

theorem mpath_inj {d : Path} {a b : String}
    (h : d ++ [a ++ "." ++ metadataExt] = d ++ [b ++ "." ++ metadataExt]) :
    a = b := mfile_inj (snoc_inj h)

/-- The exact effect of the `writeGroup` snippet loop when no target file
pre-exists: every snippet's body and sidecar appear with exactly the
written contents and the snippet's time, and nothing else changes. -/
theorem writeSnippetsFS_spec {dir : Path} {now : Int} :
    ∀ {l : List Snippet} {fs fs' : FS},
      (snames l).Nodup →
      (∀ s ∈ l,
        lookupFS fs (dir ++ [s.name ++ "." ++ metadataExt]) = none ∧
        lookupFS fs (dir ++ [s.name ++ "." ++ snippetExt]) = none) →
      writeSnippetsFS dir now l fs = .ok fs' →
      (∀ s ∈ l,
        lookupFS fs' (dir ++ [s.name ++ "." ++ snippetExt]) =
          some (.fileE (.body s.text) s.modTime) ∧
        lookupFS fs' (dir ++ [s.name ++ "." ++ metadataExt]) =
          some (.fileE (.metadata (newMetadata s)) s.modTime)) ∧
      (∀ q, (∀ s ∈ l, q ≠ dir ++ [s.name ++ "." ++ metadataExt] ∧
          q ≠ dir ++ [s.name ++ "." ++ snippetExt]) →
        lookupFS fs' q = lookupFS fs q) := by
  intro l
  induction l with
  | nil =>
      intro fs fs' _ _ h
      rw [writeSnippetsFS] at h
      cases h
      exact ⟨fun s hs => absurd hs (List.not_mem_nil s), fun q _ => rfl⟩
  | cons s rest ih =>
      intro fs fs' hnodup hnone h
      rw [writeSnippetsFS] at h
      rw [snames_cons, List.nodup_cons] at hnodup
      obtain ⟨hs1, hs2⟩ := hnone s (List.mem_cons_self _ _)
      have hw := @writeSnippetFS_write dir s fs
        (fun c t hct => by rw [hs1] at hct; cases hct)
        (by rw [hs1]; intro hct; cases hct)
        (by rw [hs2]; intro hct; cases hct) now
      rw [hw, bind_ok] at h
      set F := setFS (setFS fs (dir ++ [s.name ++ "." ++ metadataExt])
          (.fileE (.metadata (newMetadata s)) s.modTime))
        (dir ++ [s.name ++ "." ++ snippetExt])
        (.fileE (.body s.text) s.modTime) with hF
      have hFs : lookupFS F (dir ++ [s.name ++ "." ++ snippetExt]) =
          some (.fileE (.body s.text) s.modTime) := by
        rw [hF, lookupFS_setFS, if_pos rfl]
      have hFm : lookupFS F (dir ++ [s.name ++ "." ++ metadataExt]) =
          some (.fileE (.metadata (newMetadata s)) s.modTime) := by
        rw [hF, lookupFS_setFS,
          if_neg (fun he => mpath_ne_spath dir s.name dir s.name he.symm),
          lookupFS_setFS, if_pos rfl]
      have hFother : ∀ q, q ≠ dir ++ [s.name ++ "." ++ metadataExt] →
          q ≠ dir ++ [s.name ++ "." ++ snippetExt] →
          lookupFS F q = lookupFS fs q := by
        intro q hqm hqs
        rw [hF, lookupFS_setFS, if_neg (fun he => hqs he.symm),
          lookupFS_setFS, if_neg (fun he => hqm he.symm)]
      have hrestne : ∀ x ∈ rest,
          dir ++ [x.name ++ "." ++ metadataExt] ≠
            dir ++ [s.name ++ "." ++ metadataExt] ∧
          dir ++ [x.name ++ "." ++ metadataExt] ≠
            dir ++ [s.name ++ "." ++ snippetExt] ∧
          dir ++ [x.name ++ "." ++ snippetExt] ≠
            dir ++ [s.name ++ "." ++ metadataExt] ∧
          dir ++ [x.name ++ "." ++ snippetExt] ≠
            dir ++ [s.name ++ "." ++ snippetExt] := by
        intro x hx
        have hxs : x.name ≠ s.name := by
          intro he
          exact hnodup.1 (by rw [← he]; exact List.mem_map_of_mem _ hx)
        exact ⟨fun he => hxs (mpath_inj he),
          fun he => mpath_ne_spath dir x.name dir s.name he,
          fun he => mpath_ne_spath dir s.name dir x.name he.symm,
          fun he => hxs (spath_inj he)⟩
      have hnone' : ∀ x ∈ rest,
          lookupFS F (dir ++ [x.name ++ "." ++ metadataExt]) = none ∧
          lookupFS F (dir ++ [x.name ++ "." ++ snippetExt]) = none := by
        intro x hx
        obtain ⟨h1, h2, h3, h4⟩ := hrestne x hx
        obtain ⟨hxm, hxs⟩ := hnone x (List.mem_cons_of_mem _ hx)
        exact ⟨by rw [hFother _ h1 h2]; exact hxm,
          by rw [hFother _ h3 h4]; exact hxs⟩
      obtain ⟨ihval, ihframe⟩ := ih hnodup.2 hnone' h
      constructor
      · intro x hx
        rcases List.mem_cons.1 hx with rfl | hx'
        · have hfr : ∀ y ∈ rest,
              dir ++ [x.name ++ "." ++ snippetExt] ≠
                dir ++ [y.name ++ "." ++ metadataExt] ∧
              dir ++ [x.name ++ "." ++ snippetExt] ≠
                dir ++ [y.name ++ "." ++ snippetExt] := by
            intro y hy
            obtain ⟨_, h2, _, h4⟩ := hrestne y hy
            exact ⟨fun he => h2 he.symm, fun he => h4 he.symm⟩
          have hfr' : ∀ y ∈ rest,
              dir ++ [x.name ++ "." ++ metadataExt] ≠
                dir ++ [y.name ++ "." ++ metadataExt] ∧
              dir ++ [x.name ++ "." ++ metadataExt] ≠
                dir ++ [y.name ++ "." ++ snippetExt] := by
            intro y hy
            obtain ⟨h1, _, _, _⟩ := hrestne y hy
            exact ⟨fun he => h1 he.symm,
              fun he => mpath_ne_spath dir x.name dir y.name he⟩
          exact ⟨by rw [ihframe _ hfr]; exact hFs,
            by rw [ihframe _ hfr']; exact hFm⟩
        · exact ihval x hx'
      · intro q hq
        have hqrest : ∀ x ∈ rest,
            q ≠ dir ++ [x.name ++ "." ++ metadataExt] ∧
            q ≠ dir ++ [x.name ++ "." ++ snippetExt] :=
          fun x hx => hq x (List.mem_cons_of_mem _ hx)
        obtain ⟨hqm, hqs⟩ := hq s (List.mem_cons_self _ _)
        rw [ihframe q hqrest, hFother q hqm hqs]

theorem prefix_snoc_cons {d : Path} {a b : String} {rest : Path}
    (h : (d ++ [a]) <+: (d ++ b :: rest)) : a = b := by
  obtain ⟨u, hu⟩ := h
  rw [List.append_assoc] at hu
  have h' := List.append_cancel_left hu
  injection h'

theorem treeEntry_outside {d : Path} {g : Group} {q : Path}
    (h : ¬ (d ++ [g.name]) <+: q) : treeEntry d g q = none := by
  cases g with
  | mk r nm ss gs p =>
      rw [Group.name_mk] at h
      rw [treeEntry_mk,
        if_neg (fun he : q = d ++ [nm] => h (by rw [he])),
        if_neg h]

theorem treeEntry_self (d : Path) (g : Group) :
    treeEntry d g (d ++ [g.name]) = some .dirE := by
  cases g with
  | mk r nm ss gs p =>
      simp only [Group.name_mk]
      rw [treeEntry_mk, if_pos rfl]

theorem treeEntryGroups_none {d : Path} {n : String} {t : Path} :
    ∀ {gs : List Group}, (∀ x ∈ gs, x.name ≠ n) →
      treeEntryGroups d gs (d ++ n :: t) = none := by
  intro gs
  induction gs with
  | nil => intro _; rw [treeEntryGroups_nil]
  | cons y rest ih =>
      intro hall
      rw [treeEntryGroups_cons]
      rw [treeEntry_outside (fun hp =>
        hall y (List.mem_cons_self _ _) (prefix_snoc_cons hp))]
      exact ih (fun x hx => hall x (List.mem_cons_of_mem _ hx))

theorem treeEntryGroups_eq_child {d : Path} {x : Group} {t : Path} :
    ∀ {gs : List Group}, (gnames gs).Nodup → x ∈ gs →
      treeEntryGroups d gs (d ++ [x.name] ++ t) =
        treeEntry d x (d ++ [x.name] ++ t) := by
  intro gs
  induction gs with
  | nil => intro _ hx; cases hx
  | cons y rest ih =>
      intro hnd hx
      rw [gnames_cons, List.nodup_cons] at hnd
      rw [treeEntryGroups_cons]
      rcases List.mem_cons.1 hx with rfl | hx'
      · cases hte : treeEntry d x (d ++ [x.name] ++ t) with
        | some e => rfl
        | none =>
            have hq : d ++ [x.name] ++ t = d ++ x.name :: t := by
              rw [List.append_assoc]
              rfl
            rw [hq]
            refine treeEntryGroups_none ?_
            intro z hz he
            exact hnd.1 (by rw [← he]; exact List.mem_map_of_mem _ hz)
      · have hyx : y.name ≠ x.name := by
          intro he
          exact hnd.1 (by rw [he]; exact List.mem_map_of_mem _ hx')
        have hq : d ++ [x.name] ++ t = d ++ x.name :: t := by
          rw [List.append_assoc]
          rfl
        rw [treeEntry_outside (fun hp => hyx (by
          rw [hq] at hp
          exact prefix_snoc_cons hp))]
        exact ih hnd.2 hx'

theorem under_ne_prefixesOf {d q : Path} (hlen : d.length < q.length) :
    q ∉ prefixesOf d := by
  intro hq
  have := (mem_prefixesOf_pre hq).length_le
  omega

theorem snoc_prefix_snoc {d : Path} {a b : String}
    (h : (d ++ [a]) <+: (d ++ [b])) : a = b := prefix_snoc_cons h

theorem treeOk_parts {g : Group} (h : treeOk g = true) :
    (snames g.snippets).Nodup ∧ (gnames g.groups).Nodup ∧
    (∀ x ∈ g.groups, ∀ s ∈ g.snippets,
      x.name ≠ s.name ++ "." ++ snippetExt ∧
      x.name ≠ s.name ++ "." ++ metadataExt) ∧
    (∀ s ∈ g.snippets,
      isHidden (s.name ++ "." ++ snippetExt) = false) ∧
    treeOkList g.groups = true := by
  cases g with
  | mk r nm ss gs p =>
      rw [treeOk_mk] at h
      simp only [Bool.and_eq_true, List.all_eq_true, decide_eq_true_eq,
        Bool.not_eq_true'] at h
      simp only [Group.snippets_mk, Group.groups_mk]
      obtain ⟨⟨⟨⟨h1, h2⟩, h3⟩, h4⟩, h5⟩ := h
      exact ⟨h1, h2, h3, h4, h5⟩

theorem treeEntry_def (d : Path) (g : Group) (q : Path) :
    treeEntry d g q =
      if q = d ++ [g.name] then some .dirE
      else if (d ++ [g.name]) <+: q then
        match treeEntryGroups (d ++ [g.name]) g.groups q with
        | some e => some e
        | none =>
            match q.drop (d ++ [g.name]).length with
            | [n] => sEntry g.snippets n
            | _ => none
      else none := by
  cases g with
  | mk r nm ss gs p => rw [treeEntry_mk]; rfl

theorem path_ne_of_length {a b : Path} (h : a.length ≠ b.length) :
    a ≠ b := fun he => h (congrArg List.length he)

theorem snoc_ne_nil (p : Path) (a : String) : p ++ [a] ≠ [] := by simp

theorem append_cons_ne_self (d : Path) (n : String) (t : Path) :
    d ++ n :: t ≠ d := by
  intro he
  have hlen := congrArg List.length he
  simp at hlen

/-- The exact pointwise effect of `writeGroup` on a filesystem with
nothing under the group's directory: outside the subtree and off the
created directory chain nothing changes, the full directory chain exists
afterwards, and inside the subtree the contents are exactly
`treeEntry`. -/
theorem writeGroupFS_spec (g : Group) (base : Path) (now : Int)
    (fs₀ fs' : FS) (hok : treeOk g = true)
    (hempty : ∀ q, (base ++ [g.name]) <+: q → lookupFS fs₀ q = none)
    (h : writeGroupFS base now g fs₀ = .ok fs') :
    (∀ q, ¬ (base ++ [g.name]) <+: q →
        q ∉ prefixesOf (base ++ [g.name]) →
        lookupFS fs' q = lookupFS fs₀ q) ∧
    (∀ q ∈ prefixesOf (base ++ [g.name]), lookupFS fs' q = some .dirE) ∧
    (∀ q, (base ++ [g.name]) <+: q →
      lookupFS fs' q = treeEntry base g q) := by
  obtain ⟨hndS, hndG, hcol, hhid, hokL⟩ := treeOk_parts hok
  rw [writeGroupFS_def] at h
  cases h1 : mkdirAll fs₀ (base ++ [g.name]) with
  | error e => rw [h1, bind_err] at h; cases h
  | ok fs1 =>
  rw [h1, bind_ok] at h
  cases h2 : writeGroupsFS (base ++ [g.name]) now g.groups fs1 with
  | error e => rw [h2, bind_err] at h; cases h
  | ok fs2 =>
  rw [h2, bind_ok] at h
  obtain ⟨hpres1, hdirs1⟩ := mkdirAll_pres h1
  have hfs1_under : ∀ q, (base ++ [g.name]) <+: q →
      q ≠ base ++ [g.name] → lookupFS fs1 q = none := by
    intro q hq hne
    obtain ⟨t, rfl⟩ := hq
    cases t with
    | nil => exact absurd (by rw [List.append_nil]) hne
    | cons c t' =>
        rw [mkdirAll_frame h1 _ (under_ne_prefixesOf (by simp))]
        exact hempty _ ⟨c :: t', rfl⟩
  have key : ∀ l : List Group, (∀ x ∈ l, sizeOf x < sizeOf g) →
      treeOkList l = true → (gnames l).Nodup →
      ∀ fsa fsb : FS,
        writeGroupsFS (base ++ [g.name]) now l fsa = .ok fsb →
        (∀ x ∈ l, ∀ q, (base ++ [g.name] ++ [x.name]) <+: q →
          lookupFS fsa q = none) →
        (∀ q ∈ prefixesOf (base ++ [g.name]),
          lookupFS fsa q = some .dirE) →
        (∀ q, (∀ x ∈ l, ¬ (base ++ [g.name] ++ [x.name]) <+: q) →
            q ∉ prefixesOf (base ++ [g.name]) →
            lookupFS fsb q = lookupFS fsa q) ∧
        (∀ q ∈ prefixesOf (base ++ [g.name]),
          lookupFS fsb q = some .dirE) ∧
        (∀ x ∈ l, ∀ q, (base ++ [g.name] ++ [x.name]) <+: q →
          lookupFS fsb q = treeEntry (base ++ [g.name]) x q) := by
    intro l
    induction l with
    | nil =>
        intro _ _ _ fsa fsb hw _ hdirs
        rw [writeGroupsFS_nil] at hw
        cases hw
        exact ⟨fun q _ _ => rfl, hdirs,
          fun x hx => absurd hx (List.not_mem_nil x)⟩
    | cons x rest ih =>
        intro hlt hokl hnd fsa fsb hw hclean hdirs
        rw [treeOkList_cons, Bool.and_eq_true] at hokl
        rw [gnames_cons, List.nodup_cons] at hnd
        rw [writeGroupsFS_cons] at hw
        cases hx1 : writeGroupFS (base ++ [g.name]) now x fsa with
        | error e => rw [hx1, bind_err] at hw; cases hw
        | ok fsm =>
        rw [hx1, bind_ok] at hw
        obtain ⟨Fx, Px, Sx⟩ := writeGroupFS_spec x (base ++ [g.name]) now
          fsa fsm hokl.1 (hclean x (List.mem_cons_self _ _)) hx1
        have hpx : prefixesOf (base ++ [g.name] ++ [x.name]) =
            prefixesOf (base ++ [g.name]) ++
              [base ++ [g.name] ++ [x.name]] := prefixesOf_snoc _ _
        have hdirs_m : ∀ q ∈ prefixesOf (base ++ [g.name]),
            lookupFS fsm q = some .dirE := by
          intro q hq
          exact Px q (by rw [hpx]; exact List.mem_append_left _ hq)
        have hclean_m : ∀ y ∈ rest, ∀ q,
            (base ++ [g.name] ++ [y.name]) <+: q →
            lookupFS fsm q = none := by
          intro y hy q hq
          obtain ⟨t, rfl⟩ := hq
          have hyx : y.name ≠ x.name := by
            intro he
            exact hnd.1 (by rw [← he]; exact List.mem_map_of_mem _ hy)
          have hform : base ++ [g.name] ++ [y.name] ++ t =
              (base ++ [g.name]) ++ (y.name :: t) := by
            rw [List.append_assoc (base ++ [g.name])]
            rfl
          rw [Fx _ ?_ ?_]
          · exact hclean y (List.mem_cons_of_mem _ hy) _
              (List.prefix_append _ _)
          · intro hp
            rw [hform] at hp
            exact hyx ((prefix_snoc_cons hp).symm)
          · rw [hpx]
            intro hmem
            rcases List.mem_append.1 hmem with hin | hin
            · exact under_ne_prefixesOf (by rw [hform]; simp) hin
            · rw [List.mem_singleton, hform] at hin
              have := List.append_cancel_left hin
              injection this with h1' h2'
              exact hyx h1'
        obtain ⟨K1, K2, K3⟩ := ih
          (fun y hy => hlt y (List.mem_cons_of_mem _ hy)) hokl.2 hnd.2
          fsm fsb hw hclean_m hdirs_m
        refine ⟨?_, K2, ?_⟩
        · intro q hq hqpre
          rw [K1 q (fun y hy => hq y (List.mem_cons_of_mem _ hy)) hqpre]
          refine Fx q (hq x (List.mem_cons_self _ _)) ?_
          rw [hpx]
          intro hmem
          rcases List.mem_append.1 hmem with hin | hin
          · exact hqpre hin
          · rw [List.mem_singleton] at hin
            exact hq x (List.mem_cons_self _ _) (by rw [hin])
        · intro y hy q hq
          rcases List.mem_cons.1 hy with rfl | hy'
          · obtain ⟨t, rfl⟩ := hq
            have hform : base ++ [g.name] ++ [y.name] ++ t =
                (base ++ [g.name]) ++ (y.name :: t) := by
              rw [List.append_assoc (base ++ [g.name])]
              rfl
            rw [K1 _ ?_ ?_]
            · exact Sx _ (List.prefix_append _ _)
            · intro z hz hp
              rw [hform] at hp
              have hzy : z.name = y.name := prefix_snoc_cons hp
              exact hnd.1 (by rw [← hzy]; exact List.mem_map_of_mem _ hz)
            · exact under_ne_prefixesOf (by rw [hform]; simp)
          · exact K3 y hy' q hq
  obtain ⟨K1, K2, K3⟩ := key g.groups
    (fun x hx => Nat.lt_trans (List.sizeOf_lt_of_mem hx)
      (Group.sizeOf_groups_lt g)) hokL hndG fs1 fs2 h2
    (fun x hx q hq =>
      hfs1_under q
        ((List.prefix_append (base ++ [g.name]) [x.name]).trans hq)
        (by
          obtain ⟨t, rfl⟩ := hq
          refine path_ne_of_length ?_
          rw [List.append_assoc (base ++ [g.name])]
          simp))
    hdirs1
  have hsnone : ∀ s ∈ g.snippets,
      lookupFS fs2 ((base ++ [g.name]) ++
        [s.name ++ "." ++ metadataExt]) = none ∧
      lookupFS fs2 ((base ++ [g.name]) ++
        [s.name ++ "." ++ snippetExt]) = none := by
    intro s hs
    have hgen : ∀ seg : String, (∀ x ∈ g.groups, x.name ≠ seg) →
        lookupFS fs2 ((base ++ [g.name]) ++ [seg]) = none := by
      intro seg hseg
      rw [K1 _ ?_ ?_]
      · exact hfs1_under _ (List.prefix_append _ _)
          (path_ne_of_length (by simp))
      · intro x hx hp
        exact hseg x hx (prefix_snoc_cons hp)
      · exact under_ne_prefixesOf (by simp)
    exact ⟨hgen _ (fun x hx => (hcol x hx s hs).2),
      hgen _ (fun x hx => (hcol x hx s hs).1)⟩
  obtain ⟨V, FR⟩ := writeSnippetsFS_spec hndS hsnone h
  have hsp_ne : ∀ q, ¬ (base ++ [g.name]) <+: q →
      ∀ s ∈ g.snippets,
        q ≠ (base ++ [g.name]) ++ [s.name ++ "." ++ metadataExt] ∧
        q ≠ (base ++ [g.name]) ++ [s.name ++ "." ++ snippetExt] := by
    intro q hq s _
    exact ⟨fun he => hq (by rw [he]; exact List.prefix_append _ _),
      fun he => hq (by rw [he]; exact List.prefix_append _ _)⟩
  refine ⟨?_, ?_, ?_⟩
  · intro q hq hqpre
    rw [FR q (hsp_ne q hq)]
    rw [K1 q (fun x hx hp =>
      hq ((List.prefix_append (base ++ [g.name]) [x.name]).trans hp))
      hqpre]
    exact mkdirAll_frame h1 q hqpre
  · intro q hqmem
    have hlen := (mem_prefixesOf_pre hqmem).length_le
    rw [List.length_append, List.length_singleton] at hlen
    rw [FR q (fun s _ =>
      ⟨path_ne_of_length (by
          simp only [List.length_append, List.length_singleton]
          omega),
        path_ne_of_length (by
          simp only [List.length_append, List.length_singleton]
          omega)⟩)]
    exact K2 q hqmem
  · intro q hq
    rw [treeEntry_def]
    by_cases hqd : q = base ++ [g.name]
    · rw [if_pos hqd]
      subst hqd
      rw [FR _ (fun s _ =>
        ⟨path_ne_of_length (by simp), path_ne_of_length (by simp)⟩)]
      exact K2 _ (self_mem_prefixesOf (snoc_ne_nil _ _))
    · rw [if_neg hqd, if_pos hq]
      obtain ⟨t0, rfl⟩ := hq
      cases t0 with
      | nil => exact absurd (by rw [List.append_nil]) hqd
      | cons n t =>
      have hdrop : ((base ++ [g.name]) ++ n :: t).drop
          (base ++ [g.name]).length = n :: t := List.drop_left _ _
      by_cases hA : ∃ x ∈ g.groups, x.name = n
      · obtain ⟨x, hxg, rfl⟩ := hA
        have hform : (base ++ [g.name]) ++ x.name :: t =
            (base ++ [g.name]) ++ [x.name] ++ t := by
          rw [List.append_assoc (base ++ [g.name])]
          rfl
        have hfr : ∀ s ∈ g.snippets,
            (base ++ [g.name]) ++ x.name :: t ≠
              (base ++ [g.name]) ++ [s.name ++ "." ++ metadataExt] ∧
            (base ++ [g.name]) ++ x.name :: t ≠
              (base ++ [g.name]) ++ [s.name ++ "." ++ snippetExt] := by
          intro s hs
          constructor
          · intro he
            have h' := List.append_cancel_left he
            injection h' with h1' h2'
            exact (hcol x hxg s hs).2 h1'
          · intro he
            have h' := List.append_cancel_left he
            injection h' with h1' h2'
            exact (hcol x hxg s hs).1 h1'
        rw [FR _ hfr]
        rw [hform, treeEntryGroups_eq_child hndG hxg]
        rw [K3 x hxg _ (List.prefix_append _ _)]
        cases hte : treeEntry (base ++ [g.name]) x
            ((base ++ [g.name]) ++ [x.name] ++ t) with
        | some e => rfl
        | none =>
            cases t with
            | nil =>
                rw [List.append_nil] at hte
                rw [treeEntry_self] at hte
                cases hte
            | cons c t'' =>
                rw [← hform, hdrop]
        -- match (x.name :: c :: t'') reduces to none
      · have hnone_g : ∀ x ∈ g.groups, x.name ≠ n :=
          fun x hx he => hA ⟨x, hx, he⟩
        rw [treeEntryGroups_none hnone_g, hdrop]
        cases t with
        | cons c t'' =>
            have hfr : ∀ s ∈ g.snippets,
                (base ++ [g.name]) ++ n :: c :: t'' ≠
                  (base ++ [g.name]) ++ [s.name ++ "." ++ metadataExt] ∧
                (base ++ [g.name]) ++ n :: c :: t'' ≠
                  (base ++ [g.name]) ++ [s.name ++ "." ++ snippetExt] := by
              intro s _
              constructor
              · intro he
                have h' := List.append_cancel_left he
                injection h' with h1' h2'
                exact (List.cons_ne_nil c t'') h2'
              · intro he
                have h' := List.append_cancel_left he
                injection h' with h1' h2'
                exact (List.cons_ne_nil c t'') h2'
            rw [FR _ hfr]
            rw [K1 _ (fun x hx hp => hnone_g x hx (prefix_snoc_cons hp))
              (under_ne_prefixesOf (by simp))]
            exact hfs1_under _ (List.prefix_append _ _)
              (append_cons_ne_self _ _ _)
        | nil =>
            show lookupFS fs' ((base ++ [g.name]) ++ [n]) =
              sEntry g.snippets n
            unfold sEntry
            cases hfb : g.snippets.find?
                (fun s => n = s.name ++ "." ++ snippetExt) with
            | some s0 =>
                have hmem := List.mem_of_find?_eq_some hfb
                have hpred := List.find?_some hfb
                rw [decide_eq_true_eq] at hpred
                rw [hpred]
                exact (V s0 hmem).1
            | none =>
                cases hfm : g.snippets.find?
                    (fun s => n = s.name ++ "." ++ metadataExt) with
                | some s0 =>
                    have hmem := List.mem_of_find?_eq_some hfm
                    have hpred := List.find?_some hfm
                    rw [decide_eq_true_eq] at hpred
                    rw [hpred]
                    exact (V s0 hmem).2
                | none =>
                    rw [List.find?_eq_none] at hfb hfm
                    have hfr : ∀ s ∈ g.snippets,
                        (base ++ [g.name]) ++ [n] ≠
                          (base ++ [g.name]) ++
                            [s.name ++ "." ++ metadataExt] ∧
                        (base ++ [g.name]) ++ [n] ≠
                          (base ++ [g.name]) ++
                            [s.name ++ "." ++ snippetExt] := by
                      intro s hs
                      constructor
                      · intro he
                        refine hfm s hs ?_
                        rw [decide_eq_true_eq]
                        exact snoc_inj he
                      · intro he
                        refine hfb s hs ?_
                        rw [decide_eq_true_eq]
                        exact snoc_inj he
                    rw [FR _ hfr]
                    rw [K1 _ (fun x hx hp =>
                      hnone_g x hx (prefix_snoc_cons hp))
                      (under_ne_prefixesOf (by simp))]
                    exact hfs1_under _ (List.prefix_append _ _)
                      (append_cons_ne_self _ _ _)
termination_by sizeOf g
decreasing_by
  simp_wf
  exact hlt x (List.mem_cons_self _ _)

theorem eq_of_snames_nodup {ss : List Snippet}
    (hnd : (snames ss).Nodup) {x y : Snippet} (hx : x ∈ ss) (hy : y ∈ ss)
    (he : x.name = y.name) : x = y := by
  induction ss with
  | nil => cases hx
  | cons z rest ih =>
      rw [snames_cons, List.nodup_cons] at hnd
      rcases List.mem_cons.1 hx with rfl | hx' <;>
        rcases List.mem_cons.1 hy with rfl | hy'
      · rfl
      · exact absurd (by rw [he]; exact List.mem_map_of_mem _ hy') hnd.1
      · exact absurd (by rw [← he]; exact List.mem_map_of_mem _ hx') hnd.1
      · exact ih hnd.2 hx' hy'

theorem eq_of_gnames_nodup {gs : List Group}
    (hnd : (gnames gs).Nodup) {x y : Group} (hx : x ∈ gs) (hy : y ∈ gs)
    (he : x.name = y.name) : x = y := by
  induction gs with
  | nil => cases hx
  | cons z rest ih =>
      rw [gnames_cons, List.nodup_cons] at hnd
      rcases List.mem_cons.1 hx with rfl | hx' <;>
        rcases List.mem_cons.1 hy with rfl | hy'
      · rfl
      · exact absurd (by rw [he]; exact List.mem_map_of_mem _ hy') hnd.1
      · exact absurd (by rw [← he]; exact List.mem_map_of_mem _ hx') hnd.1
      · exact ih hnd.2 hx' hy'

theorem find?_by_name {ss : List Snippet} (hnd : (snames ss).Nodup)
    {s : Snippet} (hs : s ∈ ss) (p : Snippet → Bool)
    (hspec : ∀ y, p y = true ↔ y.name = s.name) : ss.find? p = some s := by
  induction ss with
  | nil => cases hs
  | cons y rest ih =>
      rw [snames_cons, List.nodup_cons] at hnd
      by_cases hpy : p y = true
      · rw [List.find?_cons_of_pos _ hpy]
        have hyn := (hspec y).1 hpy
        rcases List.mem_cons.1 hs with rfl | hs'
        · rfl
        · exact absurd (by rw [hyn]; exact List.mem_map_of_mem _ hs')
            hnd.1
      · rw [List.find?_cons_of_neg _ hpy]
        rcases List.mem_cons.1 hs with rfl | hs'
        · exact absurd ((hspec s).2 rfl) hpy
        · exact ih hnd.2 hs'

theorem sEntry_sfile {ss : List Snippet} (hnd : (snames ss).Nodup)
    {s : Snippet} (hs : s ∈ ss) :
    sEntry ss (s.name ++ "." ++ snippetExt) =
      some (.fileE (.body s.text) s.modTime) := by
  unfold sEntry
  rw [find?_by_name hnd hs _ (fun y => by
    rw [decide_eq_true_eq]
    constructor
    · intro he
      exact (sfile_inj he).symm
    · intro he
      rw [he])]

theorem sEntry_mfile {ss : List Snippet} (hnd : (snames ss).Nodup)
    {s : Snippet} (hs : s ∈ ss) :
    sEntry ss (s.name ++ "." ++ metadataExt) =
      some (.fileE (.metadata (newMetadata s)) s.modTime) := by
  unfold sEntry
  rw [show ss.find?
      (fun y => s.name ++ "." ++ metadataExt =
        y.name ++ "." ++ snippetExt) = none from ?_]
  · rw [find?_by_name hnd hs _ (fun y => by
      rw [decide_eq_true_eq]
      constructor
      · intro he
        exact (mfile_inj he).symm
      · intro he
        rw [he])]
  · rw [List.find?_eq_none]
    intro y _
    rw [decide_eq_true_eq]
    exact fun he => sfile_ne_mfile y.name s.name he.symm

theorem treeEntry_depth1 (d : Path) (g : Group) (n : String) :
    treeEntry d g ((d ++ [g.name]) ++ [n]) =
      match treeEntryGroups (d ++ [g.name]) g.groups
          ((d ++ [g.name]) ++ [n]) with
      | some e => some e
      | none => sEntry g.snippets n := by
  rw [treeEntry_def,
    if_neg (append_cons_ne_self (d ++ [g.name]) n []),
    if_pos (List.prefix_append _ _)]
  cases htg : treeEntryGroups (d ++ [g.name]) g.groups
      ((d ++ [g.name]) ++ [n]) with
  | some e => rfl
  | none =>
      rw [show ((d ++ [g.name]) ++ [n]).drop (d ++ [g.name]).length = [n]
        from List.drop_left _ _]

theorem treeEntry_under_child {d : Path} {g : Group}
    (hndG : (gnames g.groups).Nodup) {x : Group} (hx : x ∈ g.groups)
    {t : Path} :
    treeEntry d g ((d ++ [g.name]) ++ [x.name] ++ t) =
      treeEntry (d ++ [g.name]) x ((d ++ [g.name]) ++ [x.name] ++ t) := by
  have hform : (d ++ [g.name]) ++ [x.name] ++ t =
      (d ++ [g.name]) ++ (x.name :: t) := by
    rw [List.append_assoc (d ++ [g.name])]
    rfl
  rw [treeEntry_def,
    if_neg (by rw [hform]; exact append_cons_ne_self _ _ _),
    if_pos (by rw [hform]; exact List.prefix_append _ _)]
  rw [treeEntryGroups_eq_child hndG hx]
  cases hte : treeEntry (d ++ [g.name]) x
      ((d ++ [g.name]) ++ [x.name] ++ t) with
  | some e => rfl
  | none =>
      cases t with
      | nil =>
          rw [List.append_nil] at hte
          rw [treeEntry_self] at hte
          cases hte
      | cons c t'' =>
          rw [hform, show ((d ++ [g.name]) ++ x.name :: c :: t'').drop
            (d ++ [g.name]).length = x.name :: c :: t''
            from List.drop_left _ _]

theorem newSnippet_abbrs (s : Snippet) :
    (newMetadata s).abbreviation.abbreviations =
      if s.abbr = "" then [] else [s.abbr] := by
  by_cases ha : s.abbr = ""
  · simp [newMetadata, ha]
  · simp [newMetadata, ha]

theorem newMetadata_description (s : Snippet) :
    (newMetadata s).description = s.abbr := by
  by_cases ha : s.abbr = ""
  · simp [newMetadata, ha]
  · simp [newMetadata, ha]

theorem newSnippet_sfile {fs : FS} {dir : Path} {s : Snippet}
    (hbody : lookupFS fs (dir ++ [s.name ++ "." ++ snippetExt]) =
      some (.fileE (.body s.text) s.modTime))
    (hmd : lookupFS fs (dir ++ [s.name ++ "." ++ metadataExt]) =
      some (.fileE (.metadata (newMetadata s)) s.modTime)) :
    ∃ s', newSnippet fs (dir ++ [s.name ++ "." ++ snippetExt]) = .ok s' ∧
      s'.abbr = s.abbr ∧ s'.text = s.text := by
  unfold newSnippet
  rw [metadataPath_sfile, bind_ok]
  unfold parseMetadata
  rw [hmd, bind_ok]
  unfold readFile
  rw [hbody, bind_ok]
  by_cases ha : s.abbr = ""
  · rw [show ({ newMetadata s with modTime := s.modTime } :
        Metadata).abbreviation.abbreviations = [] from by
      rw [show ({ newMetadata s with modTime := s.modTime } :
          Metadata).abbreviation = (newMetadata s).abbreviation from rfl]
      rw [newSnippet_abbrs, if_pos ha]]
    exact ⟨_, rfl, ha.symm, rfl⟩
  · rw [show ({ newMetadata s with modTime := s.modTime } :
        Metadata).abbreviation.abbreviations = [s.abbr] from by
      rw [show ({ newMetadata s with modTime := s.modTime } :
          Metadata).abbreviation = (newMetadata s).abbreviation from rfl]
      rw [newSnippet_abbrs, if_neg ha]]
    exact ⟨_, rfl, rfl, rfl⟩

theorem newSnippet_mfile {fs : FS} {dir : Path} {s : Snippet}
    (hmd : lookupFS fs (dir ++ [s.name ++ "." ++ metadataExt]) =
      some (.fileE (.metadata (newMetadata s)) s.modTime)) :
    ∃ s', newSnippet fs (dir ++ [s.name ++ "." ++ metadataExt]) =
      .ok s' := by
  unfold newSnippet
  rw [metadataPath_mfile, bind_ok]
  unfold parseMetadata
  rw [hmd, bind_ok]
  unfold readFile
  rw [hmd, bind_ok]
  cases habbr : ({ newMetadata s with modTime := s.modTime } :
      Metadata).abbreviation.abbreviations with
  | nil => exact ⟨_, rfl⟩
  | cons a rest => exact ⟨_, rfl⟩

mutual

/-- The loaded counterpart of a written tree: every snippet reappears
with its abbreviation and body text, and every child group reappears
recursively.  (Loaded trees may hold extra twin snippets derived from
sidecar files; the round-trip claim only needs containment.) -/
def Mirror (g G : Group) : Prop :=
  match g with
  | .mk _ _ ss gs _ =>
      (∀ s ∈ ss, ∃ s' ∈ G.snippets, s'.abbr = s.abbr ∧ s'.text = s.text) ∧
      MirrorList gs G
termination_by sizeOf g
decreasing_by all_goals (simp_wf; try omega)

/-- Every group of the list reappears among `G`'s children. -/
def MirrorList (gs : List Group) (G : Group) : Prop :=
  match gs with
  | [] => True
  | x :: rest => (∃ G' ∈ G.groups, Mirror x G') ∧ MirrorList rest G
termination_by sizeOf gs
decreasing_by all_goals (simp_wf; try omega)

end

theorem Mirror_mk {r nm ss gs p} {G : Group} :
    Mirror (.mk r nm ss gs p) G ↔
      ((∀ s ∈ ss, ∃ s' ∈ G.snippets,
        s'.abbr = s.abbr ∧ s'.text = s.text) ∧
      MirrorList gs G) := by
  rw [Mirror]

theorem MirrorList_nil (G : Group) : MirrorList [] G := by
  rw [MirrorList.eq_def]
  trivial

theorem MirrorList_cons {x : Group} {rest : List Group} {G : Group} :
    MirrorList (x :: rest) G ↔
      ((∃ G' ∈ G.groups, Mirror x G') ∧ MirrorList rest G) := by
  rw [MirrorList.eq_def]

theorem treeEntryGroups_eq_child' {d : Path} {gs : List Group} {x : Group}
    {q : Path} (hnd : (gnames gs).Nodup) (hx : x ∈ gs)
    (hq : (d ++ [x.name]) <+: q) :
    treeEntryGroups d gs q = treeEntry d x q := by
  obtain ⟨t, rfl⟩ := hq
  exact treeEntryGroups_eq_child hnd hx

theorem treeEntry_under_child' {d : Path} {g : Group}
    (hndG : (gnames g.groups).Nodup) {x : Group} (hx : x ∈ g.groups)
    {q : Path} (hq : ((d ++ [g.name]) ++ [x.name]) <+: q) :
    treeEntry d g q = treeEntry (d ++ [g.name]) x q := by
  obtain ⟨t, rfl⟩ := hq
  exact treeEntry_under_child hndG hx

theorem MirrorList_of_forall {gs : List Group} {G : Group}
    (h : ∀ x ∈ gs, ∃ G' ∈ G.groups, Mirror x G') : MirrorList gs G := by
  induction gs with
  | nil => exact MirrorList_nil G
  | cons x rest ih =>
      exact MirrorList_cons.2 ⟨h x (List.mem_cons_self _ _),
        ih (fun y hy => h y (List.mem_cons_of_mem _ hy))⟩

theorem Mirror_iff (g G : Group) :
    Mirror g G ↔
      ((∀ s ∈ g.snippets, ∃ s' ∈ G.snippets,
        s'.abbr = s.abbr ∧ s'.text = s.text) ∧
      MirrorList g.groups G) := by
  cases g with
  | mk r nm ss gs p => exact Mirror_mk

/-- If the filesystem's contents under a group's directory are exactly
the written tree, the directory walk succeeds and loads a mirror of the
group. -/
theorem loadFS_mirror (g : Group) (d : Path) (fs : FS)
    (hok : treeOk g = true) (hnd : KeysNodup fs)
    (hS : ∀ q, (d ++ [g.name]) <+: q → lookupFS fs q = treeEntry d g q) :
    ∃ G, loadFS fs (d ++ [g.name]) = .ok G ∧ Mirror g G := by
  obtain ⟨hndS, hndG, hcol, hhid, hokL⟩ := treeOk_parts hok
  have hdir : lookupFS fs (d ++ [g.name]) = some .dirE := by
    rw [hS _ (List.prefix_refl _), treeEntry_self]
  have hrd : readDirFS fs (d ++ [g.name]) =
      .ok (sortByName (childEntries fs (d ++ [g.name]))) := by
    unfold readDirFS
    rw [hdir]
  have hlook1 : ∀ n : String, lookupFS fs ((d ++ [g.name]) ++ [n]) =
      match treeEntryGroups (d ++ [g.name]) g.groups
          ((d ++ [g.name]) ++ [n]) with
      | some e => some e
      | none => sEntry g.snippets n := by
    intro n
    rw [hS _ (List.prefix_append _ _), treeEntry_depth1]
  have hclsdir : ∀ n : String,
      lookupFS fs ((d ++ [g.name]) ++ [n]) = some .dirE →
      ∃ x ∈ g.groups, x.name = n := by
    intro n hl
    by_contra hA
    rw [hlook1 n,
      treeEntryGroups_none (fun x hx he => hA ⟨x, hx, he⟩)] at hl
    have hl' : sEntry g.snippets n = some .dirE := hl
    unfold sEntry at hl'
    cases hb : g.snippets.find?
        (fun s => n = s.name ++ "." ++ snippetExt) with
    | some s0 => rw [hb] at hl'; simp at hl'
    | none =>
        rw [hb] at hl'
        cases hm : g.snippets.find?
            (fun s => n = s.name ++ "." ++ metadataExt) with
        | some s1 => rw [hm] at hl'; simp at hl'
        | none => rw [hm] at hl'; simp at hl'
  have hclsfile : ∀ (n : String) (c : FContent) (t : Int),
      lookupFS fs ((d ++ [g.name]) ++ [n]) = some (.fileE c t) →
      (∃ s ∈ g.snippets, n = s.name ++ "." ++ snippetExt ∧
        c = .body s.text ∧ t = s.modTime) ∨
      (∃ s ∈ g.snippets, n = s.name ++ "." ++ metadataExt ∧
        c = .metadata (newMetadata s) ∧ t = s.modTime) := by
    intro n c t hl
    rw [hlook1 n] at hl
    by_cases hA : ∃ x ∈ g.groups, x.name = n
    · obtain ⟨x, hx, hxn⟩ := hA
      rw [treeEntryGroups_eq_child' hndG hx
        (by rw [hxn])] at hl
      rw [show treeEntry (d ++ [g.name]) x ((d ++ [g.name]) ++ [n]) =
          some .dirE from by rw [← hxn]; exact treeEntry_self _ _] at hl
      simp at hl
    · rw [treeEntryGroups_none (fun x hx he => hA ⟨x, hx, he⟩)] at hl
      have hl' : sEntry g.snippets n = some (.fileE c t) := hl
      unfold sEntry at hl'
      cases hb : g.snippets.find?
          (fun s => n = s.name ++ "." ++ snippetExt) with
      | some s0 =>
          rw [hb] at hl'
          have hp := List.find?_some hb
          rw [decide_eq_true_eq] at hp
          injection hl' with hl''
          injection hl'' with hc ht
          exact Or.inl ⟨s0, List.mem_of_find?_eq_some hb, hp, hc.symm,
            ht.symm⟩
      | none =>
          rw [hb] at hl'
          cases hm : g.snippets.find?
              (fun s => n = s.name ++ "." ++ metadataExt) with
          | some s1 =>
              rw [hm] at hl'
              have hp := List.find?_some hm
              rw [decide_eq_true_eq] at hp
              injection hl' with hl''
              injection hl'' with hc ht
              exact Or.inr ⟨s1, List.mem_of_find?_eq_some hm, hp,
                hc.symm, ht.symm⟩
          | none => rw [hm] at hl'; simp at hl'
  have hmd_of : ∀ s ∈ g.snippets,
      lookupFS fs ((d ++ [g.name]) ++ [s.name ++ "." ++ metadataExt]) =
        some (.fileE (.metadata (newMetadata s)) s.modTime) := by
    intro s hs
    rw [hlook1,
      treeEntryGroups_none (fun x hx => (hcol x hx s hs).2)]
    exact sEntry_mfile hndS hs
  have hbody_of : ∀ s ∈ g.snippets,
      lookupFS fs ((d ++ [g.name]) ++ [s.name ++ "." ++ snippetExt]) =
        some (.fileE (.body s.text) s.modTime) := by
    intro s hs
    rw [hlook1,
      treeEntryGroups_none (fun x hx => (hcol x hx s hs).1)]
    exact sEntry_sfile hndS hs
  have hchild_in : ∀ x ∈ g.groups, (x.name, FsEntry.dirE) ∈
      sortByName (childEntries fs (d ++ [g.name])) := by
    intro x hx
    refine (sortByName_perm _).mem_iff.2
      ((mem_childEntries (x.name, FsEntry.dirE)).2 (lookupFS_mem ?_))
    rw [hS _ (List.prefix_append _ _),
      treeEntry_under_child' hndG hx (List.prefix_refl _),
      treeEntry_self]
  have hsnip_in : ∀ s ∈ g.snippets,
      (s.name ++ "." ++ snippetExt,
        FsEntry.fileE (.body s.text) s.modTime) ∈
        sortByName (childEntries fs (d ++ [g.name])) := by
    intro s hs
    exact (sortByName_perm _).mem_iff.2
      ((mem_childEntries _).2 (lookupFS_mem (hbody_of s hs)))
  have hrec : ∀ x ∈ g.groups, ∃ G',
      loadFS fs ((d ++ [g.name]) ++ [x.name]) = .ok G' ∧ Mirror x G' := by
    intro x hx
    refine loadFS_mirror x (d ++ [g.name]) fs (treeOkList_mem hx hokL)
      hnd ?_
    intro q hq
    rw [hS q ((List.prefix_append _ _).trans hq),
      treeEntry_under_child' hndG hx hq]
  have hproc : ∀ l : List (String × FsEntry),
      ∀ hmem : ∀ p ∈ l, ((d ++ [g.name]) ++ [p.1], p.2) ∈ fs,
      ∃ ss' gs',
        loadEntriesFS fs (d ++ [g.name]) l hmem = .ok (ss', gs') ∧
        (∀ x ∈ g.groups, (x.name, FsEntry.dirE) ∈ l →
          ∃ G' ∈ gs', Mirror x G') ∧
        (∀ s ∈ g.snippets,
          (s.name ++ "." ++ snippetExt,
            FsEntry.fileE (.body s.text) s.modTime) ∈ l →
          ∃ s' ∈ ss', s'.abbr = s.abbr ∧ s'.text = s.text) := by
    intro l
    induction l with
    | nil =>
        intro hmem
        exact ⟨[], [], loadEntriesFS_nil _ _ _,
          fun x _ hin => absurd hin (List.not_mem_nil _),
          fun s _ hin => absurd hin (List.not_mem_nil _)⟩
    | cons p rest ih =>
        intro hmem
        obtain ⟨n, e⟩ := p
        have hlk : lookupFS fs ((d ++ [g.name]) ++ [n]) = some e :=
          mem_lookupFS hnd (hmem (n, e) (List.mem_cons_self _ _))
        obtain ⟨ss', gs', hrest, hrg, hrs⟩ :=
          ih (fun p hp => hmem p (List.mem_cons_of_mem _ hp))
        cases e with
        | dirE =>
            obtain ⟨x0, hx0, hx0n⟩ := hclsdir n hlk
            subst hx0n
            obtain ⟨G', hG', hMir⟩ := hrec x0 hx0
            refine ⟨ss', G' :: gs', ?_, ?_, ?_⟩
            · rw [loadEntriesFS_cons_dirE, hG', hrest]
            · intro x hx hin
              rcases List.mem_cons.1 hin with heq | hin'
              · injection heq with he1 _
                have hxx0 : x = x0 := eq_of_gnames_nodup hndG hx hx0 he1
                subst hxx0
                exact ⟨G', List.mem_cons_self _ _, hMir⟩
              · obtain ⟨G'', hmem'', hM''⟩ := hrg x hx hin'
                exact ⟨G'', List.mem_cons_of_mem _ hmem'', hM''⟩
            · intro s hs hin
              rcases List.mem_cons.1 hin with heq | hin'
              · injection heq with _ he2
                cases he2
              · exact hrs s hs hin'
        | fileE c t =>
            by_cases hhide : isHidden n = true
            · refine ⟨ss', gs', ?_, ?_, ?_⟩
              · rw [loadEntriesFS_cons_fileE, if_pos hhide, hrest]
              · intro x hx hin
                rcases List.mem_cons.1 hin with heq | hin'
                · injection heq with _ he2
                  cases he2
                · exact hrg x hx hin'
              · intro s hs hin
                rcases List.mem_cons.1 hin with heq | hin'
                · injection heq with he1 _
                  rw [← he1] at hhide
                  rw [hhid s hs] at hhide
                  cases hhide
                · exact hrs s hs hin'
            · rcases hclsfile n c t hlk with
                ⟨s0, hs0, hn0, hc0, ht0⟩ | ⟨s0, hs0, hn0, hc0, ht0⟩
              · subst hn0
                subst hc0
                subst ht0
                obtain ⟨s', hs', ha', ht'⟩ :=
                  newSnippet_sfile (hbody_of s0 hs0) (hmd_of s0 hs0)
                refine ⟨s' :: ss', gs', ?_, ?_, ?_⟩
                · rw [loadEntriesFS_cons_fileE, if_neg hhide, hs', hrest]
                · intro x hx hin
                  rcases List.mem_cons.1 hin with heq | hin'
                  · injection heq with _ he2
                    cases he2
                  · exact hrg x hx hin'
                · intro s hs hin
                  rcases List.mem_cons.1 hin with heq | hin'
                  · injection heq with he1 _
                    have hss0 : s = s0 :=
                      eq_of_snames_nodup hndS hs hs0 (sfile_inj he1)
                    subst hss0
                    exact ⟨s', List.mem_cons_self _ _, ha', ht'⟩
                  · obtain ⟨s'', hmem'', hM''⟩ := hrs s hs hin'
                    exact ⟨s'', List.mem_cons_of_mem _ hmem'', hM''⟩
              · subst hn0
                subst hc0
                subst ht0
                obtain ⟨s', hs'⟩ := newSnippet_mfile (hmd_of s0 hs0)
                refine ⟨s' :: ss', gs', ?_, ?_, ?_⟩
                · rw [loadEntriesFS_cons_fileE, if_neg hhide, hs', hrest]
                · intro x hx hin
                  rcases List.mem_cons.1 hin with heq | hin'
                  · injection heq with _ he2
                    cases he2
                  · exact hrg x hx hin'
                · intro s hs hin
                  rcases List.mem_cons.1 hin with heq | hin'
                  · injection heq with he1 _
                    exact absurd he1 (sfile_ne_mfile s.name s0.name)
                  · obtain ⟨s'', hmem'', hM''⟩ := hrs s hs hin'
                    exact ⟨s'', List.mem_cons_of_mem _ hmem'', hM''⟩
  obtain ⟨ss', gs', hok', hrg, hrs⟩ :=
    hproc (sortByName (childEntries fs (d ++ [g.name])))
      (readDirFS_mem hrd)
  refine ⟨.mk 0 (dirBase (d ++ [g.name])) ss' gs' none, ?_, ?_⟩
  · rw [loadFS_eq_ok hrd, hok']
  · refine (Mirror_iff g _).2 ⟨?_, ?_⟩
    · intro s hs
      obtain ⟨s', hmem', ha', ht'⟩ := hrs s hs (hsnip_in s hs)
      exact ⟨s', hmem', ha', ht'⟩
    · refine MirrorList_of_forall ?_
      intro x hx
      obtain ⟨G', hmem', hM'⟩ := hrg x hx (hchild_in x hx)
      exact ⟨G', hmem', hM'⟩
termination_by sizeOf g
decreasing_by
  simp_wf
  exact Nat.lt_trans (List.sizeOf_lt_of_mem hx) (Group.sizeOf_groups_lt g)

theorem treeHasSnip_def (a t : String) (G : Group) :
    treeHasSnip a t G =
      (G.snippets.any (fun s => s.abbr = a && s.text = t) ||
        treeHasSnipList a t G.groups) := by
  cases G with
  | mk r nm ss gs p => rw [treeHasSnip_mk]; rfl

theorem treeHasSnipList_iff (a t : String) (gs : List Group) :
    treeHasSnipList a t gs = true ↔
      ∃ x ∈ gs, treeHasSnip a t x = true := by
  induction gs with
  | nil => rw [treeHasSnipList_nil]; simp
  | cons x rest ih =>
      rw [treeHasSnipList_cons, Bool.or_eq_true, ih]
      constructor
      · rintro (h | ⟨y, hy, hh⟩)
        · exact ⟨x, List.mem_cons_self _ _, h⟩
        · exact ⟨y, List.mem_cons_of_mem _ hy, hh⟩
      · rintro ⟨y, hy, hh⟩
        rcases List.mem_cons.1 hy with rfl | hy'
        · exact Or.inl hh
        · exact Or.inr ⟨y, hy', hh⟩

theorem MirrorList_mem {gs : List Group} {G : Group}
    (h : MirrorList gs G) {x : Group} (hx : x ∈ gs) :
    ∃ G' ∈ G.groups, Mirror x G' := by
  induction gs with
  | nil => cases hx
  | cons y rest ih =>
      rw [MirrorList_cons] at h
      rcases List.mem_cons.1 hx with rfl | hx'
      · exact h.1
      · exact ih h.2 hx'

/-- A mirror of a tree containing a matching snippet also contains a
matching snippet. -/
theorem mirror_treeHasSnip (a t : String) (g : Group) :
    ∀ G : Group, Mirror g G → treeHasSnip a t g = true →
      treeHasSnip a t G = true := by
  intro G hM hh
  rw [treeHasSnip_def, Bool.or_eq_true] at hh
  obtain ⟨hsn, hgl⟩ := (Mirror_iff g G).1 hM
  rw [treeHasSnip_def, Bool.or_eq_true]
  rcases hh with hh | hh
  · left
    rw [List.any_eq_true] at hh ⊢
    obtain ⟨s, hs, hp⟩ := hh
    rw [Bool.and_eq_true, decide_eq_true_eq, decide_eq_true_eq] at hp
    obtain ⟨s', hs', ha', ht'⟩ := hsn s hs
    refine ⟨s', hs', ?_⟩
    rw [Bool.and_eq_true, decide_eq_true_eq, decide_eq_true_eq]
    exact ⟨ha'.trans hp.1, ht'.trans hp.2⟩
  · right
    rw [treeHasSnipList_iff] at hh
    obtain ⟨x, hx, hhx⟩ := hh
    obtain ⟨G', hG', hM'⟩ := MirrorList_mem hgl hx
    rw [treeHasSnipList_iff]
    exact ⟨G', hG', mirror_treeHasSnip a t x G' hM' hhx⟩
termination_by sizeOf g
decreasing_by
  simp_wf
  exact Nat.lt_trans (List.sizeOf_lt_of_mem hx) (Group.sizeOf_groups_lt g)

theorem self_mem_upsertAssoc {α : Type} (m : List (String × α))
    (k : String) (v : α) : (k, v) ∈ upsertAssoc m k v := by
  induction m with
  | nil =>
      rw [upsertAssoc]
      exact List.mem_singleton.2 rfl
  | cons kv0 rest ih =>
      obtain ⟨k0, v0⟩ := kv0
      rw [upsertAssoc]
      split
      · exact List.mem_cons_self _ _
      · exact List.mem_cons_of_mem _ ih

theorem fold_const_mem {G : Group} :
    ∀ (l : List Group) (m0 : List (String × AKRawGroup)),
      l ≠ [] → (∀ x ∈ l, x = G) →
      (G.name, AKRawGroup.mk G false) ∈ l.foldl
        (fun m g => upsertAssoc m g.name ⟨g, false⟩) m0 := by
  intro l
  induction l with
  | nil => intro m0 hne _; exact absurd rfl hne
  | cons x rest ih =>
      intro m0 _ hall
      have hx : x = G := hall x (List.mem_cons_self _ _)
      subst hx
      cases rest with
      | nil =>
          rw [List.foldl_cons, List.foldl_nil]
          exact self_mem_upsertAssoc m0 x.name ⟨x, false⟩
      | cons y rest' =>
          rw [List.foldl_cons]
          exact ih _ (List.cons_ne_nil y rest')
            (fun z hz => hall z (List.mem_cons_of_mem _ hz))

/-- C8: file-tree backend round trip.  For every valid group tree (the
data model's sibling-name uniqueness, no group/file name collisions, no
hidden snippet files) containing a snippet with abbreviation "ty" and
body "Thank you!", writing it through the backend (`SetGroup` then
`Write`) onto an empty filesystem and loading the same directory back
with `Load` yields a backend state with a group whose subtree contains a
snippet entry with abbreviation "ty" and body "Thank you!". -/
theorem C8_round_trip (g : Group) (dirRoot : Path) (now : Int) (fs' : FS)
    (hroot : dirRoot ≠ [])
    (hok : treeOk g = true)
    (hty : treeHasSnip "ty" "Thank you!" g = true)
    (hw : akWrite (akSetGroup (akNew dirRoot) g) now [] = .ok fs') :
    ∃ st', akLoad (akNew dirRoot) fs' = .ok st' ∧
      ∃ G ∈ akGroups st', treeHasSnip "ty" "Thank you!" G = true := by
  have hw' : akWriteList dirRoot now [(g.name, AKRawGroup.mk g true)] []
      = .ok fs' := hw
  rw [akWriteList, if_pos rfl] at hw'
  cases hwg : writeGroupFS dirRoot now g [] with
  | error e => rw [hwg, bind_err] at hw'; cases hw'
  | ok fs1 =>
  rw [hwg, bind_ok, akWriteList] at hw'
  injection hw' with hfs1
  subst hfs1
  obtain ⟨F, P, S⟩ := writeGroupFS_spec g dirRoot now [] fs1 hok
    (fun q _ => rfl) hwg
  have hnd : KeysNodup fs1 :=
    writeGroupFS_keys g dirRoot now [] fs1 hwg keysNodup_nil
  obtain ⟨G, hload, hMir⟩ := loadFS_mirror g dirRoot fs1 hok hnd S
  have hdirE_root : lookupFS fs1 dirRoot = some .dirE := by
    refine P dirRoot ?_
    rw [prefixesOf_snoc]
    exact List.mem_append_left _ (self_mem_prefixesOf hroot)
  have hrd_root : readDirFS fs1 dirRoot =
      .ok (sortByName (childEntries fs1 dirRoot)) := by
    unfold readDirFS
    rw [hdirE_root]
  have hL : ∀ p ∈ sortByName (childEntries fs1 dirRoot),
      p = (g.name, FsEntry.dirE) := by
    intro p hp
    obtain ⟨n, e⟩ := p
    have hmemfs : (dirRoot ++ [n], e) ∈ fs1 :=
      (mem_childEntries _).1 ((sortByName_perm _).mem_iff.1 hp)
    have hlk : lookupFS fs1 (dirRoot ++ [n]) = some e :=
      mem_lookupFS hnd hmemfs
    by_cases hng : n = g.name
    · subst hng
      rw [S _ (List.prefix_refl _), treeEntry_self] at hlk
      injection hlk with he
      rw [he]
    · exfalso
      rw [F _ (fun hp' => hng (prefix_snoc_cons hp').symm) ?_] at hlk
      · cases hlk
      · rw [prefixesOf_snoc]
        intro hmem'
        rcases List.mem_append.1 hmem' with hin | hin
        · exact under_ne_prefixesOf (by simp) hin
        · rw [List.mem_singleton] at hin
          exact hng (snoc_inj hin)
  have hGmem : (g.name, FsEntry.dirE) ∈
      sortByName (childEntries fs1 dirRoot) := by
    refine (sortByName_perm _).mem_iff.2
      ((mem_childEntries _).2 (lookupFS_mem ?_))
    rw [S _ (List.prefix_refl _), treeEntry_self]
  have hentries : ∀ l : List (String × FsEntry),
      (∀ p ∈ l, p = (g.name, FsEntry.dirE)) →
      ∀ hmem : ∀ p ∈ l, (dirRoot ++ [p.1], p.2) ∈ fs1,
      ∃ gs', loadEntriesFS fs1 dirRoot l hmem = .ok ([], gs') ∧
        (l ≠ [] → G ∈ gs') ∧ (∀ G' ∈ gs', G' = G) := by
    intro l
    induction l with
    | nil =>
        intro _ hmem
        exact ⟨[], loadEntriesFS_nil _ _ _,
          fun hne => absurd rfl hne,
          fun G' hG' => absurd hG' (List.not_mem_nil G')⟩
    | cons p rest ih =>
        intro hall hmem
        have hp := hall p (List.mem_cons_self _ _)
        subst hp
        obtain ⟨gs', hrest, _, hallG⟩ :=
          ih (fun p hp => hall p (List.mem_cons_of_mem _ hp))
            (fun p hp => hmem p (List.mem_cons_of_mem _ hp))
        refine ⟨G :: gs', ?_, fun _ => List.mem_cons_self _ _, ?_⟩
        · rw [loadEntriesFS_cons_dirE, hload, hrest]
        · intro G' hG'
          rcases List.mem_cons.1 hG' with rfl | hG''
          · rfl
          · exact hallG G' hG''
  obtain ⟨gs', hok', hGin, hallG⟩ :=
    hentries (sortByName (childEntries fs1 dirRoot)) hL
      (readDirFS_mem hrd_root)
  have hroot_load : loadFS fs1 dirRoot =
      .ok (Group.mk 0 (dirBase dirRoot) [] gs' none) := by
    rw [loadFS_eq_ok hrd_root, hok']
  refine ⟨⟨dirRoot,
      gs'.foldl (fun m x => upsertAssoc m x.name ⟨x, false⟩) []⟩, ?_, ?_⟩
  · unfold akLoad
    rw [show (akNew dirRoot).dir = dirRoot from rfl, hroot_load]
    rfl
  · have hGne : G ∈ gs' := hGin (by
      intro he
      rw [he] at hGmem
      exact List.not_mem_nil _ hGmem)
    refine ⟨G, ?_, mirror_treeHasSnip _ _ g G hMir hty⟩
    unfold akGroups
    refine List.mem_map.2 ⟨(G.name, AKRawGroup.mk G false), ?_, rfl⟩
    refine fold_const_mem gs' [] ?_ hallG
    intro he
    rw [he] at hGne
    exact List.not_mem_nil _ hGne

/-- A concrete snippet for the `C8` witness. -/
def c8snip : Snippet := ⟨"t", "ty", "Thank you!", none, 5⟩

/-- A concrete group for the `C8` witness. -/
def c8grp : Group := .mk 0 "g" [c8snip] [] none

/-- The state writing `c8grp` onto the empty filesystem leaves. -/
def c8fs : FS :=
  [(["root"], .dirE), (["root", "g"], .dirE),
   (["root", "g", "t.json"], .fileE (.metadata (newMetadata c8snip)) 5),
   (["root", "g", "t.txt"], .fileE (.body "Thank you!") 5)]

/-- Witness for `C8_round_trip` at a concrete group, written onto the
empty filesystem and loaded back. -/
theorem C8_round_trip_witness :
    ∃ st', akLoad (akNew ["root"]) c8fs = .ok st' ∧
      ∃ G ∈ akGroups st', treeHasSnip "ty" "Thank you!" G = true := by
  have hok : treeOk c8grp = true := by
    show treeOk (Group.mk 0 "g" [c8snip] [] none) = true
    rw [treeOk_mk, treeOkList_nil]
    decide
  have hty : treeHasSnip "ty" "Thank you!" c8grp = true := by
    show treeHasSnip "ty" "Thank you!"
      (Group.mk 0 "g" [c8snip] [] none) = true
    rw [treeHasSnip_mk, treeHasSnipList_nil]
    decide
  have hg : writeGroupFS ["root"] 7 c8grp [] = .ok c8fs := by
    show writeGroupFS ["root"] 7 (Group.mk 0 "g" [c8snip] [] none) [] =
      .ok c8fs
    rw [writeGroupFS_mk]
    rw [show mkdirAll ([] : FS) (["root"] ++ ["g"]) =
      .ok [((["root"] : Path), FsEntry.dirE),
        (["root", "g"], FsEntry.dirE)] from rfl, bind_ok]
    rw [writeGroupsFS_nil, bind_ok]
    rfl
  have hw : akWrite (akSetGroup (akNew ["root"]) c8grp) 7 [] =
      .ok c8fs := by
    show akWriteList ["root"] 7 [("g", AKRawGroup.mk c8grp true)] [] =
      .ok c8fs
    rw [akWriteList, if_pos rfl, hg, bind_ok]
    rfl
  exact C8_round_trip c8grp ["root"] 7 c8fs (by decide) hok hty hw

end Spandex
